import Mathlib

/-!
# Verification of the graph-algorithm scripts

A shallow embedding, in Lean 4, of the three Python scripts of this
repository:

* `q1_floyd_central.py` — Floyd–Warshall all-pairs shortest paths with a
  next-hop routing matrix, path reconstruction and central-vertex choice
  (namespace `Q1`);
* `q2_otimizando_caminho.py` — Bellman–Ford with early exit (namespace `Q2`);
* `q3_grid.py` — Dijkstra over a character grid with a lazy-deletion
  priority queue (namespace `Q3`).

Python `float` weights are modelled as exact rationals (`ℚ`), `math.inf`
as `⊤` in `WithTop`; integer weights as `ℤ` or `ℕ`.  In-place matrix /
array updates are modelled by pointwise functional update, and the
`for`-loops by `List.foldl` over the same index ranges the source
iterates over.  Unbounded `while`-loops are modelled with an explicit
fuel parameter together with a proof that the fuel chosen suffices.
-/

namespace Q1

/-- Extended weights: Python floats with `math.inf`. -/
abbrev EW := WithTop ℚ

/-- A parsed edge line `(u, v, w)`. -/
abbrev Edge := ℕ × ℕ × ℚ

/-- The distance matrix `D`, modelled as a total function; the Python list
of lists only ever has indices `0..n` populated. -/
abbrev Dmat := ℕ → ℕ → EW

/-- The routing matrix `R`; `none` models Python `None`. -/
abbrev Rmat := ℕ → ℕ → Option ℕ

/-- `read_undirected_graph_from_txt`, data-line part: every parsed line
`(u, v, w)` is appended in both directions (`edges.append((u,v,w))`
followed by `edges.append((v,u,w))`). -/
def read_undirected_edges (lines : List Edge) : List Edge :=
  lines.flatMap fun e => [(e.1, e.2.1, e.2.2), (e.2.1, e.1, e.2.2)]

/-- The Python index range `range(1, n+1)` as a list. -/
def range1 (n : ℕ) : List ℕ := (List.range n).map (· + 1)

/-- Pointwise update of a distance matrix (`D[i][j] = a`). -/
def updD (D : Dmat) (i j : ℕ) (a : EW) : Dmat :=
  fun x y => if x = i ∧ y = j then a else D x y

/-- Pointwise update of a routing matrix (`R[i][j] = a`). -/
def updR (R : Rmat) (i j : ℕ) (a : Option ℕ) : Rmat :=
  fun x y => if x = i ∧ y = j then a else R x y

/-- The matrix `[[INF]*(n+1) ...]` after the loop setting `D[i][i] = 0.0`
for `i` in `range(1, n+1)`. -/
def initD0 (n : ℕ) : Dmat :=
  fun i j => if i = j ∧ 1 ≤ i ∧ i ≤ n then 0 else ⊤

/-- The loop `for u, v, w in edges: if w < D[u][v]: D[u][v] = w`. -/
def edgeFold (D : Dmat) (edges : List Edge) : Dmat :=
  edges.foldl
    (fun D e => if (e.2.2 : EW) < D e.1 e.2.1 then updD D e.1 e.2.1 e.2.2 else D) D

/-- The loop filling `R`: `R[i][j] = j` whenever `D[i][j] < INF`, for
`i, j` in `range(1, n+1)`; everything else stays `None`. -/
def initR (n : ℕ) (D : Dmat) : Rmat :=
  fun i j =>
    if 1 ≤ i ∧ i ≤ n ∧ 1 ≤ j ∧ j ≤ n ∧ D i j < ⊤ then some j else none

/-- `floyd_init_with_routing`. -/
def floyd_init_with_routing (n : ℕ) (edges : List Edge) : Dmat × Rmat :=
  let D := edgeFold (initD0 n) edges
  (D, initR n D)

/-- Innermost statement of the triple loop, for fixed `k`, `i` and the
hoisted `dik = D[i][k]`: `alt = dik + D[k][j]; if alt < D[i][j]:
D[i][j] = alt; R[i][j] = R[i][k]`. -/
def fwInner (k i : ℕ) (dik : EW) (DR : Dmat × Rmat) (j : ℕ) : Dmat × Rmat :=
  let alt := dik + DR.1 k j
  if alt < DR.1 i j then (updD DR.1 i j alt, updR DR.2 i j (DR.2 i k)) else DR

/-- The body of the `i` loop: hoist `dik = D[i][k]`, skip the row when it
is `INF` (`continue`), otherwise run the `j` loop. -/
def fwRow (n k : ℕ) (DR : Dmat × Rmat) (i : ℕ) : Dmat × Rmat :=
  let dik := DR.1 i k
  if dik = ⊤ then DR else (range1 n).foldl (fwInner k i dik) DR

/-- One iteration of the outer `k` loop. -/
def fwPhase (n : ℕ) (DR : Dmat × Rmat) (k : ℕ) : Dmat × Rmat :=
  (range1 n).foldl (fwRow n k) DR

/-- `floyd_warshall_with_routing`: initialisation followed by the triple
loop over `k, i, j` in `range(1, n+1)`. -/
def floyd_warshall_with_routing (n : ℕ) (edges : List Edge) : Dmat × Rmat :=
  (range1 n).foldl (fwPhase n) (floyd_init_with_routing n edges)

/-- The `while cur != j and limit > 0` loop of `reconstruct_path`,
with the remaining `limit` as structural fuel.  Exits with the
accumulated `path` when `cur == j`; returns `[]` when the guard expires
or when a next hop is `None`. -/
def rpGo (R : Rmat) (j : ℕ) : ℕ → ℕ → List ℕ → List ℕ
  | 0, cur, path => if cur = j then path else []
  | limit + 1, cur, path =>
    if cur = j then path
    else
      match R cur j with
      | none => []
      | some nxt => rpGo R j limit nxt (path ++ [nxt])

/-- `reconstruct_path(R, i, j)`.  `nR` models `len(R)`, which is `n + 1`
for a matrix produced by `floyd_warshall_with_routing`; the guard is
`limit = len(R) * len(R)`. -/
def reconstruct_path (nR : ℕ) (R : Rmat) (i j : ℕ) : List ℕ :=
  if i = j then [i]
  else if R i j = none then []
  else rpGo R j (nR * nR) i [i]

/-- `D[v][1:]`: the `n` entries `D[v][1], …, D[v][n]`. -/
def rowList (D : Dmat) (n v : ℕ) : List EW := (range1 n).map (D v)

/-- `sum(D[v][1:])`. -/
def rowSum (D : Dmat) (n v : ℕ) : EW := (rowList D n v).sum

/-- One iteration of the `choose_central_vertex` loop; the running state
is `(best_v, best_sum, best_row)`. -/
def ccvStep (D : Dmat) (n : ℕ) (st : Option ℕ × EW × Option (List EW)) (v : ℕ) :
    Option ℕ × EW × Option (List EW) :=
  let row := rowList D n v
  let s := row.sum
  if s < st.2.1 then (some v, s, some row) else st

/-- `choose_central_vertex(D)`: scan `v` in `range(1, n+1)` starting from
`(None, INF, None)` and return `(best_v, best_row)`. -/
def choose_central_vertex (D : Dmat) (n : ℕ) : Option ℕ × Option (List EW) :=
  let st := (range1 n).foldl (ccvStep D n) (none, ⊤, none)
  (st.1, st.2.2)

/-- Iterating the next-hop map toward destination `j`: `iterNext R j m x`
is the vertex reached from `x` after `m` hops, or `none` if a hop is
undefined on the way. -/
def iterNext (R : Rmat) (j : ℕ) : ℕ → ℕ → Option ℕ
  | 0, cur => some cur
  | m + 1, cur =>
    match R cur j with
    | none => none
    | some nxt => iterNext R j m nxt

example : range1 3 = [1, 2, 3] := by decide

example :
    (floyd_warshall_with_routing 3
      (read_undirected_edges [(1, 2, 1), (2, 3, 1), (1, 3, 5)])).1 1 3 = ((2 : ℚ) : EW) := by
  norm_num [floyd_warshall_with_routing, floyd_init_with_routing, range1, List.range_succ,
    fwPhase, fwRow, fwInner, edgeFold, initD0, initR, updD, updR, read_undirected_edges,
    lt_top_iff_ne_top, -WithTop.coe_ofNat, -WithTop.coe_add, ← WithTop.coe_add,
    ← WithTop.coe_zero, ← WithTop.coe_one]

example :
    reconstruct_path 4
      (floyd_warshall_with_routing 3
        (read_undirected_edges [(1, 2, 1), (2, 3, 1), (1, 3, 5)])).2 1 3 = [1, 2, 3] := by
  norm_num [floyd_warshall_with_routing, floyd_init_with_routing, range1, List.range_succ,
    fwPhase, fwRow, fwInner, edgeFold, initD0, initR, updD, updR, read_undirected_edges,
    lt_top_iff_ne_top, reconstruct_path, rpGo, -WithTop.coe_ofNat, -WithTop.coe_add,
    ← WithTop.coe_add, ← WithTop.coe_zero, ← WithTop.coe_one]
  decide

/-! ## Basic facts about the index range and matrix updates -/

theorem mem_range1 {n x : ℕ} : x ∈ range1 n ↔ 1 ≤ x ∧ x ≤ n := by
  simp only [range1, List.mem_map, List.mem_range]
  constructor
  · rintro ⟨a, ha, rfl⟩; omega
  · rintro ⟨h1, h2⟩; exact ⟨x - 1, by omega, by omega⟩

theorem range1_nodup (n : ℕ) : (range1 n).Nodup :=
  (List.nodup_range n).map fun _ _ => by omega

theorem range1_pairwise_lt (n : ℕ) : (range1 n).Pairwise (· < ·) :=
  (List.pairwise_lt_range n).map _ fun h => by omega

theorem range1_succ (n : ℕ) : range1 (n + 1) = range1 n ++ [n + 1] := by
  simp [range1, List.range_succ]

theorem updD_self (D : Dmat) (i j : ℕ) (a : EW) : updD D i j a i j = a := by
  simp [updD]

theorem updD_ne (D : Dmat) (i j : ℕ) (a : EW) {x y : ℕ} (h : ¬(x = i ∧ y = j)) :
    updD D i j a x y = D x y := by
  simp [updD, h]

theorem updR_self (R : Rmat) (i j : ℕ) (a : Option ℕ) : updR R i j a i j = a := by
  simp [updR]

theorem updR_ne (R : Rmat) (i j : ℕ) (a : Option ℕ) {x y : ℕ} (h : ¬(x = i ∧ y = j)) :
    updR R i j a x y = R x y := by
  simp [updR, h]

/-! ## C8: the cycle guard of `reconstruct_path` -/

theorem rpGo_cases (R : Rmat) (j : ℕ) :
    ∀ (limit cur : ℕ) (path : List ℕ), path.getLast? = some cur →
      rpGo R j limit cur path = [] ∨
        ∃ q, rpGo R j limit cur path = path ++ q ∧ q.length ≤ limit ∧
          (path ++ q).getLast? = some j ∧ ∃ m, m ≤ limit ∧ iterNext R j m cur = some j := by
  intro limit
  induction limit with
  | zero =>
    intro cur path hlast
    by_cases hc : cur = j
    · subst hc
      exact Or.inr ⟨[], by simp [rpGo], by simp, by simpa using hlast, 0, le_rfl, rfl⟩
    · simp [rpGo, hc]
  | succ l ih =>
    intro cur path hlast
    by_cases hc : cur = j
    · subst hc
      exact Or.inr ⟨[], by simp [rpGo], by simp, by simpa using hlast, 0, by omega, rfl⟩
    · simp only [rpGo, hc, if_false]
      cases hR : R cur j with
      | none => exact Or.inl rfl
      | some nxt =>
        dsimp only
        rcases ih nxt (path ++ [nxt]) (by simp) with h | ⟨q, hq, hlen, hlq, m, hm, hreach⟩
        · exact Or.inl h
        · refine Or.inr ⟨nxt :: q, ?_, by simpa using Nat.succ_le_succ hlen, ?_,
            m + 1, by omega, ?_⟩
          · rw [hq, List.append_assoc]; rfl
          · rwa [List.append_assoc] at hlq
          · simpa [iterNext, hR] using hreach

/-- C8: `reconstruct_path(R, i, j)` terminates for every routing matrix `R`,
the next-hop walk being bounded by the `len(R)²` cycle guard: the result is
always either empty or a sequence from `i` to `j` of at most `nR² + 1`
vertices; it is empty whenever `R[i][j]` is `None` (with `i ≠ j`), and empty
whenever following next-hops from `i` does not reach `j` within `nR²` steps
(in particular when the guard expires). -/
theorem C8_reconstruct_path_guard (nR : ℕ) (R : Rmat) (i j : ℕ) :
    (i ≠ j → R i j = none → reconstruct_path nR R i j = []) ∧
    ((∀ m, m ≤ nR * nR → iterNext R j m i ≠ some j) → reconstruct_path nR R i j = []) ∧
    (∀ p, reconstruct_path nR R i j = p →
      p = [] ∨ (p.head? = some i ∧ p.getLast? = some j ∧ p.length ≤ nR * nR + 1)) := by
  refine ⟨fun hne hnone => ?_, fun hfail => ?_, fun p hp => ?_⟩
  · simp [reconstruct_path, hne, hnone]
  · by_cases hij : i = j
    · exact absurd (hfail 0 (by omega)) (by simp [iterNext, hij])
    · unfold reconstruct_path
      simp only [hij, if_false]
      by_cases hnone : R i j = none
      · simp [hnone]
      · simp only [hnone, if_false]
        rcases rpGo_cases R j (nR * nR) i [i] (by simp) with h | ⟨q, hq, hlen, hlq, m, hm, hreach⟩
        · exact h
        · exact absurd hreach (hfail m hm)
  · subst hp
    by_cases hij : i = j
    · subst hij
      exact Or.inr ⟨by simp [reconstruct_path], by simp [reconstruct_path], by
        simp [reconstruct_path]⟩
    · unfold reconstruct_path
      simp only [hij, if_false]
      by_cases hnone : R i j = none
      · simp [hnone]
      · simp only [hnone, if_false]
        rcases rpGo_cases R j (nR * nR) i [i] (by simp) with h | ⟨q, hq, hlen, hlq, m, hm, hreach⟩
        · exact Or.inl h
        · refine Or.inr ?_
          rw [hq]
          refine ⟨by simp, hlq, by simpa using hlen⟩

/-- Witness for C8 at a concrete undefined routing entry. -/
theorem C8_reconstruct_path_guard_witness :
    reconstruct_path 3 (fun _ _ => none) 1 2 = [] :=
  (C8_reconstruct_path_guard 3 (fun _ _ => none) 1 2).1 (by decide) rfl

/-! ## C5 / C10: `choose_central_vertex` -/

theorem ccv_fold_top (D : Dmat) (n : ℕ) :
    ∀ l : List ℕ, (∀ v ∈ l, rowSum D n v = ⊤) →
      l.foldl (ccvStep D n) (none, ⊤, none) = (none, ⊤, none) := by
  intro l
  induction l with
  | nil => intro _; rfl
  | cons x xs ih =>
    intro h
    have hx : rowSum D n x = ⊤ := h x (List.mem_cons_self x xs)
    have : ccvStep D n (none, ⊤, none) x = (none, ⊤, none) := by
      simp [ccvStep, show (rowList D n x).sum = ⊤ from hx]
    rw [List.foldl_cons, this]
    exact ih fun v hv => h v (List.mem_cons_of_mem _ hv)

/-- C10: when every vertex row-sums to `∞`, the strict comparison against the
initial `INF` best sum never fires and `choose_central_vertex` returns
`(None, None)`. -/
theorem C10_choose_central_vertex_none (D : Dmat) (n : ℕ)
    (h : ∀ v ∈ range1 n, rowSum D n v = ⊤) :
    choose_central_vertex D n = (none, none) := by
  unfold choose_central_vertex
  rw [ccv_fold_top D n (range1 n) h]

/-- Witness for C10: the two-vertex graph with no edges; each row sum is
`0 + ∞ = ∞`. -/
theorem C10_choose_central_vertex_none_witness :
    choose_central_vertex (floyd_warshall_with_routing 2 (read_undirected_edges [])).1 2 =
      (none, none) :=
  C10_choose_central_vertex_none _ 2 (by
    norm_num [floyd_warshall_with_routing, floyd_init_with_routing, range1, List.range_succ,
      fwPhase, fwRow, fwInner, edgeFold, initD0, initR, updD, updR, read_undirected_edges,
      rowSum, rowList, lt_top_iff_ne_top])

/-- The state of the `choose_central_vertex` scan after processing some
prefix of the vertex list: either nothing was ever better than `INF`, or the
state holds the earliest strict minimum seen so far. -/
theorem ccv_fold_spec (D : Dmat) (n : ℕ) :
    ∀ l : List ℕ,
      (l.foldl (ccvStep D n) (none, ⊤, none) = (none, ⊤, none) ∧
        ∀ u ∈ l, rowSum D n u = ⊤) ∨
      (∃ v l1 l2, l = l1 ++ v :: l2 ∧
        (l.foldl (ccvStep D n) (none, ⊤, none)) =
          (some v, rowSum D n v, some (rowList D n v)) ∧
        rowSum D n v < ⊤ ∧
        (∀ u ∈ l1, rowSum D n v < rowSum D n u) ∧
        (∀ u ∈ l2, rowSum D n v ≤ rowSum D n u)) := by
  intro l
  induction l using List.reverseRecOn with
  | nil => exact Or.inl ⟨rfl, by simp⟩
  | append_singleton xs x ih =>
    rw [List.foldl_append, List.foldl_cons, List.foldl_nil]
    rcases ih with ⟨hst, htop⟩ | ⟨v, l1, l2, hsplit, hst, hfin, hlt, hle⟩
    · rw [hst]
      by_cases hx : rowSum D n x < ⊤
      · refine Or.inr ⟨x, xs, [], by simp, ?_, hx, fun u hu => ?_, by simp⟩
        · simp [ccvStep, show ((rowList D n x).sum : EW) = rowSum D n x from rfl, hx]
        · rw [htop u hu]; exact hx
      · refine Or.inl ⟨?_, ?_⟩
        · simp only [ccvStep]
          rw [if_neg (by exact hx)]
        · intro u hu
          rcases List.mem_append.mp hu with hu | hu
          · exact htop u hu
          · rw [List.mem_singleton.mp hu]
            exact by rwa [lt_top_iff_ne_top, not_not] at hx
    · rw [hst]
      by_cases hx : rowSum D n x < rowSum D n v
      · refine Or.inr ⟨x, xs, [], by simp, ?_, hx.trans hfin, fun u hu => ?_, by simp⟩
        · simp [ccvStep, show ((rowList D n x).sum : EW) = rowSum D n x from rfl, hx]
        · rw [hsplit] at hu
          rcases List.mem_append.mp hu with hu | hu
          · exact hx.trans (hlt u hu)
          · rcases List.mem_cons.mp hu with rfl | hu
            · exact hx
            · exact hx.trans_le (hle u hu)
      · refine Or.inr ⟨v, l1, l2 ++ [x], by rw [hsplit]; simp, ?_, hfin, hlt, fun u hu => ?_⟩
        · simp only [ccvStep]
          rw [if_neg (by exact hx)]
        · rcases List.mem_append.mp hu with hu | hu
          · exact hle u hu
          · rw [List.mem_singleton.mp hu]
            exact le_of_not_lt hx

/-- Counterexample to C5 as stated: on the completed distance matrix of the
two-vertex graph with no edges (every row sum `∞`), `choose_central_vertex`
returns no vertex at all. -/
theorem C5_choose_central_vertex_counterexample :
    (choose_central_vertex (floyd_warshall_with_routing 2 (read_undirected_edges [])).1 2).1 =
      none := by
  have h : ∀ v ∈ range1 2,
      rowSum (floyd_warshall_with_routing 2 (read_undirected_edges [])).1 2 v = ⊤ := by
    norm_num [floyd_warshall_with_routing, floyd_init_with_routing, range1, List.range_succ,
      fwPhase, fwRow, fwInner, edgeFold, initD0, initR, updD, updR, read_undirected_edges,
      rowSum, rowList, lt_top_iff_ne_top]
  unfold choose_central_vertex
  rw [ccv_fold_top _ 2 (range1 2) h]

/-- C5, amended: provided at least one vertex in `1..n` has a finite row
sum, `choose_central_vertex` returns a vertex of minimal row sum, and the
one with the lowest index among the minimisers. -/
theorem C5_choose_central_vertex_min (D : Dmat) (n : ℕ)
    (h : ∃ v ∈ range1 n, rowSum D n v ≠ ⊤) :
    ∃ v, (choose_central_vertex D n).1 = some v ∧ v ∈ range1 n ∧
      (∀ u ∈ range1 n, rowSum D n v ≤ rowSum D n u) ∧
      (∀ u ∈ range1 n, rowSum D n u = rowSum D n v → v ≤ u) := by
  rcases ccv_fold_spec D n (range1 n) with ⟨_, htop⟩ | ⟨v, l1, l2, hsplit, hst, hfin, hlt, hle⟩
  · rcases h with ⟨v, hv, hne⟩
    exact absurd (htop v hv) hne
  · have hmem : v ∈ range1 n := by rw [hsplit]; simp
    have hmin : ∀ u ∈ range1 n, rowSum D n v ≤ rowSum D n u := by
      intro u hu
      rw [hsplit] at hu
      rcases List.mem_append.mp hu with hu | hu
      · exact (hlt u hu).le
      · rcases List.mem_cons.mp hu with rfl | hu
        · exact le_rfl
        · exact hle u hu
    refine ⟨v, ?_, hmem, hmin, ?_⟩
    · unfold choose_central_vertex
      rw [hst]
    · intro u hu heq
      rw [hsplit] at hu
      rcases List.mem_append.mp hu with hu | hu
      · exact absurd heq (ne_of_gt (hlt u hu))
      · rcases List.mem_cons.mp hu with rfl | hu
        · exact le_rfl
        · have hpair := range1_pairwise_lt n
          rw [hsplit] at hpair
          have := (List.pairwise_append.mp hpair).2.1
          exact (List.pairwise_cons.mp this).1 u hu |>.le

/-- Witness for the amended C5 on the triangle graph of the spec scenario:
vertex 2 has the strictly smallest row sum. -/
theorem C5_choose_central_vertex_min_witness :
    ∃ v, (choose_central_vertex
        (floyd_warshall_with_routing 3
          (read_undirected_edges [(1, 2, 1), (2, 3, 1), (1, 3, 5)])).1 3).1 = some v ∧
      v ∈ range1 3 ∧
      (∀ u ∈ range1 3, rowSum (floyd_warshall_with_routing 3
          (read_undirected_edges [(1, 2, 1), (2, 3, 1), (1, 3, 5)])).1 3 v ≤
        rowSum (floyd_warshall_with_routing 3
          (read_undirected_edges [(1, 2, 1), (2, 3, 1), (1, 3, 5)])).1 3 u) ∧
      (∀ u ∈ range1 3, rowSum (floyd_warshall_with_routing 3
          (read_undirected_edges [(1, 2, 1), (2, 3, 1), (1, 3, 5)])).1 3 u =
        rowSum (floyd_warshall_with_routing 3
          (read_undirected_edges [(1, 2, 1), (2, 3, 1), (1, 3, 5)])).1 3 v → v ≤ u) :=
  C5_choose_central_vertex_min _ 3 (by
    refine ⟨1, by decide, ?_⟩
    norm_num [floyd_warshall_with_routing, floyd_init_with_routing, range1, List.range_succ,
      fwPhase, fwRow, fwInner, edgeFold, initD0, initR, updD, updR, read_undirected_edges,
      rowSum, rowList, lt_top_iff_ne_top, -WithTop.coe_ofNat, -WithTop.coe_add,
      ← WithTop.coe_add, ← WithTop.coe_zero, ← WithTop.coe_one])

/-! ## Characterisation of one `k`-phase of the triple loop

During phase `k`, row `k` and column `k` of `D` never change (their updates
would need `D[k][k] + x < x`, impossible once `D[k][k] = 0`), so the
sequential in-place double loop acts as a simultaneous update reading only
the phase-start matrix. -/

/-- The update condition of phase `k` at position `(x, y)`, read on the
phase-start matrix. -/
def phaseCond (D : Dmat) (k x y : ℕ) : Prop := D x k + D k y < D x y

instance (D : Dmat) (k x y : ℕ) : Decidable (phaseCond D k x y) := by
  unfold phaseCond; infer_instance

/-- Mid-phase description of the state: positions satisfying `C` have been
processed (and took the update exactly when `phaseCond` holds there);
all other positions still hold the phase-start values. -/
def updSpec (k : ℕ) (D₀ : Dmat) (R₀ : Rmat) (C : ℕ → ℕ → Prop) (DR : Dmat × Rmat) : Prop :=
  (∀ x y, C x y → phaseCond D₀ k x y →
    DR.1 x y = D₀ x k + D₀ k y ∧ DR.2 x y = R₀ x k) ∧
  (∀ x y, ¬C x y ∨ ¬phaseCond D₀ k x y →
    DR.1 x y = D₀ x y ∧ DR.2 x y = R₀ x y)

theorem updSpec_congr {k : ℕ} {D₀ : Dmat} {R₀ : Rmat} {C C' : ℕ → ℕ → Prop}
    {DR : Dmat × Rmat} (h : ∀ x y, C x y ↔ C' x y) (hs : updSpec k D₀ R₀ C DR) :
    updSpec k D₀ R₀ C' DR :=
  ⟨fun x y hc => hs.1 x y ((h x y).mpr hc),
   fun x y hc => hs.2 x y (hc.imp (fun hn hcx => hn ((h x y).mp hcx)) id)⟩

theorem phaseCond_col_k {D₀ : Dmat} {k : ℕ} (hkk : D₀ k k = 0) (x : ℕ) :
    ¬phaseCond D₀ k x k := by
  unfold phaseCond
  rw [hkk, add_zero]
  exact lt_irrefl _

theorem phaseCond_row_k {D₀ : Dmat} {k : ℕ} (hkk : D₀ k k = 0) (y : ℕ) :
    ¬phaseCond D₀ k k y := by
  unfold phaseCond
  rw [hkk, zero_add]
  exact lt_irrefl _

theorem updSpec_read_col {k : ℕ} {D₀ : Dmat} {R₀ : Rmat} {C : ℕ → ℕ → Prop}
    {DR : Dmat × Rmat} (hkk : D₀ k k = 0) (hs : updSpec k D₀ R₀ C DR) (x : ℕ) :
    DR.1 x k = D₀ x k ∧ DR.2 x k = R₀ x k :=
  hs.2 x k (Or.inr (phaseCond_col_k hkk x))

theorem updSpec_read_row {k : ℕ} {D₀ : Dmat} {R₀ : Rmat} {C : ℕ → ℕ → Prop}
    {DR : Dmat × Rmat} (hkk : D₀ k k = 0) (hs : updSpec k D₀ R₀ C DR) (y : ℕ) :
    DR.1 k y = D₀ k y :=
  (hs.2 k y (Or.inr (phaseCond_row_k hkk y))).1

theorem fwInner_spec {k : ℕ} {D₀ : Dmat} {R₀ : Rmat} {C : ℕ → ℕ → Prop}
    {DR : Dmat × Rmat} (hkk : D₀ k k = 0) (hs : updSpec k D₀ R₀ C DR)
    (i j : ℕ) :
    updSpec k D₀ R₀ (fun x y => C x y ∨ (x = i ∧ y = j))
      (fwInner k i (D₀ i k) DR j) := by
  have hrow := updSpec_read_row hkk hs j
  unfold fwInner
  simp only [hrow]
  by_cases hcond : phaseCond D₀ k i j
  · by_cases hCij : C i j
    · have hij := hs.1 i j hCij hcond
      rw [if_neg (by rw [hij.1]; exact lt_irrefl _)]
      refine ⟨fun x y hc hcnd => ?_,
        fun x y hc => hs.2 x y (hc.imp (fun hn hcx => hn (Or.inl hcx)) id)⟩
      rcases hc with hc | ⟨rfl, rfl⟩
      · exact hs.1 x y hc hcnd
      · exact hij
    · have hij := (hs.2 i j (Or.inl hCij)).1
      rw [hij, if_pos (show D₀ i k + D₀ k j < D₀ i j from hcond)]
      constructor
      · intro x y hc hcnd
        dsimp only
        by_cases hxy : x = i ∧ y = j
        · obtain ⟨rfl, rfl⟩ := hxy
          refine ⟨updD_self _ _ _ _, ?_⟩
          rw [updR_self]
          exact (updSpec_read_col hkk hs x).2
        · rcases hc with hc | hxy'
          · rw [updD_ne _ _ _ _ hxy, updR_ne _ _ _ _ hxy]
            exact hs.1 x y hc hcnd
          · exact absurd hxy' hxy
      · intro x y hc
        dsimp only
        have hxy : ¬(x = i ∧ y = j) := by
          rintro ⟨rfl, rfl⟩
          rcases hc with hc | hc
          · exact hc (Or.inr ⟨rfl, rfl⟩)
          · exact hc hcond
        rw [updD_ne _ _ _ _ hxy, updR_ne _ _ _ _ hxy]
        exact hs.2 x y (hc.imp (fun hn hcx => hn (Or.inl hcx)) id)
  · have hij := (hs.2 i j (Or.inr hcond)).1
    rw [hij, if_neg (show ¬D₀ i k + D₀ k j < D₀ i j from hcond)]
    refine ⟨fun x y hc hcnd => ?_,
      fun x y hc => hs.2 x y (hc.imp (fun hn hcx => hn (Or.inl hcx)) id)⟩
    rcases hc with hc | ⟨rfl, rfl⟩
    · exact hs.1 x y hc hcnd
    · exact absurd hcnd hcond

theorem fwInner_fold_spec {k : ℕ} {D₀ : Dmat} {R₀ : Rmat} (hkk : D₀ k k = 0) (i : ℕ) :
    ∀ (js : List ℕ) (C : ℕ → ℕ → Prop) (DR : Dmat × Rmat), updSpec k D₀ R₀ C DR →
      updSpec k D₀ R₀ (fun x y => C x y ∨ (x = i ∧ y ∈ js))
        (js.foldl (fwInner k i (D₀ i k)) DR) := by
  intro js
  induction js with
  | nil =>
    intro C DR hs
    exact updSpec_congr (by simp) hs
  | cons j js ih =>
    intro C DR hs
    rw [List.foldl_cons]
    refine updSpec_congr (fun x y => ?_) (ih _ _ (fwInner_spec hkk hs i j))
    simp only [List.mem_cons]
    tauto

theorem fwRow_spec {n k : ℕ} {D₀ : Dmat} {R₀ : Rmat} (hkk : D₀ k k = 0)
    {C : ℕ → ℕ → Prop} {DR : Dmat × Rmat} (hs : updSpec k D₀ R₀ C DR) (i : ℕ) :
    updSpec k D₀ R₀ (fun x y => C x y ∨ (x = i ∧ y ∈ range1 n)) (fwRow n k DR i) := by
  have hcol := (updSpec_read_col hkk hs i).1
  unfold fwRow
  dsimp only
  by_cases hdik : DR.1 i k = ⊤
  · rw [if_pos hdik]
    have htop : D₀ i k = ⊤ := by rw [← hcol]; exact hdik
    refine ⟨fun x y hc hcnd => ?_,
      fun x y hc => hs.2 x y (hc.imp (fun hn hcx => hn (Or.inl hcx)) id)⟩
    rcases hc with hc | ⟨rfl, _⟩
    · exact hs.1 x y hc hcnd
    · exact absurd hcnd (by unfold phaseCond; rw [htop, top_add]; exact not_top_lt)
  · rw [if_neg hdik, hcol]
    exact fwInner_fold_spec hkk i (range1 n) C DR hs

theorem fwRow_fold_spec {n k : ℕ} {D₀ : Dmat} {R₀ : Rmat} (hkk : D₀ k k = 0) :
    ∀ (is : List ℕ) (C : ℕ → ℕ → Prop) (DR : Dmat × Rmat), updSpec k D₀ R₀ C DR →
      updSpec k D₀ R₀ (fun x y => C x y ∨ (x ∈ is ∧ y ∈ range1 n))
        (is.foldl (fwRow n k) DR) := by
  intro is
  induction is with
  | nil =>
    intro C DR hs
    exact updSpec_congr (by simp) hs
  | cons i is ih =>
    intro C DR hs
    rw [List.foldl_cons]
    refine updSpec_congr (fun x y => ?_) (ih _ _ (fwRow_spec hkk hs i))
    simp only [List.mem_cons]
    tauto

theorem fwPhase_spec {n k : ℕ} (DR : Dmat × Rmat) (hkk : DR.1 k k = 0) :
    updSpec k DR.1 DR.2 (fun x y => x ∈ range1 n ∧ y ∈ range1 n) (fwPhase n DR k) := by
  have h0 : updSpec k DR.1 DR.2 (fun _ _ => False) DR :=
    ⟨fun x y hc => absurd hc not_false, fun x y _ => ⟨rfl, rfl⟩⟩
  exact updSpec_congr (by simp) (fwRow_fold_spec hkk (range1 n) _ DR h0)

/-- Phase `k` on an in-range position: the familiar simultaneous
`min(D[i][j], D[i][k] + D[k][j])` update. -/
theorem fwPhase_D_in {n k : ℕ} (DR : Dmat × Rmat) (hkk : DR.1 k k = 0)
    {x y : ℕ} (hx : x ∈ range1 n) (hy : y ∈ range1 n) :
    (fwPhase n DR k).1 x y =
      if DR.1 x k + DR.1 k y < DR.1 x y then DR.1 x k + DR.1 k y else DR.1 x y := by
  have hs := fwPhase_spec (n := n) DR hkk
  by_cases hc : phaseCond DR.1 k x y
  · rw [(hs.1 x y ⟨hx, hy⟩ hc).1,
      if_pos (show DR.1 x k + DR.1 k y < DR.1 x y from hc)]
  · rw [(hs.2 x y (Or.inr hc)).1,
      if_neg (show ¬DR.1 x k + DR.1 k y < DR.1 x y from hc)]

theorem fwPhase_R_in {n k : ℕ} (DR : Dmat × Rmat) (hkk : DR.1 k k = 0)
    {x y : ℕ} (hx : x ∈ range1 n) (hy : y ∈ range1 n) :
    (fwPhase n DR k).2 x y =
      if DR.1 x k + DR.1 k y < DR.1 x y then DR.2 x k else DR.2 x y := by
  have hs := fwPhase_spec (n := n) DR hkk
  by_cases hc : phaseCond DR.1 k x y
  · rw [(hs.1 x y ⟨hx, hy⟩ hc).2,
      if_pos (show DR.1 x k + DR.1 k y < DR.1 x y from hc)]
  · rw [(hs.2 x y (Or.inr hc)).2,
      if_neg (show ¬DR.1 x k + DR.1 k y < DR.1 x y from hc)]

theorem fwPhase_out {n k : ℕ} (DR : Dmat × Rmat) (hkk : DR.1 k k = 0)
    {x y : ℕ} (h : ¬(x ∈ range1 n ∧ y ∈ range1 n)) :
    (fwPhase n DR k).1 x y = DR.1 x y ∧ (fwPhase n DR k).2 x y = DR.2 x y :=
  (fwPhase_spec (n := n) DR hkk).2 x y (Or.inl h)

theorem fwPhase_D_min {n k : ℕ} (DR : Dmat × Rmat) (hkk : DR.1 k k = 0)
    {x y : ℕ} (hx : x ∈ range1 n) (hy : y ∈ range1 n) :
    (fwPhase n DR k).1 x y = min (DR.1 x y) (DR.1 x k + DR.1 k y) := by
  rw [fwPhase_D_in DR hkk hx hy]
  rcases lt_or_le (DR.1 x k + DR.1 k y) (DR.1 x y) with h | h
  · rw [if_pos h, min_eq_right h.le]
  · rw [if_neg (not_lt.mpr h), min_eq_left h]

theorem fwPhase_D_le {n k : ℕ} (DR : Dmat × Rmat) (hkk : DR.1 k k = 0)
    (x y : ℕ) : (fwPhase n DR k).1 x y ≤ DR.1 x y := by
  by_cases h : x ∈ range1 n ∧ y ∈ range1 n
  · rw [fwPhase_D_min DR hkk h.1 h.2]
    exact min_le_left _ _
  · rw [(fwPhase_out DR hkk h).1]

/-! ## Initialisation: direct-edge weights -/

/-- The cheapest direct-edge weight from `a` to `b` in the edge list
(`⊤` when there is no edge `a → b`). -/
def edgeW (es : List Edge) (a b : ℕ) : EW :=
  es.foldr (fun e m => if e.1 = a ∧ e.2.1 = b then min (e.2.2 : EW) m else m) ⊤

theorem edgeW_cons (e : Edge) (es : List Edge) (a b : ℕ) :
    edgeW (e :: es) a b =
      if e.1 = a ∧ e.2.1 = b then min (e.2.2 : EW) (edgeW es a b) else edgeW es a b := rfl

theorem ite_lt_eq_min (a b : EW) : (if a < b then a else b) = min a b := by
  rcases lt_or_le a b with h | h
  · rw [if_pos h, min_eq_left h.le]
  · rw [if_neg (not_lt.mpr h), min_eq_right h]

theorem edgeFold_eq (es : List Edge) : ∀ (D : Dmat) (a b : ℕ),
    edgeFold D es a b = min (D a b) (edgeW es a b) := by
  induction es with
  | nil =>
    intro D a b
    simp [edgeFold, edgeW]
  | cons e es ih =>
    intro D a b
    have hstep : edgeFold D (e :: es) a b =
        edgeFold (if (e.2.2 : EW) < D e.1 e.2.1 then updD D e.1 e.2.1 e.2.2 else D) es a b := by
      simp only [edgeFold, List.foldl_cons]
    rw [hstep, ih, edgeW_cons]
    by_cases hc : e.1 = a ∧ e.2.1 = b
    · rw [if_pos hc]
      have ha : a = e.1 := hc.1.symm
      have hb : b = e.2.1 := hc.2.symm
      subst ha; subst hb
      rcases lt_or_le (e.2.2 : EW) (D e.1 e.2.1) with h | h
      · rw [if_pos h, updD_self]
        exact (min_eq_right ((min_le_left _ _).trans h.le)).symm
      · rw [if_neg (not_lt.mpr h), ← min_assoc, min_eq_left h]
    · rw [if_neg hc]
      have hDab : (if (e.2.2 : EW) < D e.1 e.2.1 then updD D e.1 e.2.1 e.2.2 else D) a b
          = D a b := by
        have hne : ¬(a = e.1 ∧ b = e.2.1) := fun hh => hc ⟨hh.1.symm, hh.2.symm⟩
        split
        · exact updD_ne _ _ _ _ hne
        · rfl
      rw [hDab]

theorem initD_eq (n : ℕ) (es : List Edge) (a b : ℕ) :
    (floyd_init_with_routing n es).1 a b = min (initD0 n a b) (edgeW es a b) :=
  edgeFold_eq es (initD0 n) a b

theorem edgeW_nonneg {es : List Edge} (hw : ∀ e ∈ es, 0 ≤ e.2.2) (a b : ℕ) :
    0 ≤ edgeW es a b := by
  induction es with
  | nil => exact le_top
  | cons e es ih =>
    rw [edgeW_cons]
    have h0 : (0 : EW) ≤ (e.2.2 : EW) := by
      rw [← WithTop.coe_zero, WithTop.coe_le_coe]
      exact hw e (List.mem_cons_self e es)
    have hrec := ih fun x hx => hw x (List.mem_cons_of_mem _ hx)
    by_cases hc : e.1 = a ∧ e.2.1 = b
    · rw [if_pos hc]; exact le_min h0 hrec
    · rw [if_neg hc]; exact hrec

theorem initD0_nonneg (n x y : ℕ) : 0 ≤ initD0 n x y := by
  unfold initD0
  split
  · exact le_rfl
  · exact le_top

theorem init_nonneg {n : ℕ} {es : List Edge} (hw : ∀ e ∈ es, 0 ≤ e.2.2) (x y : ℕ) :
    0 ≤ (floyd_init_with_routing n es).1 x y := by
  rw [initD_eq]
  exact le_min (initD0_nonneg n x y) (edgeW_nonneg hw x y)

theorem init_diag {n : ℕ} {es : List Edge} (hw : ∀ e ∈ es, 0 ≤ e.2.2) {x : ℕ}
    (hx : x ∈ range1 n) : (floyd_init_with_routing n es).1 x x = 0 := by
  rw [initD_eq]
  have h0 : initD0 n x x = 0 := by
    unfold initD0
    rw [if_pos ⟨rfl, (mem_range1.mp hx).1, (mem_range1.mp hx).2⟩]
  rw [h0]
  exact min_eq_left (edgeW_nonneg hw x x)

/-! ## The stages of the outer `k` loop -/

/-- The state of `(D, R)` after the first `k` iterations of the outer loop. -/
def fwStages (n : ℕ) (edges : List Edge) (k : ℕ) : Dmat × Rmat :=
  (range1 k).foldl (fwPhase n) (floyd_init_with_routing n edges)

theorem fwStages_zero (n : ℕ) (edges : List Edge) :
    fwStages n edges 0 = floyd_init_with_routing n edges := rfl

theorem fwStages_succ (n : ℕ) (edges : List Edge) (k : ℕ) :
    fwStages n edges (k + 1) = fwPhase n (fwStages n edges k) (k + 1) := by
  rw [fwStages, fwStages, range1_succ, List.foldl_append, List.foldl_cons, List.foldl_nil]

theorem fw_eq_stages (n : ℕ) (edges : List Edge) :
    floyd_warshall_with_routing n edges = fwStages n edges n := rfl

theorem fwStages_inv {n : ℕ} {edges : List Edge} (hw : ∀ e ∈ edges, 0 ≤ e.2.2) :
    ∀ k, k ≤ n →
      (∀ x y, 0 ≤ (fwStages n edges k).1 x y) ∧
      (∀ x ∈ range1 n, (fwStages n edges k).1 x x = 0) := by
  intro k
  induction k with
  | zero =>
    intro _
    exact ⟨init_nonneg hw, fun x hx => init_diag hw hx⟩
  | succ k ih =>
    intro hk1
    obtain ⟨h1, h2⟩ := ih (by omega)
    have hkk : (fwStages n edges k).1 (k + 1) (k + 1) = 0 :=
      h2 _ (mem_range1.mpr ⟨by omega, hk1⟩)
    rw [fwStages_succ]
    constructor
    · intro x y
      by_cases hin : x ∈ range1 n ∧ y ∈ range1 n
      · rw [fwPhase_D_min _ hkk hin.1 hin.2]
        exact le_min (h1 x y) (add_nonneg (h1 _ _) (h1 _ _))
      · rw [(fwPhase_out _ hkk hin).1]
        exact h1 x y
    · intro x hx
      rw [fwPhase_D_min _ hkk hx hx, h2 x hx]
      exact min_eq_left (add_nonneg (h1 _ _) (h1 _ _))

/-- The diagonal of `D` after `k` phases, packaged for reuse. -/
theorem fwStages_diag {n : ℕ} {edges : List Edge} (hw : ∀ e ∈ edges, 0 ≤ e.2.2)
    {k : ℕ} (hk : k ≤ n) {x : ℕ} (hx : x ∈ range1 n) :
    (fwStages n edges k).1 x x = 0 :=
  (fwStages_inv hw k hk).2 x hx

theorem fwStages_nonneg {n : ℕ} {edges : List Edge} (hw : ∀ e ∈ edges, 0 ≤ e.2.2)
    {k : ℕ} (hk : k ≤ n) (x y : ℕ) : 0 ≤ (fwStages n edges k).1 x y :=
  (fwStages_inv hw k hk).1 x y

/-- Entries of `D` only ever decrease from one stage to the next. -/
theorem fwStages_mono {n : ℕ} {edges : List Edge} (hw : ∀ e ∈ edges, 0 ≤ e.2.2)
    {k : ℕ} (hk : k + 1 ≤ n) (x y : ℕ) :
    (fwStages n edges (k + 1)).1 x y ≤ (fwStages n edges k).1 x y := by
  rw [fwStages_succ]
  exact fwPhase_D_le _ (fwStages_diag hw (by omega) (mem_range1.mpr ⟨by omega, hk⟩)) x y

theorem fwStages_mono_le {n : ℕ} {edges : List Edge} (hw : ∀ e ∈ edges, 0 ≤ e.2.2)
    {k k' : ℕ} (hkk : k ≤ k') (hk : k' ≤ n) (x y : ℕ) :
    (fwStages n edges k').1 x y ≤ (fwStages n edges k).1 x y := by
  induction k' with
  | zero =>
    have : k = 0 := by omega
    subst this; exact le_rfl
  | succ m ih =>
    rcases Nat.eq_or_lt_of_le hkk with rfl | hlt
    · exact le_rfl
    · exact (fwStages_mono hw hk x y).trans (ih (by omega) (by omega))

/-! ## Symmetry (C4) -/

theorem edgeW_ru_symm (lines : List Edge) (a b : ℕ) :
    edgeW (read_undirected_edges lines) a b = edgeW (read_undirected_edges lines) b a := by
  induction lines with
  | nil => rfl
  | cons l ls ih =>
    have hcons : read_undirected_edges (l :: ls) =
        (l.1, l.2.1, l.2.2) :: (l.2.1, l.1, l.2.2) :: read_undirected_edges ls := by
      simp [read_undirected_edges]
    rw [hcons, edgeW_cons, edgeW_cons, edgeW_cons, edgeW_cons]
    dsimp only
    by_cases h1 : l.1 = a ∧ l.2.1 = b
    · by_cases h2 : l.2.1 = a ∧ l.1 = b
      · rw [if_pos h1, if_pos h2, if_pos ⟨h2.2, h2.1⟩, if_pos ⟨h1.2, h1.1⟩, ih]
      · rw [if_pos h1, if_neg h2, if_neg fun hc => h2 ⟨hc.2, hc.1⟩, if_pos ⟨h1.2, h1.1⟩, ih]
    · by_cases h2 : l.2.1 = a ∧ l.1 = b
      · rw [if_neg h1, if_pos h2, if_pos ⟨h2.2, h2.1⟩, if_neg fun hc => h1 ⟨hc.2, hc.1⟩, ih]
      · rw [if_neg h1, if_neg h2, if_neg fun hc => h2 ⟨hc.2, hc.1⟩,
          if_neg fun hc => h1 ⟨hc.2, hc.1⟩, ih]

theorem initD0_symm (n x y : ℕ) : initD0 n x y = initD0 n y x := by
  unfold initD0
  by_cases h : x = y
  · subst h; rfl
  · rw [if_neg (fun hc => h hc.1), if_neg (fun hc => h hc.1.symm)]

theorem fwStages_symm {n : ℕ} {lines : List Edge}
    (hw : ∀ e ∈ read_undirected_edges lines, 0 ≤ e.2.2) :
    ∀ k, k ≤ n → ∀ x y,
      (fwStages n (read_undirected_edges lines) k).1 x y =
        (fwStages n (read_undirected_edges lines) k).1 y x := by
  intro k
  induction k with
  | zero =>
    intro _ x y
    rw [fwStages_zero, initD_eq, initD_eq, initD0_symm, edgeW_ru_symm]
  | succ k ih =>
    intro hk1 x y
    have hsym := ih (by omega)
    have hkk : (fwStages n (read_undirected_edges lines) k).1 (k + 1) (k + 1) = 0 :=
      fwStages_diag hw (by omega) (mem_range1.mpr ⟨by omega, hk1⟩)
    rw [fwStages_succ]
    by_cases hin : x ∈ range1 n ∧ y ∈ range1 n
    · rw [fwPhase_D_min _ hkk hin.1 hin.2, fwPhase_D_min _ hkk hin.2 hin.1,
        hsym x y, hsym x (k + 1), hsym (k + 1) y, add_comm]
    · rw [(fwPhase_out _ hkk hin).1, (fwPhase_out _ hkk fun hc => hin ⟨hc.2, hc.1⟩).1]
      exact hsym x y

theorem ru_weight_nonneg {lines : List Edge} (hw : ∀ e ∈ lines, 0 ≤ e.2.2) :
    ∀ e ∈ read_undirected_edges lines, 0 ≤ e.2.2 := by
  intro e he
  simp only [read_undirected_edges, List.mem_flatMap, List.mem_cons,
    List.mem_singleton] at he
  obtain ⟨l, hl, h | h | h⟩ := he
  · subst h; exact hw l hl
  · subst h; exact hw l hl
  · exact absurd h (List.not_mem_nil e)

/-- C4: for undirected input (each line inserted in both directions) with
non-negative weights, the final distance matrix is symmetric and has zero
diagonal on the vertices `1..n`. -/
theorem C4_floyd_symmetric_diag (n : ℕ) (lines : List Edge)
    (hw : ∀ e ∈ lines, 0 ≤ e.2.2) :
    (∀ i j, (floyd_warshall_with_routing n (read_undirected_edges lines)).1 i j =
      (floyd_warshall_with_routing n (read_undirected_edges lines)).1 j i) ∧
    (∀ i ∈ range1 n, (floyd_warshall_with_routing n (read_undirected_edges lines)).1 i i = 0) := by
  have hw' := ru_weight_nonneg hw
  rw [fw_eq_stages]
  exact ⟨fun i j => fwStages_symm hw' n le_rfl i j,
    fun i hi => fwStages_diag hw' le_rfl hi⟩

/-- Witness for C4 on the triangle graph of the spec scenario. -/
theorem C4_floyd_symmetric_diag_witness :
    (∀ i j, (floyd_warshall_with_routing 3
        (read_undirected_edges [(1, 2, 1), (2, 3, 1), (1, 3, 5)])).1 i j =
      (floyd_warshall_with_routing 3
        (read_undirected_edges [(1, 2, 1), (2, 3, 1), (1, 3, 5)])).1 j i) ∧
    (∀ i ∈ range1 3, (floyd_warshall_with_routing 3
        (read_undirected_edges [(1, 2, 1), (2, 3, 1), (1, 3, 5)])).1 i i = 0) :=
  C4_floyd_symmetric_diag 3 [(1, 2, 1), (2, 3, 1), (1, 3, 5)]
    (by intro e he; fin_cases he <;> norm_num)

/-! ## Walks with bounded intermediate vertices

`BWalk es K m i j w` holds when there is a walk of `m` direct-edge steps
from `i` to `j` whose total weight (cheapest parallel edge per step) is `w`
and whose intermediate vertices all lie in `1..K`.  A step with no direct
edge contributes weight `⊤`, so finite-weight walks use only real edges. -/
inductive BWalk (es : List Edge) (K : ℕ) : ℕ → ℕ → ℕ → EW → Prop
  | single (i : ℕ) : BWalk es K 0 i i 0
  | direct (i j : ℕ) : BWalk es K 1 i j (edgeW es i j)
  | cons (i h j m : ℕ) (w : EW) (hh : h ∈ range1 K)
      (rest : BWalk es K m h j w) : BWalk es K (m + 1) i j (edgeW es i h + w)

theorem BWalk.nonneg {es : List Edge} (hnn : ∀ e ∈ es, 0 ≤ e.2.2)
    {K m i j : ℕ} {w : EW} (h : BWalk es K m i j w) : 0 ≤ w := by
  induction h with
  | single => exact le_rfl
  | direct i j => exact edgeW_nonneg hnn i j
  | cons i h j m w hh rest ih => exact add_nonneg (edgeW_nonneg hnn _ _) ih

theorem BWalk.mono_K {es : List Edge} {K K' m i j : ℕ} {w : EW}
    (hK : K ≤ K') (h : BWalk es K m i j w) : BWalk es K' m i j w := by
  induction h with
  | single i => exact BWalk.single i
  | direct i j => exact BWalk.direct i j
  | cons i h j m w hh rest ih =>
    exact BWalk.cons i h j m w
      (mem_range1.mpr ⟨(mem_range1.mp hh).1, (mem_range1.mp hh).2.trans hK⟩) ih

theorem BWalk.append {es : List Edge} {K K' m₁ m₂ i x j : ℕ} {w₁ w₂ : EW}
    (h₁ : BWalk es K m₁ i x w₁) (hK : K ≤ K') (hx : x ∈ range1 K')
    (h₂ : BWalk es K' m₂ x j w₂) : BWalk es K' (m₁ + m₂) i j (w₁ + w₂) := by
  induction h₁ with
  | single i =>
    rw [zero_add, zero_add]
    exact h₂
  | direct i x =>
    have hcons := BWalk.cons i x j m₂ w₂ hx h₂
    rw [show 1 + m₂ = m₂ + 1 from by omega]
    exact hcons
  | cons i h x m w hh rest ih =>
    have hmid : BWalk es K' (m + m₂) h j (w + w₂) := ih hx h₂
    have hcons := BWalk.cons i h j (m + m₂) (w + w₂)
      (mem_range1.mpr ⟨(mem_range1.mp hh).1, (mem_range1.mp hh).2.trans hK⟩) hmid
    rw [← add_assoc] at hcons
    exact (show m + m₂ + 1 = m + 1 + m₂ from by omega) ▸ hcons

/-- Decomposition of a walk with intermediates `≤ k+1`: either it avoids
`k+1`, or it splits at the first visit to `k+1`. -/
theorem BWalk.decomp {es : List Edge} {k m i j : ℕ} {w : EW}
    (h : BWalk es (k + 1) m i j w) :
    BWalk es k m i j w ∨
      ∃ m₁ m₂ w₁ w₂, w = w₁ + w₂ ∧ m₂ < m ∧
        BWalk es k m₁ i (k + 1) w₁ ∧ BWalk es (k + 1) m₂ (k + 1) j w₂ := by
  induction h with
  | single i => exact Or.inl (BWalk.single i)
  | direct i j => exact Or.inl (BWalk.direct i j)
  | cons i h j m w hh rest ih =>
    by_cases hk : h = k + 1
    · subst hk
      exact Or.inr ⟨1, m, edgeW es i (k + 1), w, rfl, by omega, BWalk.direct i (k + 1), rest⟩
    · have hh' : h ∈ range1 k := by
        have h1 := (mem_range1.mp hh).1
        have h2 := (mem_range1.mp hh).2
        exact mem_range1.mpr ⟨h1, by omega⟩
      rcases ih with hl | ⟨m₁, m₂, w₁, w₂, rfl, hm₂, h₁, h₂⟩
      · exact Or.inl (BWalk.cons i h j m w hh' hl)
      · refine Or.inr ⟨m₁ + 1, m₂, edgeW es i h + w₁, w₂, by rw [add_assoc], by omega,
          BWalk.cons i h (k + 1) m₁ w₁ hh' h₁, h₂⟩

/-- Lower bound (optimality direction) of Floyd–Warshall: after the first
`k` phases, `D[i][j]` is below the weight of every walk from `i` to `j`
whose intermediate vertices lie in `1..k`. -/
theorem fwStages_le_bwalk {n : ℕ} {edges : List Edge} (hw : ∀ e ∈ edges, 0 ≤ e.2.2) :
    ∀ k, k ≤ n → ∀ i j m (w : EW), i ∈ range1 n → j ∈ range1 n →
      BWalk edges k m i j w → (fwStages n edges k).1 i j ≤ w := by
  intro k
  induction k with
  | zero =>
    intro _ i j m w hi hj hwalk
    induction hwalk with
    | single i => rw [fwStages_zero, init_diag hw hi]
    | direct i j =>
      rw [fwStages_zero, initD_eq]
      exact min_le_right _ _
    | cons i h j m w hh rest ih => exact absurd hh (by simp [range1])
  | succ k ih =>
    intro hk1 i j m w hi hj hwalk
    have hkr : k + 1 ∈ range1 n := mem_range1.mpr ⟨by omega, hk1⟩
    have hkk : (fwStages n edges k).1 (k + 1) (k + 1) = 0 :=
      fwStages_diag hw (by omega) hkr
    -- first, walks from `k+1` to `j` with intermediates `≤ k+1`
    have suff : ∀ m₂, ∀ (w₂ : EW), BWalk edges (k + 1) m₂ (k + 1) j w₂ →
        (fwStages n edges k).1 (k + 1) j ≤ w₂ := by
      intro m₂
      induction m₂ using Nat.strong_induction_on with
      | _ m₂ ihm =>
        intro w₂ hwalk₂
        rcases hwalk₂.decomp with hl | ⟨m₁', m₂', w₁', w₂', rfl, hm₂', h₁', h₂'⟩
        · exact ih (by omega) _ _ _ _ hkr hj hl
        · have h2 := ihm m₂' hm₂' w₂' h₂'
          have h1 : (0 : EW) ≤ w₁' := h₁'.nonneg hw
          calc (fwStages n edges k).1 (k + 1) j ≤ w₂' := h2
            _ ≤ w₁' + w₂' := le_add_of_nonneg_left h1
    rcases hwalk.decomp with hl | ⟨m₁, m₂, w₁, w₂, rfl, hm₂, h₁, h₂⟩
    · calc (fwStages n edges (k + 1)).1 i j ≤ (fwStages n edges k).1 i j :=
            fwStages_mono hw hk1 i j
        _ ≤ w := ih (by omega) _ _ _ _ hi hj hl
    · have hd : (fwStages n edges (k + 1)).1 i j ≤
          (fwStages n edges k).1 i (k + 1) + (fwStages n edges k).1 (k + 1) j := by
        rw [fwStages_succ, fwPhase_D_min _ hkk hi hj]
        exact min_le_right _ _
      calc (fwStages n edges (k + 1)).1 i j
          ≤ (fwStages n edges k).1 i (k + 1) + (fwStages n edges k).1 (k + 1) j := hd
        _ ≤ w₁ + w₂ := add_le_add (ih (by omega) _ _ _ _ hi hkr h₁) (suff m₂ w₂ h₂)

/-- Realisability: every finite entry of `D` after `k` phases is the weight
of an actual walk with intermediates in `1..k`. -/
theorem fwStages_realizable {n : ℕ} {edges : List Edge} (hw : ∀ e ∈ edges, 0 ≤ e.2.2) :
    ∀ k, k ≤ n → ∀ i j, i ∈ range1 n → j ∈ range1 n →
      (fwStages n edges k).1 i j ≠ ⊤ →
      ∃ m, BWalk edges k m i j ((fwStages n edges k).1 i j) := by
  intro k
  induction k with
  | zero =>
    intro _ i j hi hj hfin
    by_cases hij : i = j
    · subst hij
      refine ⟨0, ?_⟩
      rw [fwStages_zero, init_diag hw hi]
      exact BWalk.single i
    · have : (fwStages n edges 0).1 i j = edgeW edges i j := by
        rw [fwStages_zero, initD_eq]
        have : initD0 n i j = ⊤ := by
          unfold initD0
          rw [if_neg (fun hc => hij hc.1)]
        rw [this, min_eq_right le_top]
      refine ⟨1, ?_⟩
      rw [this]
      exact BWalk.direct i j
  | succ k ih =>
    intro hk1 i j hi hj hfin
    have hkr : k + 1 ∈ range1 n := mem_range1.mpr ⟨by omega, hk1⟩
    have hkk : (fwStages n edges k).1 (k + 1) (k + 1) = 0 :=
      fwStages_diag hw (by omega) hkr
    have hmin : (fwStages n edges (k + 1)).1 i j =
        min ((fwStages n edges k).1 i j)
          ((fwStages n edges k).1 i (k + 1) + (fwStages n edges k).1 (k + 1) j) := by
      rw [fwStages_succ, fwPhase_D_min _ hkk hi hj]
    rcases min_cases ((fwStages n edges k).1 i j)
        ((fwStages n edges k).1 i (k + 1) + (fwStages n edges k).1 (k + 1) j) with
      ⟨heq, _⟩ | ⟨heq, _⟩
    · rw [hmin, heq]
      obtain ⟨m, hm⟩ := ih (by omega) i j hi hj (by rw [hmin, heq] at hfin; exact hfin)
      exact ⟨m, hm.mono_K (by omega)⟩
    · rw [hmin, heq]
      have hfin' : (fwStages n edges k).1 i (k + 1) + (fwStages n edges k).1 (k + 1) j ≠ ⊤ := by
        rw [hmin, heq] at hfin
        exact hfin
      have hf1 : (fwStages n edges k).1 i (k + 1) ≠ ⊤ :=
        fun hc => hfin' (by rw [hc, top_add])
      have hf2 : (fwStages n edges k).1 (k + 1) j ≠ ⊤ :=
        fun hc => hfin' (by rw [hc, add_top])
      obtain ⟨m₁, hm₁⟩ := ih (by omega) i (k + 1) hi hkr hf1
      obtain ⟨m₂, hm₂⟩ := ih (by omega) (k + 1) j hkr hj hf2
      exact ⟨m₁ + m₂, hm₁.append (by omega) (mem_range1.mpr ⟨by omega, by omega⟩)
        (hm₂.mono_K (by omega))⟩

theorem init_R_proj (n : ℕ) (es : List Edge) :
    (floyd_init_with_routing n es).2 = initR n (floyd_init_with_routing n es).1 := rfl

/-- The routing invariant: after `k` phases, a finite off-diagonal entry
`D[i][j]` has a defined next hop `h = R[i][j]`, `h` is joined to `i` by a
real direct edge, and `edgeW i h + D[h][j] ≤ D[i][j]`. -/
theorem fwStages_routing {n : ℕ} {edges : List Edge} (hw : ∀ e ∈ edges, 0 ≤ e.2.2) :
    ∀ k, k ≤ n → ∀ i j, i ∈ range1 n → j ∈ range1 n → i ≠ j →
      (fwStages n edges k).1 i j ≠ ⊤ →
      ∃ h, (fwStages n edges k).2 i j = some h ∧ h ∈ range1 n ∧ h ≠ i ∧
        edgeW edges i h ≠ ⊤ ∧
        edgeW edges i h + (fwStages n edges k).1 h j ≤ (fwStages n edges k).1 i j := by
  intro k
  induction k with
  | zero =>
    intro _ i j hi hj hij hfin
    have hD : (fwStages n edges 0).1 i j = edgeW edges i j := by
      rw [fwStages_zero, initD_eq]
      have h0 : initD0 n i j = ⊤ := by
        unfold initD0
        rw [if_neg (fun hc => hij hc.1)]
      rw [h0, min_eq_right le_top]
    have hR : (fwStages n edges 0).2 i j = some j := by
      rw [fwStages_zero, init_R_proj]
      unfold initR
      rw [if_pos ⟨(mem_range1.mp hi).1, (mem_range1.mp hi).2, (mem_range1.mp hj).1,
        (mem_range1.mp hj).2, lt_top_iff_ne_top.mpr hfin⟩]
    refine ⟨j, hR, hj, fun hc => hij hc.symm, ?_, ?_⟩
    · rw [← hD]; exact hfin
    · rw [fwStages_zero, init_diag hw hj, add_zero, ← fwStages_zero (n := n), hD]
  | succ k ih =>
    intro hk1 i j hi hj hij hfin
    have hkr : k + 1 ∈ range1 n := mem_range1.mpr ⟨by omega, hk1⟩
    have hkk : (fwStages n edges k).1 (k + 1) (k + 1) = 0 :=
      fwStages_diag hw (by omega) hkr
    have hDsucc : (fwStages n edges (k + 1)).1 i j =
        if (fwStages n edges k).1 i (k + 1) + (fwStages n edges k).1 (k + 1) j <
            (fwStages n edges k).1 i j
        then (fwStages n edges k).1 i (k + 1) + (fwStages n edges k).1 (k + 1) j
        else (fwStages n edges k).1 i j := by
      rw [fwStages_succ]; exact fwPhase_D_in _ hkk hi hj
    have hRsucc : (fwStages n edges (k + 1)).2 i j =
        if (fwStages n edges k).1 i (k + 1) + (fwStages n edges k).1 (k + 1) j <
            (fwStages n edges k).1 i j
        then (fwStages n edges k).2 i (k + 1) else (fwStages n edges k).2 i j := by
      rw [fwStages_succ]; exact fwPhase_R_in _ hkk hi hj
    by_cases hcond : (fwStages n edges k).1 i (k + 1) + (fwStages n edges k).1 (k + 1) j <
        (fwStages n edges k).1 i j
    · have hik : i ≠ k + 1 := by
        rintro rfl
        rw [hkk, zero_add] at hcond
        exact lt_irrefl _ hcond
      have hfin1 : (fwStages n edges k).1 i (k + 1) ≠ ⊤ := by
        intro hc
        rw [hc, top_add] at hcond
        exact not_top_lt hcond
      obtain ⟨h, hR, hhr, hhi, hew, hle⟩ := ih (by omega) i (k + 1) hi hkr hik hfin1
      refine ⟨h, by rw [hRsucc, if_pos hcond, hR], hhr, hhi, hew, ?_⟩
      have hDhj : (fwStages n edges (k + 1)).1 h j ≤
          (fwStages n edges k).1 h (k + 1) + (fwStages n edges k).1 (k + 1) j := by
        rw [fwStages_succ, fwPhase_D_min _ hkk hhr hj]
        exact min_le_right _ _
      calc edgeW edges i h + (fwStages n edges (k + 1)).1 h j
          ≤ edgeW edges i h +
            ((fwStages n edges k).1 h (k + 1) + (fwStages n edges k).1 (k + 1) j) :=
            add_le_add_left hDhj _
        _ = (edgeW edges i h + (fwStages n edges k).1 h (k + 1)) +
            (fwStages n edges k).1 (k + 1) j := (add_assoc _ _ _).symm
        _ ≤ (fwStages n edges k).1 i (k + 1) + (fwStages n edges k).1 (k + 1) j :=
            add_le_add_right hle _
        _ = (fwStages n edges (k + 1)).1 i j := by rw [hDsucc, if_pos hcond]
    · have hfin' : (fwStages n edges k).1 i j ≠ ⊤ := by
        rw [hDsucc, if_neg hcond] at hfin
        exact hfin
      obtain ⟨h, hR, hhr, hhi, hew, hle⟩ := ih (by omega) i j hi hj hij hfin'
      refine ⟨h, by rw [hRsucc, if_neg hcond, hR], hhr, hhi, hew, ?_⟩
      calc edgeW edges i h + (fwStages n edges (k + 1)).1 h j
          ≤ edgeW edges i h + (fwStages n edges k).1 h j :=
            add_le_add_left (fwStages_mono hw hk1 h j) _
        _ ≤ (fwStages n edges k).1 i j := hle
        _ = (fwStages n edges (k + 1)).1 i j := by rw [hDsucc, if_neg hcond]

/-! ## A rank function for next-hop walks -/

theorem iterNext_succ_right (R : Rmat) (j : ℕ) :
    ∀ (m x : ℕ), iterNext R j (m + 1) x = (iterNext R j m x).bind (fun v => R v j) := by
  intro m
  induction m with
  | zero =>
    intro x
    cases hR : R x j <;> simp [iterNext, hR]
  | succ m ih =>
    intro x
    rw [show m + 1 + 1 = m + 2 from rfl]
    simp only [iterNext]
    cases hR : R x j with
    | none =>
      simp only [iterNext, hR]
      rfl
    | some h =>
      have := ih h
      simp only [iterNext, hR] at *
      exact this

/-- The number of next-hop steps from `x` to the first arrival at `t`,
following `R`, cut off by the fuel. -/
def walkSteps (R : Rmat) (t : ℕ) : ℕ → ℕ → ℕ
  | 0, _ => 0
  | fuel + 1, x =>
    if x = t then 0
    else
      match R x t with
      | none => 0
      | some h => walkSteps R t fuel h + 1

theorem walkSteps_self (R : Rmat) (t fuel : ℕ) : walkSteps R t fuel t = 0 := by
  cases fuel with
  | zero => rfl
  | succ f =>
    conv_lhs => rw [walkSteps]
    rw [if_pos rfl]

theorem walkSteps_succ_ne {R : Rmat} {t x h : ℕ} (hx : x ≠ t) (hR : R x t = some h)
    (f : ℕ) : walkSteps R t (f + 1) x = walkSteps R t f h + 1 := by
  conv_lhs => rw [walkSteps]
  rw [if_neg hx, hR]

theorem walkSteps_succ_none {R : Rmat} {t x : ℕ} (hx : x ≠ t) (hR : R x t = none)
    (f : ℕ) : walkSteps R t (f + 1) x = 0 := by
  conv_lhs => rw [walkSteps]
  rw [if_neg hx, hR]

theorem walkSteps_le (R : Rmat) (t : ℕ) :
    ∀ (fuel x : ℕ), walkSteps R t fuel x ≤ fuel := by
  intro fuel
  induction fuel with
  | zero => intro x; exact le_rfl
  | succ f ih =>
    intro x
    by_cases hx : x = t
    · subst hx
      rw [walkSteps_self]
      omega
    · cases hR : R x t with
      | none =>
        rw [walkSteps_succ_none hx hR]
        omega
      | some h =>
        rw [walkSteps_succ_ne hx hR]
        exact Nat.succ_le_succ (ih h)

theorem walkSteps_spec (R : Rmat) (t : ℕ) :
    ∀ (fuel m x : ℕ), m ≤ fuel → iterNext R t m x = some t →
      walkSteps R t fuel x ≤ m ∧ iterNext R t (walkSteps R t fuel x) x = some t := by
  intro fuel
  induction fuel with
  | zero =>
    intro m x hm hreach
    interval_cases m
    exact ⟨le_rfl, hreach⟩
  | succ f ih =>
    intro m x hm hreach
    by_cases hx : x = t
    · subst hx
      rw [walkSteps_self]
      exact ⟨Nat.zero_le m, rfl⟩
    · cases m with
      | zero =>
        simp only [iterNext, Option.some_inj] at hreach
        exact absurd hreach hx
      | succ mp =>
        cases hR : R x t with
        | none => simp [iterNext, hR] at hreach
        | some h =>
          have hreach2 : iterNext R t mp h = some t := by
            simpa [iterNext, hR] using hreach
          obtain ⟨hle, hre⟩ := ih mp h (by omega) hreach2
          rw [walkSteps_succ_ne hx hR]
          refine ⟨by omega, ?_⟩
          simpa [iterNext, hR] using hre

theorem walkSteps_fuel_irrel (R : Rmat) (t : ℕ) :
    ∀ (m fuel fuel2 x : ℕ), m ≤ fuel → m ≤ fuel2 → iterNext R t m x = some t →
      walkSteps R t fuel x = walkSteps R t fuel2 x := by
  intro m
  induction m with
  | zero =>
    intro fuel fuel2 x _ _ hreach
    simp only [iterNext, Option.some_inj] at hreach
    subst hreach
    rw [walkSteps_self, walkSteps_self]
  | succ mp ih =>
    intro fuel fuel2 x hm hm2 hreach
    by_cases hx : x = t
    · subst hx
      rw [walkSteps_self, walkSteps_self]
    · cases hR : R x t with
      | none => simp [iterNext, hR] at hreach
      | some h =>
        have hreach2 : iterNext R t mp h = some t := by
          simpa [iterNext, hR] using hreach
        obtain ⟨f, rfl⟩ := Nat.exists_eq_succ_of_ne_zero (show fuel ≠ 0 by omega)
        obtain ⟨f2, rfl⟩ := Nat.exists_eq_succ_of_ne_zero (show fuel2 ≠ 0 by omega)
        rw [walkSteps_succ_ne hx hR, walkSteps_succ_ne hx hR,
          ih f f2 h (by omega) (by omega) hreach2]

/-- When `x ≠ t` has a bounded walk to `t`, the rank drops by exactly one
along the next hop. -/
theorem walkSteps_step {R : Rmat} {t x h : ℕ} (nb : ℕ) (hx : x ≠ t) (hR : R x t = some h)
    (hreach : ∃ m, m ≤ nb ∧ iterNext R t m x = some t) :
    walkSteps R t (nb + 1) x = walkSteps R t (nb + 1) h + 1 := by
  obtain ⟨m, hm, hre⟩ := hreach
  cases m with
  | zero =>
    simp only [iterNext, Option.some_inj] at hre
    exact absurd hre hx
  | succ mp =>
    have hre2 : iterNext R t mp h = some t := by
      simpa [iterNext, hR] using hre
    rw [walkSteps_succ_ne hx hR,
      walkSteps_fuel_irrel R t mp nb (nb + 1) h (by omega) (by omega) hre2]

/-- Strict monotonicity of `countP` under a pointwise implication with one
strict witness. -/
theorem countP_lt_of_witness {p q : ℕ → Bool} (himp : ∀ v, p v = true → q v = true) :
    ∀ (l : List ℕ) (h0 : ℕ), h0 ∈ l → p h0 = false → q h0 = true →
      l.countP p < l.countP q := by
  intro l
  induction l with
  | nil => intro h0 hmem; exact absurd hmem (List.not_mem_nil h0)
  | cons a l ih =>
    intro h0 hmem hp hq
    rw [List.countP_cons, List.countP_cons]
    rcases List.mem_cons.mp hmem with rfl | hmem'
    · rw [hp, hq]
      have := List.countP_mono_left (l := l) (fun v _ => himp v)
      simp only [show (false = true) = False from by simp, show (true = true) = True from by simp,
        if_true, if_false]
      omega
    · have hIH := ih h0 hmem' hp hq
      have hif : (if p a then 1 else 0) ≤ (if q a then 1 else 0) := by
        by_cases hpa : p a
        · rw [if_pos hpa, if_pos (himp a hpa)]
        · rw [if_neg hpa]
          omega
      omega

/-- The ranking measure used to show that after phase `k+1` the next-hop
walk toward `j` cannot cycle: lexicographically, (number of vertices with
strictly smaller new distance to `j`, updated-this-phase flag, distance in
hops of the stage-`k` walk toward `k+1` resp. `j`). -/
def rkM (n : ℕ) (edges : List Edge) (k j y : ℕ) : ℕ :=
  ((range1 n).countP fun v =>
    decide ((fwStages n edges (k + 1)).1 v j < (fwStages n edges (k + 1)).1 y j)) *
      (2 * (n + 2)) +
  (if (fwStages n edges k).1 y (k + 1) + (fwStages n edges k).1 (k + 1) j <
      (fwStages n edges k).1 y j
   then (n + 2) + walkSteps (fwStages n edges k).2 (k + 1) (n + 1) y
   else walkSteps (fwStages n edges k).2 j (n + 1) y)

/-- One next-hop step after phase `k+1` strictly decreases the measure. -/
theorem rkM_step {n : ℕ} {edges : List Edge} (hw : ∀ e ∈ edges, 0 ≤ e.2.2)
    {k j : ℕ} (hk1 : k + 1 ≤ n) (hj : j ∈ range1 n)
    (hreachK : ∀ y, y ∈ range1 n → y ≠ k + 1 → (fwStages n edges k).1 y (k + 1) ≠ ⊤ →
      ∃ m, m ≤ n ∧ iterNext (fwStages n edges k).2 (k + 1) m y = some (k + 1))
    (hreachJ : ∀ y, y ∈ range1 n → y ≠ j → (fwStages n edges k).1 y j ≠ ⊤ →
      ∃ m, m ≤ n ∧ iterNext (fwStages n edges k).2 j m y = some j)
    {y h : ℕ} (hy : y ∈ range1 n) (hyj : y ≠ j)
    (hyfin : (fwStages n edges (k + 1)).1 y j ≠ ⊤)
    (hRyj : (fwStages n edges (k + 1)).2 y j = some h) (hhj : h ≠ j) :
    rkM n edges k j h < rkM n edges k j y := by
  have hkr : k + 1 ∈ range1 n := mem_range1.mpr ⟨by omega, hk1⟩
  have hkk : (fwStages n edges k).1 (k + 1) (k + 1) = 0 :=
    fwStages_diag hw (by omega) hkr
  obtain ⟨h', hR', hhr, hhy, hew, hle⟩ :=
    fwStages_routing hw (k + 1) hk1 y j hy hj hyj hyfin
  have hh' : h' = h := by
    rw [hR'] at hRyj
    exact Option.some_inj.mp hRyj
  subst hh'
  have hwnn : (0 : EW) ≤ edgeW edges y h' := edgeW_nonneg hw y h'
  have hDle : (fwStages n edges (k + 1)).1 h' j ≤ (fwStages n edges (k + 1)).1 y j :=
    le_trans (le_add_of_nonneg_left hwnn) hle
  have hDfin : (fwStages n edges (k + 1)).1 h' j ≠ ⊤ := by
    intro hc
    rw [hc] at hDle
    exact hyfin (top_le_iff.mp hDle)
  have hDform : (fwStages n edges (k + 1)).1 y j =
      if (fwStages n edges k).1 y (k + 1) + (fwStages n edges k).1 (k + 1) j <
          (fwStages n edges k).1 y j
      then (fwStages n edges k).1 y (k + 1) + (fwStages n edges k).1 (k + 1) j
      else (fwStages n edges k).1 y j := by
    rw [fwStages_succ]
    exact fwPhase_D_in _ hkk hy hj
  have hRform : (fwStages n edges (k + 1)).2 y j =
      if (fwStages n edges k).1 y (k + 1) + (fwStages n edges k).1 (k + 1) j <
          (fwStages n edges k).1 y j
      then (fwStages n edges k).2 y (k + 1) else (fwStages n edges k).2 y j := by
    rw [fwStages_succ]
    exact fwPhase_R_in _ hkk hy hj
  have hauxb1 : walkSteps (fwStages n edges k).2 (k + 1) (n + 1) h' ≤ n + 1 :=
    walkSteps_le _ _ _ _
  have hauxb2 : walkSteps (fwStages n edges k).2 j (n + 1) h' ≤ n + 1 :=
    walkSteps_le _ _ _ _
  rcases lt_or_eq_of_le hDle with hlt | heq
  · -- the new distance strictly drops: the first lexicographic component drops
    have hcnt : ((range1 n).countP fun v =>
          decide ((fwStages n edges (k + 1)).1 v j < (fwStages n edges (k + 1)).1 h' j)) <
        ((range1 n).countP fun v =>
          decide ((fwStages n edges (k + 1)).1 v j < (fwStages n edges (k + 1)).1 y j)) := by
      refine countP_lt_of_witness (fun v hv => ?_) (range1 n) h' hhr ?_ ?_
      · rw [decide_eq_true_iff] at hv ⊢
        exact hv.trans hlt
      · rw [decide_eq_false_iff_not]
        exact lt_irrefl _
      · rw [decide_eq_true_iff]
        exact hlt
    unfold rkM
    have hsmall : (if (fwStages n edges k).1 h' (k + 1) + (fwStages n edges k).1 (k + 1) j <
          (fwStages n edges k).1 h' j
        then (n + 2) + walkSteps (fwStages n edges k).2 (k + 1) (n + 1) h'
        else walkSteps (fwStages n edges k).2 j (n + 1) h') < 2 * (n + 2) := by
      split
      · omega
      · omega
    have hmul := Nat.mul_le_mul_right (2 * (n + 2)) (Nat.succ_le_of_lt hcnt)
    rw [Nat.succ_mul] at hmul
    omega
  · -- the new distance is unchanged along the hop
    have hcnteq : ((range1 n).countP fun v =>
          decide ((fwStages n edges (k + 1)).1 v j < (fwStages n edges (k + 1)).1 h' j)) =
        ((range1 n).countP fun v =>
          decide ((fwStages n edges (k + 1)).1 v j < (fwStages n edges (k + 1)).1 y j)) := by
      have : (fun v => decide ((fwStages n edges (k + 1)).1 v j <
          (fwStages n edges (k + 1)).1 h' j)) =
          fun v => decide ((fwStages n edges (k + 1)).1 v j <
          (fwStages n edges (k + 1)).1 y j) := by
        funext v
        rw [heq]
      rw [this]
    unfold rkM
    rw [hcnteq]
    refine Nat.add_lt_add_left ?_ _
    by_cases hupdy : (fwStages n edges k).1 y (k + 1) + (fwStages n edges k).1 (k + 1) j <
        (fwStages n edges k).1 y j
    · -- position (y, j) was updated this phase: the hop follows the walk toward k+1
      have hRy : (fwStages n edges k).2 y (k + 1) = some h' := by
        rw [hRform, if_pos hupdy] at hRyj
        exact hRyj
      have hyK : y ≠ k + 1 := by
        rintro rfl
        rw [hkk, zero_add] at hupdy
        exact lt_irrefl _ hupdy
      have hfinK : (fwStages n edges k).1 y (k + 1) ≠ ⊤ := by
        intro hc
        rw [hc, top_add] at hupdy
        exact not_top_lt hupdy
      have hstep := walkSteps_step n hyK hRy (hreachK y hy hyK hfinK)
      rw [if_pos hupdy]
      by_cases hupdh : (fwStages n edges k).1 h' (k + 1) + (fwStages n edges k).1 (k + 1) j <
          (fwStages n edges k).1 h' j
      · rw [if_pos hupdh]
        omega
      · rw [if_neg hupdh]
        omega
    · -- position (y, j) kept its value: the hop follows the stage-k walk toward j
      have hRy : (fwStages n edges k).2 y j = some h' := by
        rw [hRform, if_neg hupdy] at hRyj
        exact hRyj
      have hDy : (fwStages n edges (k + 1)).1 y j = (fwStages n edges k).1 y j := by
        rw [hDform, if_neg hupdy]
      have hfinold : (fwStages n edges k).1 y j ≠ ⊤ := by
        rw [← hDy]
        exact hyfin
      have hupdh : ¬((fwStages n edges k).1 h' (k + 1) + (fwStages n edges k).1 (k + 1) j <
          (fwStages n edges k).1 h' j) := by
        intro hupd
        have hNh : (fwStages n edges (k + 1)).1 h' j =
            (fwStages n edges k).1 h' (k + 1) + (fwStages n edges k).1 (k + 1) j := by
          rw [fwStages_succ, fwPhase_D_in _ hkk hhr hj, if_pos hupd]
        obtain ⟨h2, hR2, -, -, -, hle2⟩ :=
          fwStages_routing hw k (by omega) y j hy hj hyj hfinold
        have hh2 : h2 = h' := by
          rw [hR2] at hRy
          exact Option.some_inj.mp hRy
        subst hh2
        have hDhj_le : (fwStages n edges k).1 h2 j ≤ (fwStages n edges k).1 y j :=
          le_trans (le_add_of_nonneg_left (edgeW_nonneg hw y h2)) hle2
        have : (fwStages n edges (k + 1)).1 h2 j < (fwStages n edges (k + 1)).1 h2 j := by
          calc (fwStages n edges (k + 1)).1 h2 j < (fwStages n edges k).1 h2 j := by
                rw [hNh]; exact hupd
            _ ≤ (fwStages n edges k).1 y j := hDhj_le
            _ = (fwStages n edges (k + 1)).1 y j := hDy.symm
            _ = (fwStages n edges (k + 1)).1 h2 j := heq.symm
        exact lt_irrefl _ this
      have hstep := walkSteps_step n hyj hRy (hreachJ y hy hyj hfinold)
      rw [if_neg hupdy, if_neg hupdh]
      omega

/-- After `k` phases, every finite off-diagonal `D[x][j]` admits a next-hop
walk from `x` reaching `j` within `n - 1` hops. -/
theorem fwStages_reach {n : ℕ} {edges : List Edge} (hw : ∀ e ∈ edges, 0 ≤ e.2.2) :
    ∀ k, k ≤ n → ∀ j x, j ∈ range1 n → x ∈ range1 n → x ≠ j →
      (fwStages n edges k).1 x j ≠ ⊤ →
      ∃ m, m + 1 ≤ n ∧ iterNext (fwStages n edges k).2 j m x = some j := by
  intro k
  induction k with
  | zero =>
    intro _ j x hj hx hxj hfin
    have hR : (fwStages n edges 0).2 x j = some j := by
      rw [fwStages_zero, init_R_proj]
      unfold initR
      rw [if_pos ⟨(mem_range1.mp hx).1, (mem_range1.mp hx).2, (mem_range1.mp hj).1,
        (mem_range1.mp hj).2, lt_top_iff_ne_top.mpr hfin⟩]
    refine ⟨1, ?_, ?_⟩
    · have h1 := mem_range1.mp hx
      have h2 := mem_range1.mp hj
      omega
    · simp [iterNext, hR]
  | succ k ihk =>
    intro hk1 j x hj hx hxj hfin
    have hn1 : 1 ≤ n := (mem_range1.mp hx).2.trans' (mem_range1.mp hx).1
    have hkr : k + 1 ∈ range1 n := mem_range1.mpr ⟨by omega, hk1⟩
    have hreachK : ∀ y, y ∈ range1 n → y ≠ k + 1 → (fwStages n edges k).1 y (k + 1) ≠ ⊤ →
        ∃ m, m ≤ n ∧ iterNext (fwStages n edges k).2 (k + 1) m y = some (k + 1) := by
      intro y hy hyK hfinK
      obtain ⟨m, hm, hre⟩ := ihk (by omega) (k + 1) y hkr hy hyK hfinK
      exact ⟨m, by omega, hre⟩
    have hreachJ : ∀ y, y ∈ range1 n → y ≠ j → (fwStages n edges k).1 y j ≠ ⊤ →
        ∃ m, m ≤ n ∧ iterNext (fwStages n edges k).2 j m y = some j := by
      intro y hy hyj hfinJ
      obtain ⟨m, hm, hre⟩ := ihk (by omega) j y hj hy hyj hfinJ
      exact ⟨m, by omega, hre⟩
    by_contra hno
    push_neg at hno
    -- iterate the next-hop map; every prefix of length `≤ n-1` stays strictly
    -- decreasing in the measure, yielding `n` distinct non-`j` vertices in `1..n`
    have hG : ∀ t, t ≤ n - 1 →
        (fun v => ((fwStages n edges (k + 1)).2 v j).getD v)^[t] x ∈ range1 n ∧
        (fun v => ((fwStages n edges (k + 1)).2 v j).getD v)^[t] x ≠ j ∧
        (fwStages n edges (k + 1)).1
          ((fun v => ((fwStages n edges (k + 1)).2 v j).getD v)^[t] x) j ≠ ⊤ ∧
        iterNext (fwStages n edges (k + 1)).2 j t x =
          some ((fun v => ((fwStages n edges (k + 1)).2 v j).getD v)^[t] x) ∧
        (∀ s, s < t → rkM n edges k j
            ((fun v => ((fwStages n edges (k + 1)).2 v j).getD v)^[t] x) <
          rkM n edges k j ((fun v => ((fwStages n edges (k + 1)).2 v j).getD v)^[s] x)) := by
      intro t
      induction t with
      | zero =>
        intro _
        refine ⟨hx, hxj, hfin, rfl, ?_⟩
        intro s hs
        omega
      | succ t iht =>
        intro ht1
        obtain ⟨hvr, hvj, hvfin, hviter, hvmono⟩ := iht (by omega)
        obtain ⟨h, hR, hhr, hhy, hew, hle⟩ :=
          fwStages_routing hw (k + 1) hk1 _ j hvr hj hvj hvfin
        have hF : (fun v => ((fwStages n edges (k + 1)).2 v j).getD v)^[t + 1] x = h := by
          rw [Function.iterate_succ_apply', hR]
          rfl
        have hiter : iterNext (fwStages n edges (k + 1)).2 j (t + 1) x = some h := by
          rw [iterNext_succ_right, hviter]
          simpa using hR
        have hhj : h ≠ j := by
          rintro rfl
          exact hno (t + 1) (by omega) hiter
        have hDle : (fwStages n edges (k + 1)).1 h j ≤
            (fwStages n edges (k + 1)).1
              ((fun v => ((fwStages n edges (k + 1)).2 v j).getD v)^[t] x) j :=
          le_trans (le_add_of_nonneg_left (edgeW_nonneg hw
            ((fun v => ((fwStages n edges (k + 1)).2 v j).getD v)^[t] x) h)) hle
        have hDfin : (fwStages n edges (k + 1)).1 h j ≠ ⊤ := by
          intro hc
          rw [hc] at hDle
          exact hvfin (top_le_iff.mp hDle)
        have hMdec := rkM_step hw hk1 hj hreachK hreachJ hvr hvj hvfin hR hhj
        rw [hF]
        refine ⟨hhr, hhj, hDfin, hiter, ?_⟩
        intro s hs
        rcases Nat.lt_succ_iff_lt_or_eq.mp hs with hs' | rfl
        · exact hMdec.trans (hvmono s hs')
        · exact hMdec
    -- pigeonhole: `n` distinct vertices inside `1..n`, all avoiding `j`
    have hnodup : ((List.range n).map
        (fun t => (fun v => ((fwStages n edges (k + 1)).2 v j).getD v)^[t] x)).Nodup := by
      refine List.pairwise_map.mpr ?_
      refine List.Pairwise.imp_of_mem ?_ (List.pairwise_lt_range n)
      intro a b ha hb hab heq
      rw [List.mem_range] at hb
      have hmono := (hG b (by omega)).2.2.2.2 a hab
      rw [heq] at hmono
      exact lt_irrefl _ hmono
    have hsub : ((List.range n).map
        (fun t => (fun v => ((fwStages n edges (k + 1)).2 v j).getD v)^[t] x)).toFinset ⊆
        ((range1 n).toFinset.erase j) := by
      intro v hv
      rw [List.mem_toFinset, List.mem_map] at hv
      obtain ⟨t, ht, rfl⟩ := hv
      rw [List.mem_range] at ht
      have hGt := hG t (by omega)
      exact Finset.mem_erase.mpr ⟨hGt.2.1, List.mem_toFinset.mpr hGt.1⟩
    have hcard1 : ((List.range n).map
        (fun t => (fun v => ((fwStages n edges (k + 1)).2 v j).getD v)^[t] x)).toFinset.card
        = n := by
      rw [List.toFinset_card_of_nodup hnodup, List.length_map, List.length_range]
    have hcard2 : ((range1 n).toFinset.erase j).card = n - 1 := by
      rw [Finset.card_erase_of_mem (List.mem_toFinset.mpr hj),
        List.toFinset_card_of_nodup (range1_nodup n)]
      simp [range1]
    have hle := Finset.card_le_card hsub
    omega

/-! ## Assembling C1 -/

/-- The weight of a vertex sequence: consecutive pairs weighted by their
cheapest direct edge. -/
def walkW (es : List Edge) : List ℕ → EW
  | a :: b :: p => edgeW es a b + walkW es (b :: p)
  | _ => 0

theorem walkW_nil (es : List Edge) : walkW es [] = 0 := rfl

theorem walkW_single (es : List Edge) (a : ℕ) : walkW es [a] = 0 := rfl

theorem walkW_cons₂ (es : List Edge) (a b : ℕ) (p : List ℕ) :
    walkW es (a :: b :: p) = edgeW es a b + walkW es (b :: p) := rfl

theorem edgeW_ne_top_iff {es : List Edge} {a b : ℕ} :
    edgeW es a b ≠ ⊤ ↔ ∃ w, (a, b, w) ∈ es := by
  induction es with
  | nil =>
    simp [edgeW]
  | cons e es ih =>
    rw [edgeW_cons]
    by_cases hc : e.1 = a ∧ e.2.1 = b
    · rw [if_pos hc]
      constructor
      · intro _
        obtain ⟨h1, h2⟩ := hc
        subst h1
        subst h2
        exact ⟨e.2.2, List.mem_cons_self _ _⟩
      · intro _
        intro htop
        have hle : min (e.2.2 : EW) (edgeW es a b) ≤ (e.2.2 : EW) := min_le_left _ _
        rw [htop] at hle
        exact absurd (top_le_iff.mp hle) (WithTop.coe_ne_top)
    · rw [if_neg hc]
      rw [ih]
      constructor
      · rintro ⟨w, hww⟩
        exact ⟨w, List.mem_cons_of_mem _ hww⟩
      · rintro ⟨w, hww⟩
        rcases List.mem_cons.mp hww with heq | hmem
        · exfalso
          apply hc
          constructor
          · rw [← heq]
          · rw [← heq]
        · exact ⟨w, hmem⟩

theorem rpGo_at_target (R : Rmat) (j fuel : ℕ) (path : List ℕ) :
    rpGo R j fuel j path = path := by
  cases fuel with
  | zero => simp [rpGo]
  | succ f => simp [rpGo]

/-- Final-stage triangle inequality through a direct edge. -/
theorem fw_triangle {n : ℕ} {edges : List Edge} (hw : ∀ e ∈ edges, 0 ≤ e.2.2)
    (x h j : ℕ) (hx : x ∈ range1 n) (hh : h ∈ range1 n) (hj : j ∈ range1 n) :
    (fwStages n edges n).1 x j ≤ edgeW edges x h + (fwStages n edges n).1 h j := by
  by_cases hfin : (fwStages n edges n).1 h j = ⊤
  · rw [hfin, add_top]
    exact le_top
  · obtain ⟨m, hbw⟩ := fwStages_realizable hw n le_rfl h j hh hj hfin
    exact fwStages_le_bwalk hw n le_rfl x j (m + 1) _ hx hj
      (BWalk.cons x h j m _ hh hbw)

/-- Correctness of the reconstruction loop on the final matrices: starting
from `x` with a finite `D[x][j]`, the loop appends the unique next-hop walk
to `j`, whose weight telescopes to exactly `D[x][j]`. -/
theorem rpGo_master {n : ℕ} {edges : List Edge} (hw : ∀ e ∈ edges, 0 ≤ e.2.2)
    (j : ℕ) (hj : j ∈ range1 n) :
    ∀ (fuel x : ℕ) (path : List ℕ), x ∈ range1 n → x ≠ j →
      (fwStages n edges n).1 x j ≠ ⊤ →
      walkSteps (fwStages n edges n).2 j (n + 1) x ≤ fuel →
      ∃ q, rpGo (fwStages n edges n).2 j fuel x path = path ++ q ∧
        q.length = walkSteps (fwStages n edges n).2 j (n + 1) x ∧
        q.getLast? = some j ∧
        List.Chain' (fun a b => edgeW edges a b ≠ ⊤) (x :: q) ∧
        walkW edges (x :: q) = (fwStages n edges n).1 x j := by
  intro fuel
  induction fuel with
  | zero =>
    intro x path hx hxj hfin hfuel
    obtain ⟨h, hR, -, -, -, -⟩ := fwStages_routing hw n le_rfl x j hx hj hxj hfin
    obtain ⟨m, hm, hre⟩ := fwStages_reach hw n le_rfl j x hj hx hxj hfin
    have := walkSteps_step n hxj hR ⟨m, by omega, hre⟩
    omega
  | succ f ih =>
    intro x path hx hxj hfin hfuel
    obtain ⟨h, hR, hhr, hhx, hew, hle⟩ := fwStages_routing hw n le_rfl x j hx hj hxj hfin
    have htri := fw_triangle hw x h j hx hhr hj
    have heq : edgeW edges x h + (fwStages n edges n).1 h j = (fwStages n edges n).1 x j :=
      le_antisymm hle htri
    obtain ⟨m, hm, hre⟩ := fwStages_reach hw n le_rfl j x hj hx hxj hfin
    have hstep := walkSteps_step n hxj hR ⟨m, by omega, hre⟩
    have hunf : rpGo (fwStages n edges n).2 j (f + 1) x path =
        rpGo (fwStages n edges n).2 j f h (path ++ [h]) := by
      conv_lhs => rw [rpGo]
      rw [if_neg hxj, hR]
    by_cases hhj : h = j
    · subst hhj
      refine ⟨[h], ?_, ?_, by simp, ?_, ?_⟩
      · rw [hunf, rpGo_at_target]
      · rw [hstep, walkSteps_self]
        rfl
      · exact List.chain'_pair.mpr hew
      · rw [walkW_cons₂, walkW_single, add_zero, ← heq,
          fwStages_diag hw le_rfl hj, add_zero]
    · have hfin2 : (fwStages n edges n).1 h j ≠ ⊤ := by
        intro hc
        rw [hc, add_top] at heq
        exact hfin heq.symm
      have hfuel2 : walkSteps (fwStages n edges n).2 j (n + 1) h ≤ f := by omega
      obtain ⟨q, hq, hlen, hlast, hchain, hwalk⟩ := ih h (path ++ [h]) hhr hhj hfin2 hfuel2
      have hqne : q ≠ [] := by
        intro hc
        rw [hc] at hlast
        simp at hlast
      refine ⟨h :: q, ?_, ?_, ?_, ?_, ?_⟩
      · rw [hunf, hq, List.append_assoc]
        rfl
      · rw [List.length_cons, hlen, hstep]
      · cases q with
        | nil => exact absurd rfl hqne
        | cons b l =>
          rw [List.getLast?_cons_cons]
          exact hlast
      · exact List.Chain'.cons hew hchain
      · rw [walkW_cons₂, hwalk, heq]

/-- C1: on an undirected parse (both directions inserted) with non-negative
weights, whenever `D[i][j]` is finite after `floyd_warshall_with_routing`,
`reconstruct_path(R, i, j)` (with `len(R) = n + 1`) returns a sequence that
starts at `i`, ends at `j`, has at most `n` vertices, whose consecutive
pairs are direct edges of the graph, and whose total weight is `D[i][j]`. -/
theorem C1_reconstruct_path_correct (n : ℕ) (lines : List Edge)
    (hw : ∀ e ∈ lines, 0 ≤ e.2.2) (i j : ℕ) (hi : i ∈ range1 n) (hj : j ∈ range1 n)
    (hfin : (floyd_warshall_with_routing n (read_undirected_edges lines)).1 i j ≠ ⊤) :
    ∃ p, reconstruct_path (n + 1)
        (floyd_warshall_with_routing n (read_undirected_edges lines)).2 i j = p ∧
      p.head? = some i ∧ p.getLast? = some j ∧ p.length ≤ n ∧
      List.Chain' (fun a b => ∃ w, (a, b, w) ∈ read_undirected_edges lines) p ∧
      walkW (read_undirected_edges lines) p =
        (floyd_warshall_with_routing n (read_undirected_edges lines)).1 i j := by
  have hw' := ru_weight_nonneg hw
  rw [fw_eq_stages] at hfin ⊢
  have hn1 : 1 ≤ n := le_trans (mem_range1.mp hi).1 (mem_range1.mp hi).2
  by_cases hij : i = j
  · subst hij
    refine ⟨[i], by simp [reconstruct_path], by simp, by simp, by simpa, by simp, ?_⟩
    rw [walkW_single, fwStages_diag hw' le_rfl hi]
  · obtain ⟨h, hR, -, -, -, -⟩ :=
      fwStages_routing hw' n le_rfl i j hi hj hij hfin
    have hRne : (fwStages n (read_undirected_edges lines) n).2 i j ≠ none := by
      rw [hR]
      simp
    have hrp : reconstruct_path (n + 1) (fwStages n (read_undirected_edges lines) n).2 i j =
        rpGo (fwStages n (read_undirected_edges lines) n).2 j ((n + 1) * (n + 1)) i [i] := by
      unfold reconstruct_path
      rw [if_neg hij, if_neg hRne]
    obtain ⟨m, hm, hre⟩ := fwStages_reach hw' n le_rfl j i hj hi hij hfin
    obtain ⟨hsle, -⟩ :=
      walkSteps_spec (fwStages n (read_undirected_edges lines) n).2 j (n + 1) m i
        (by omega) hre
    have hfuel : walkSteps (fwStages n (read_undirected_edges lines) n).2 j (n + 1) i ≤
        (n + 1) * (n + 1) := by
      have h2 : (n + 1) ≤ (n + 1) * (n + 1) := Nat.le_mul_of_pos_left _ (by omega)
      omega
    obtain ⟨q, hq, hlen, hlast, hchain, hwalkw⟩ :=
      rpGo_master hw' j hj ((n + 1) * (n + 1)) i [i] hi hij hfin hfuel
    have hqne : q ≠ [] := by
      intro hc
      rw [hc] at hlast
      simp at hlast
    refine ⟨i :: q, ?_, by simp, ?_, ?_, ?_, hwalkw⟩
    · rw [hrp, hq]
      rfl
    · cases q with
      | nil => exact absurd rfl hqne
      | cons b l =>
        rw [List.getLast?_cons_cons]
        exact hlast
    · rw [List.length_cons, hlen]
      omega
    · exact hchain.imp fun a b hab => edgeW_ne_top_iff.mp hab

/-- Witness for C1 on the triangle graph of the spec scenario at the pair
`(1, 3)`: the reconstructed path is `[1, 2, 3]` with weight `2`. -/
theorem C1_reconstruct_path_correct_witness :
    ∃ p, reconstruct_path 4
        (floyd_warshall_with_routing 3
          (read_undirected_edges [(1, 2, 1), (2, 3, 1), (1, 3, 5)])).2 1 3 = p ∧
      p.head? = some 1 ∧ p.getLast? = some 3 ∧ p.length ≤ 3 ∧
      List.Chain' (fun a b => ∃ w,
        (a, b, w) ∈ read_undirected_edges [(1, 2, 1), (2, 3, 1), (1, 3, 5)]) p ∧
      walkW (read_undirected_edges [(1, 2, 1), (2, 3, 1), (1, 3, 5)]) p =
        (floyd_warshall_with_routing 3
          (read_undirected_edges [(1, 2, 1), (2, 3, 1), (1, 3, 5)])).1 1 3 :=
  C1_reconstruct_path_correct 3 [(1, 2, 1), (2, 3, 1), (1, 3, 5)]
    (by intro e he; fin_cases he <;> norm_num) 1 3 (by decide) (by decide)
    (by
      norm_num [floyd_warshall_with_routing, floyd_init_with_routing, range1,
        List.range_succ, fwPhase, fwRow, fwInner, edgeFold, initD0, initR, updD, updR,
        read_undirected_edges, lt_top_iff_ne_top, -WithTop.coe_ofNat, -WithTop.coe_add,
        ← WithTop.coe_add, ← WithTop.coe_zero, ← WithTop.coe_one])

end Q1

/-! ## Q2: `q2_otimizando_caminho.py` — Bellman–Ford -/

namespace Q2

abbrev EZ := WithTop ℤ

/-- An edge of the Q2 graph: `(u, v, w)` with integer weight. -/
abbrev ZEdge := ℕ × ℕ × ℤ

def updF {α : Type} (f : ℕ → α) (i : ℕ) (a : α) : ℕ → α :=
  fun x => if x = i then a else f x

/-- One edge inspection of the inner `for (u, v, w) in edges` loop: state is
`(dist, anterior, updated)`. -/
def bfRelax (s : (ℕ → EZ) × (ℕ → ℤ) × Bool) (e : ZEdge) : (ℕ → EZ) × (ℕ → ℤ) × Bool :=
  if s.1 e.1 ≠ ⊤ ∧ s.1 e.1 + (e.2.2 : EZ) < s.1 e.2.1 then
    (updF s.1 e.2.1 (s.1 e.1 + (e.2.2 : EZ)), updF s.2.1 e.2.1 (e.1 : ℤ), true)
  else s

/-- One full pass over all edges, starting with `updated = False`. -/
def bfPass (edges : List ZEdge) (s : (ℕ → EZ) × (ℕ → ℤ)) : (ℕ → EZ) × (ℕ → ℤ) × Bool :=
  edges.foldl bfRelax (s.1, s.2, false)

/-- The `for _ in range(n-1)` loop with the `if not updated: break` early exit. -/
def bfLoop (edges : List ZEdge) : ℕ → (ℕ → EZ) × (ℕ → ℤ) → (ℕ → EZ) × (ℕ → ℤ)
  | 0, s => s
  | k + 1, s =>
      let r := bfPass edges s
      if r.2.2 then bfLoop edges k (r.1, r.2.1) else (r.1, r.2.1)

/-- `dist = [inf]*n; dist[src] = 0; anterior = [-1]*n` (arrays as functions). -/
def bfInit (n src : ℕ) : (ℕ → EZ) × (ℕ → ℤ) :=
  (fun i => if i = src then (0 : EZ) else ⊤, fun _ => -1)

def bellman_ford (n : ℕ) (edges : List ZEdge) (src : ℕ) : (ℕ → EZ) × (ℕ → ℤ) :=
  bfLoop edges (n - 1) (bfInit n src)

/-- The state reached by one unconditional pass (ignoring the break flag). -/
def bfStep (edges : List ZEdge) (s : (ℕ → EZ) × (ℕ → ℤ)) : (ℕ → EZ) × (ℕ → ℤ) :=
  ((bfPass edges s).1, (bfPass edges s).2.1)

/-- `k` unconditional passes: the no-early-exit variant of the main loop. -/
def bfIter (edges : List ZEdge) (k : ℕ) (s : (ℕ → EZ) × (ℕ → ℤ)) : (ℕ → EZ) × (ℕ → ℤ) :=
  (bfStep edges)^[k] s

/-- Walks in the edge list: `ZWalkN es src t v c` means there is a walk from
`src` to `v` whose vertices after `src` are the list `t` and whose total
weight is `c`. -/
inductive ZWalkN (es : List ZEdge) (src : ℕ) : List ℕ → ℕ → ℤ → Prop
  | nil : ZWalkN es src [] src 0
  | snoc (t : List ℕ) (u v : ℕ) (w c : ℤ) (prev : ZWalkN es src t u c)
      (he : (u, v, w) ∈ es) : ZWalkN es src (t ++ [v]) v (c + w)

end Q2

namespace Q2

theorem updF_self {α : Type} (f : ℕ → α) (i : ℕ) (a : α) : updF f i a i = a := by
  simp [updF]

theorem updF_ne {α : Type} (f : ℕ → α) (i : ℕ) (a : α) (x : ℕ) (hx : x ≠ i) :
    updF f i a x = f x := by
  simp [updF, hx]

theorem bfRelax_flag_mono (s : (ℕ → EZ) × (ℕ → ℤ) × Bool) (e : ZEdge)
    (h : s.2.2 = true) : (bfRelax s e).2.2 = true := by
  unfold bfRelax
  split
  · rfl
  · exact h

theorem foldl_flag_mono (l : List ZEdge) : ∀ s : (ℕ → EZ) × (ℕ → ℤ) × Bool,
    s.2.2 = true → (l.foldl bfRelax s).2.2 = true := by
  induction l with
  | nil => intro s h; exact h
  | cons e l ih =>
      intro s h
      rw [List.foldl_cons]
      exact ih _ (bfRelax_flag_mono s e h)

theorem bfRelax_cases (s : (ℕ → EZ) × (ℕ → ℤ) × Bool) (e : ZEdge) :
    bfRelax s e = s ∨ (bfRelax s e).2.2 = true := by
  unfold bfRelax
  split
  · right; rfl
  · left; rfl

theorem foldl_flag_false (l : List ZEdge) : ∀ s : (ℕ → EZ) × (ℕ → ℤ) × Bool,
    (l.foldl bfRelax s).2.2 = false → l.foldl bfRelax s = s := by
  induction l with
  | nil => intro s _; rfl
  | cons e l ih =>
      intro s h
      rw [List.foldl_cons] at h ⊢
      rcases bfRelax_cases s e with heq | hflag
      · rw [heq] at h ⊢
        exact ih s h
      · exact absurd (foldl_flag_mono l _ hflag) (by rw [h]; decide)

theorem bfRelax_dist_mono (s : (ℕ → EZ) × (ℕ → ℤ) × Bool) (e : ZEdge) (v : ℕ) :
    (bfRelax s e).1 v ≤ s.1 v := by
  unfold bfRelax
  split
  · rename_i hc
    by_cases hv : v = e.2.1
    · subst hv
      dsimp only
      rw [updF_self]
      exact le_of_lt hc.2
    · dsimp only
      rw [updF_ne _ _ _ _ hv]
  · exact le_refl _

theorem foldl_dist_mono (l : List ZEdge) : ∀ (s : (ℕ → EZ) × (ℕ → ℤ) × Bool) (v : ℕ),
    (l.foldl bfRelax s).1 v ≤ s.1 v := by
  induction l with
  | nil => intro s v; exact le_refl _
  | cons e l ih =>
      intro s v
      rw [List.foldl_cons]
      exact le_trans (ih _ v) (bfRelax_dist_mono s e v)

theorem bfRelax_edge_self (s : (ℕ → EZ) × (ℕ → ℤ) × Bool) (e : ZEdge) :
    (bfRelax s e).1 e.2.1 ≤ s.1 e.1 + (e.2.2 : EZ) := by
  unfold bfRelax
  split
  · dsimp only
    rw [updF_self]
  · rename_i hc
    push_neg at hc
    by_cases htop : s.1 e.1 = ⊤
    · rw [htop, top_add]
      exact le_top
    · exact hc htop

theorem foldl_edge (l : List ZEdge) : ∀ (s : (ℕ → EZ) × (ℕ → ℤ) × Bool),
    ∀ e ∈ l, (l.foldl bfRelax s).1 e.2.1 ≤ s.1 e.1 + (e.2.2 : EZ) := by
  induction l with
  | nil => intro s e he; exact absurd he (List.not_mem_nil e)
  | cons a l ih =>
      intro s e he
      rw [List.foldl_cons]
      rcases List.mem_cons.mp he with rfl | hmem
      · exact le_trans (foldl_dist_mono l _ _) (bfRelax_edge_self s e)
      · exact le_trans (ih _ e hmem)
          (add_le_add_right (bfRelax_dist_mono s a e.1) _)

end Q2

namespace Q2

theorem bfLoop_eq_iter (edges : List ZEdge) : ∀ (k : ℕ) (s : (ℕ → EZ) × (ℕ → ℤ)),
    bfLoop edges k s = bfIter edges k s := by
  intro k
  induction k with
  | zero => intro s; rfl
  | succ k ih =>
      intro s
      show (let r := bfPass edges s;
        if r.2.2 then bfLoop edges k (r.1, r.2.1) else (r.1, r.2.1)) = _
      dsimp only
      by_cases hf : (bfPass edges s).2.2 = true
      · rw [if_pos hf, ih]
        show bfIter edges k (bfStep edges s) = _
        unfold bfIter
        rw [Function.iterate_succ_apply]
      · rw [if_neg hf]
        have hfix : bfPass edges s = (s.1, s.2, false) :=
          foldl_flag_false edges _ (Bool.not_eq_true _ ▸ hf)
        have hstep : bfStep edges s = s := by
          unfold bfStep
          rw [hfix]
        unfold bfIter
        rw [Function.iterate_fixed hstep, hfix]

/-- Every finite `dist` entry is the weight of some walk from `src`. -/
def reachW (es : List ZEdge) (src : ℕ) (d : ℕ → EZ) : Prop :=
  ∀ v, d v ≠ ⊤ → ∃ c : ℤ, d v = (c : EZ) ∧ ∃ t, ZWalkN es src t v c

theorem bfRelax_real (es : List ZEdge) (src : ℕ) (s : (ℕ → EZ) × (ℕ → ℤ) × Bool)
    (e : ZEdge) (he : e ∈ es) (hs : reachW es src s.1) : reachW es src (bfRelax s e).1 := by
  unfold bfRelax
  split
  · rename_i hc
    intro v hv
    by_cases hve : v = e.2.1
    · subst hve
      dsimp only at hv ⊢
      rw [updF_self] at hv ⊢
      obtain ⟨c, hcu, t, hw⟩ := hs e.1 hc.1
      refine ⟨c + e.2.2, ?_, t ++ [e.2.1], ?_⟩
      · rw [hcu, WithTop.coe_add]
      · exact ZWalkN.snoc t e.1 e.2.1 e.2.2 c hw he
    · dsimp only at hv ⊢
      rw [updF_ne _ _ _ _ hve] at hv ⊢
      exact hs v hv
  · exact hs

theorem foldl_real (es : List ZEdge) (src : ℕ) (l : List ZEdge) (hl : ∀ e ∈ l, e ∈ es) :
    ∀ s : (ℕ → EZ) × (ℕ → ℤ) × Bool,
      reachW es src s.1 → reachW es src (l.foldl bfRelax s).1 := by
  induction l with
  | nil => intro s h; exact h
  | cons e l ih =>
      intro s h
      rw [List.foldl_cons]
      exact ih (fun x hx => hl x (List.mem_cons_of_mem e hx)) _
        (bfRelax_real es src s e (hl e (List.mem_cons_self e l)) h)

theorem init_real (n src : ℕ) (es : List ZEdge) : reachW es src (bfInit n src).1 := by
  intro v hv
  unfold bfInit at hv ⊢
  dsimp only at hv ⊢
  by_cases hs : v = src
  · subst hs
    rw [if_pos rfl] at hv ⊢
    exact ⟨0, by rw [WithTop.coe_zero], [], ZWalkN.nil⟩
  · rw [if_neg hs] at hv
    exact absurd rfl hv

theorem iter_real (n src : ℕ) (es : List ZEdge) (k : ℕ) :
    reachW es src (bfIter es k (bfInit n src)).1 := by
  induction k with
  | zero => exact init_real n src es
  | succ k ih =>
      unfold bfIter at ih ⊢
      rw [Function.iterate_succ_apply']
      exact foldl_real es src es (fun e he => he) _ ih

theorem iter_le_init (es : List ZEdge) (k : ℕ) (s : (ℕ → EZ) × (ℕ → ℤ)) (v : ℕ) :
    (bfIter es k s).1 v ≤ s.1 v := by
  induction k with
  | zero => exact le_refl _
  | succ k ih =>
      unfold bfIter at ih ⊢
      rw [Function.iterate_succ_apply']
      exact le_trans (foldl_dist_mono es _ v) ih

theorem ZWalkN_nil_inv (es : List ZEdge) (src v : ℕ) (c : ℤ)
    (h : ZWalkN es src [] v c) : v = src ∧ c = 0 := by
  have h' : ∀ t : List ℕ, ZWalkN es src t v c → t = [] → v = src ∧ c = 0 := by
    intro t hw
    cases hw with
    | nil => intro _; exact ⟨rfl, rfl⟩
    | snoc t u v w c prev he => intro hnil; exact absurd hnil (by simp)
  exact h' [] h rfl

end Q2

namespace Q2

/-- After `k` unconditional passes, `dist v` is below the weight of every walk
with at most `k` edges. -/
theorem iter_ub (es : List ZEdge) (n src : ℕ) : ∀ (k : ℕ) (v : ℕ) (c : ℤ) (t : List ℕ),
    t.length ≤ k → ZWalkN es src t v c →
    (bfIter es k (bfInit n src)).1 v ≤ (c : EZ) := by
  intro k
  induction k with
  | zero =>
      intro v c t ht hw
      have ht0 : t = [] := List.eq_nil_of_length_eq_zero (Nat.le_zero.mp ht)
      subst ht0
      obtain ⟨rfl, rfl⟩ := ZWalkN_nil_inv es src v c hw
      unfold bfIter bfInit
      simp
  | succ k ih =>
      intro v c t ht hw
      cases hw with
      | nil =>
          refine le_trans (iter_le_init es (k + 1) _ src) ?_
          unfold bfInit
          simp
      | snoc t u v w c prev he =>
          have hlt : t.length ≤ k := by
            rw [List.length_append, List.length_cons, List.length_nil] at ht
            omega
          have hu := ih u c t hlt prev
          unfold bfIter
          rw [Function.iterate_succ_apply']
          have hedge := foldl_edge es ((bfIter es k (bfInit n src)).1,
            (bfIter es k (bfInit n src)).2, false) (u, v, w) he
          refine le_trans hedge ?_
          rw [WithTop.coe_add]
          exact add_le_add_right hu _

end Q2

namespace Q2

/-- Walks compose: a walk `src → u` followed by a walk `u → v`. -/
theorem ZWalkN_append_walk (es : List ZEdge) (src u : ℕ) (t1 : List ℕ) (c1 : ℤ)
    (h1 : ZWalkN es src t1 u c1) : ∀ (t2 : List ℕ) (v : ℕ) (c2 : ℤ),
    ZWalkN es u t2 v c2 → ZWalkN es src (t1 ++ t2) v (c1 + c2) := by
  intro t2 v c2 h2
  induction h2 with
  | nil =>
      rw [List.append_nil, add_zero]
      exact h1
  | snoc t a b w c prev he ih =>
      rw [← List.append_assoc, ← add_assoc]
      exact ZWalkN.snoc (t1 ++ t) a b w (c1 + c) ih he

/-- A walk whose trace passes through `x` splits into a walk to `x` and a walk
from `x`. -/
theorem ZWalkN_split (es : List ZEdge) (src : ℕ) : ∀ (t : List ℕ) (v : ℕ) (c : ℤ),
    ZWalkN es src t v c → ∀ (t1 : List ℕ) (x : ℕ) (t2 : List ℕ), t = t1 ++ x :: t2 →
    ∃ c1 c2, ZWalkN es src (t1 ++ [x]) x c1 ∧ ZWalkN es x t2 v c2 ∧ c = c1 + c2 := by
  intro t v c hw
  induction hw with
  | nil =>
      intro t1 x t2 h
      exact absurd h.symm (by simp)
  | snoc t u v w c prev he ih =>
      intro t1 x t2 h
      rcases List.eq_nil_or_concat t2 with rfl | ⟨t2p, y, rfl⟩
      · have hinj := List.append_inj' h (by simp)
        obtain ⟨rfl, hx⟩ := hinj
        have hvx : v = x := by simpa using hx
        subst hvx
        exact ⟨c + w, 0, ZWalkN.snoc t u v w c prev he, ZWalkN.nil, by ring⟩
      · rw [List.concat_eq_append] at h ⊢
        rw [show t1 ++ x :: (t2p ++ [y]) = (t1 ++ x :: t2p) ++ [y] from by simp] at h
        have hinj := List.append_inj' h (by simp)
        obtain ⟨ht, hy⟩ := hinj
        have hvy : v = y := by simpa using hy
        subst hvy
        obtain ⟨c1, c2, w1, w2, hc⟩ := ih t1 x t2p ht
        exact ⟨c1, c2 + w, w1, ZWalkN.snoc t2p u v w c2 w2 he, by rw [hc]; ring⟩

/-- With in-range edges, every vertex on a walk trace is `< n`. -/
theorem ZWalkN_range (es : List ZEdge) (n src : ℕ)
    (hrange : ∀ e ∈ es, e.1 < n ∧ e.2.1 < n) : ∀ (t : List ℕ) (v : ℕ) (c : ℤ),
    ZWalkN es src t v c → ∀ x ∈ t, x < n := by
  intro t v c hw
  induction hw with
  | nil => intro x hx; exact absurd hx (List.not_mem_nil x)
  | snoc t u v w c prev he ih =>
      intro x hx
      rcases List.mem_append.mp hx with hx | hx
      · exact ih x hx
      · rw [List.mem_singleton] at hx
        subst hx
        exact (hrange (u, x, w) he).2

/-- Every list is duplicate-free or contains an explicit repetition. -/
theorem nodup_or_split (t : List ℕ) :
    t.Nodup ∨ ∃ t1 x t2 t3, t = t1 ++ x :: (t2 ++ x :: t3) := by
  induction t with
  | nil => left; exact List.nodup_nil
  | cons a t ih =>
      by_cases ha : a ∈ t
      · right
        obtain ⟨s1, s2, rfl⟩ := List.append_of_mem ha
        exact ⟨[], a, s1, s2, by simp⟩
      · rcases ih with hnd | ⟨t1, x, t2, t3, rfl⟩
        · left
          exact List.nodup_cons.mpr ⟨ha, hnd⟩
        · right
          exact ⟨a :: t1, x, t2, t3, by simp⟩

/-- Pigeonhole: a duplicate-free trace over vertices `< n` is short. -/
theorem trace_short_of_nodup (n src : ℕ) (t : List ℕ) (hnd : (src :: t).Nodup)
    (hs : src < n) (ht : ∀ x ∈ t, x < n) : t.length < n := by
  have hsub : (src :: t).toFinset ⊆ Finset.range n := by
    intro x hx
    rw [List.mem_toFinset] at hx
    rw [Finset.mem_range]
    rcases List.mem_cons.mp hx with rfl | hx
    · exact hs
    · exact ht x hx
  have hcard := Finset.card_le_card hsub
  rw [List.toFinset_card_of_nodup hnd, Finset.card_range] at hcard
  simpa using hcard

end Q2

namespace Q2

/-- Cycle removal: when every cycle at a vertex reachable from `src` has
non-negative weight, every walk admits a walk of fewer than `n` edges to the
same endpoint of no larger weight. -/
theorem walk_short (es : List ZEdge) (n src : ℕ) (hsrc : src < n)
    (hrange : ∀ e ∈ es, e.1 < n ∧ e.2.1 < n)
    (hnc : ∀ u, (∃ t c, ZWalkN es src t u c) → ∀ t c, ZWalkN es u t u c → 0 ≤ c) :
    ∀ (N : ℕ) (t : List ℕ) (v : ℕ) (c : ℤ), t.length ≤ N → ZWalkN es src t v c →
    ∃ t2 c2, t2.length < n ∧ c2 ≤ c ∧ ZWalkN es src t2 v c2 := by
  intro N
  induction N with
  | zero =>
      intro t v c ht hw
      have ht0 : t = [] := List.eq_nil_of_length_eq_zero (Nat.le_zero.mp ht)
      subst ht0
      exact ⟨[], c, by omega, le_refl c, hw⟩
  | succ N ih =>
      intro t v c ht hw
      by_cases hlen : t.length < n
      · exact ⟨t, c, hlen, le_refl c, hw⟩
      · have hnotnd : ¬ (src :: t).Nodup := by
          intro hnd
          exact hlen (trace_short_of_nodup n src t hnd hsrc
            (ZWalkN_range es n src hrange t v c hw))
        rw [List.nodup_cons] at hnotnd
        push_neg at hnotnd
        by_cases hmem : src ∈ t
        · obtain ⟨s1, s2, rfl⟩ := List.append_of_mem hmem
          obtain ⟨c1, c2, w1, w2, hc⟩ := ZWalkN_split es src _ v c hw s1 src s2 rfl
          have hc1 : 0 ≤ c1 := hnc src ⟨[], 0, ZWalkN.nil⟩ (s1 ++ [src]) c1 w1
          obtain ⟨t3, c3, h3len, h3le, h3w⟩ := ih s2 v c2 (by
            rw [List.length_append, List.length_cons] at ht
            omega) w2
          exact ⟨t3, c3, h3len, by omega, h3w⟩
        · obtain ⟨t1, x, t2, t3, rfl⟩ := (nodup_or_split t).resolve_left (hnotnd hmem)
          obtain ⟨c1, crest, w1, wrest, hc⟩ :=
            ZWalkN_split es src _ v c hw t1 x (t2 ++ x :: t3) rfl
          obtain ⟨c2, c3, wcyc, w3, hcrest⟩ :=
            ZWalkN_split es x _ v crest wrest t2 x t3 rfl
          have hc2 : 0 ≤ c2 := hnc x ⟨t1 ++ [x], c1, w1⟩ (t2 ++ [x]) c2 wcyc
          have hglue := ZWalkN_append_walk es src x (t1 ++ [x]) c1 w1 t3 v c3 w3
          obtain ⟨t4, c4, h4len, h4le, h4w⟩ := ih ((t1 ++ [x]) ++ t3) v (c1 + c3) (by
            rw [List.length_append, List.length_append, List.length_singleton]
            rw [List.length_append, List.length_cons, List.length_append,
              List.length_cons] at ht
            omega) hglue
          exact ⟨t4, c4, h4len, by omega, h4w⟩

end Q2

namespace Q2

theorem foldl_nofire (l : List ZEdge) : ∀ s : (ℕ → EZ) × (ℕ → ℤ) × Bool,
    (∀ e ∈ l, ¬(s.1 e.1 ≠ ⊤ ∧ s.1 e.1 + (e.2.2 : EZ) < s.1 e.2.1)) →
    l.foldl bfRelax s = s := by
  induction l with
  | nil => intro s _; rfl
  | cons e l ih =>
      intro s h
      rw [List.foldl_cons]
      have hstep : bfRelax s e = s := by
        unfold bfRelax
        rw [if_neg (h e (List.mem_cons_self e l))]
      rw [hstep]
      exact ih s fun x hx => h x (List.mem_cons_of_mem e hx)

/-- C2: with in-range edges and no negative-weight cycle reachable from the
source, `bellman_ford` computes exact shortest-walk distances: `dist v` is a
lower bound on every walk weight, every finite `dist v` is attained by a walk,
`dist v = ⊤` exactly on unreachable vertices, one further relaxation pass over
all edges performs zero updates, and the loop with its early exit computes the
same state as `n - 1` unconditional passes. -/
theorem C2_bellman_ford_correct (n : ℕ) (edges : List ZEdge) (src : ℕ)
    (hsrc : src < n) (hrange : ∀ e ∈ edges, e.1 < n ∧ e.2.1 < n)
    (hnc : ∀ u, (∃ t c, ZWalkN edges src t u c) →
      ∀ t c, ZWalkN edges u t u c → 0 ≤ c) :
    (∀ v c t, ZWalkN edges src t v c → (bellman_ford n edges src).1 v ≤ (c : EZ)) ∧
    (∀ v, (bellman_ford n edges src).1 v ≠ ⊤ →
      ∃ c : ℤ, (bellman_ford n edges src).1 v = (c : EZ) ∧ ∃ t, ZWalkN edges src t v c) ∧
    (∀ v, (bellman_ford n edges src).1 v = ⊤ → ∀ t c, ¬ ZWalkN edges src t v c) ∧
    (bfPass edges (bellman_ford n edges src)).2.2 = false ∧
    bellman_ford n edges src = bfIter edges (n - 1) (bfInit n src) := by
  have heq : bellman_ford n edges src = bfIter edges (n - 1) (bfInit n src) :=
    bfLoop_eq_iter edges (n - 1) (bfInit n src)
  have hopt : ∀ v c t, ZWalkN edges src t v c →
      (bellman_ford n edges src).1 v ≤ (c : EZ) := by
    intro v c t hw
    obtain ⟨t2, c2, hlen, hle, hw2⟩ :=
      walk_short edges n src hsrc hrange hnc t.length t v c le_rfl hw
    have hub := iter_ub edges n src (n - 1) v c2 t2 (by omega) hw2
    rw [heq]
    exact le_trans hub (WithTop.coe_le_coe.mpr hle)
  have hreal : ∀ v, (bellman_ford n edges src).1 v ≠ ⊤ →
      ∃ c : ℤ, (bellman_ford n edges src).1 v = (c : EZ) ∧ ∃ t, ZWalkN edges src t v c := by
    rw [heq]
    exact iter_real n src edges (n - 1)
  have hunreach : ∀ v, (bellman_ford n edges src).1 v = ⊤ →
      ∀ t c, ¬ ZWalkN edges src t v c := by
    intro v htop t c hw
    have hle := hopt v c t hw
    rw [htop] at hle
    exact WithTop.coe_ne_top (top_le_iff.mp hle)
  refine ⟨hopt, hreal, hunreach, ?_, heq⟩
  have hnof : ∀ e ∈ edges, ¬((bellman_ford n edges src).1 e.1 ≠ ⊤ ∧
      (bellman_ford n edges src).1 e.1 + (e.2.2 : EZ) <
        (bellman_ford n edges src).1 e.2.1) := by
    rintro e he ⟨hne, hlt⟩
    obtain ⟨c, hcv, t, hwt⟩ := hreal e.1 hne
    have hw2 : ZWalkN edges src (t ++ [e.2.1]) e.2.1 (c + e.2.2) :=
      ZWalkN.snoc t e.1 e.2.1 e.2.2 c hwt he
    have hle := hopt e.2.1 (c + e.2.2) _ hw2
    rw [WithTop.coe_add, ← hcv] at hle
    exact absurd hlt (not_lt.mpr hle)
  unfold bfPass
  rw [foldl_nofire edges _ hnof]

/-- Witness for C2 on the single-edge graph `0 →(3) 1` with two vertices. -/
theorem C2_bellman_ford_correct_witness :
    (bfPass [((0 : ℕ), (1 : ℕ), (3 : ℤ))] (bellman_ford 2 [(0, 1, 3)] 0)).2.2 = false ∧
    (bellman_ford 2 [((0 : ℕ), (1 : ℕ), (3 : ℤ))] 0).1 1 ≤ ((3 : ℤ) : EZ) := by
  have hnc : ∀ u, (∃ t c, ZWalkN [((0 : ℕ), (1 : ℕ), (3 : ℤ))] 0 t u c) →
      ∀ t c, ZWalkN [((0 : ℕ), (1 : ℕ), (3 : ℤ))] u t u c → 0 ≤ c := by
    intro u _ t c hcyc
    cases hcyc with
    | nil => exact le_refl 0
    | snoc t2 u2 v w c2 prev he =>
        simp only [List.mem_singleton, Prod.mk.injEq] at he
        obtain ⟨h1, h2, h3⟩ := he
        subst h1
        subst h2
        subst h3
        cases prev with
        | snoc t3 u3 v3 w3 c3 prev2 he2 =>
            simp only [List.mem_singleton, Prod.mk.injEq] at he2
            omega
  have h := C2_bellman_ford_correct 2 [(0, 1, 3)] 0 (by omega)
    (by intro e he; fin_cases he; exact ⟨by decide, by decide⟩) hnc
  refine ⟨h.2.2.2.1, ?_⟩
  have hw : ZWalkN [((0 : ℕ), (1 : ℕ), (3 : ℤ))] 0 ([] ++ [1]) 1 (0 + 3) :=
    ZWalkN.snoc [] 0 1 3 0 ZWalkN.nil (by simp)
  have hle := h.1 1 (0 + 3) ([] ++ [1]) hw
  simpa using hle

end Q2

/-! ## Q3: `q3_grid.py` — Dijkstra on a character grid -/

namespace Q3

/-- `Cell = Tuple[int, int]  # (row, col)`. -/
abbrev Cell := ℕ × ℕ

/-- `COST = {'.': 1, '=': 1, '~': 3, 'S': 1, 'G': 1}` as an association list. -/
def COST : List (Char × ℕ) := [('.', 1), ('=', 1), ('~', 3), ('S', 1), ('G', 1)]

def OBSTACLE : Char := '#'

def is_passable (ch : Char) : Bool := ch ≠ OBSTACLE

/-- `COST.get(ch, 1)`. -/
def cell_cost (ch : Char) : ℕ := (COST.lookup ch).getD 1

/-- `grid[r][c]` (out-of-range reads never occur on guarded paths). -/
def gAt (g : List (List Char)) (r c : ℕ) : Char := (g.getD r []).getD c '#'

/-- `0 <= r < len(grid) and 0 <= c < len(grid[0])`, on signed candidates. -/
def in_bounds (g : List (List Char)) (r c : ℤ) : Bool :=
  0 ≤ r ∧ r < (g.length : ℤ) ∧ 0 ≤ c ∧ c < ((g.getD 0 []).length : ℤ)

/-- `neighbors4`: the four candidates, kept when in bounds and passable. -/
def neighbors4 (g : List (List Char)) (r c : ℕ) : List Cell :=
  [((r : ℤ) - 1, (c : ℤ)), ((r : ℤ) + 1, (c : ℤ)),
   ((r : ℤ), (c : ℤ) - 1), ((r : ℤ), (c : ℤ) + 1)].filterMap fun p =>
    if in_bounds g p.1 p.2 && is_passable (gAt g p.1.toNat p.2.toNat) then
      some (p.1.toNat, p.2.toNat)
    else none

/-- Pad a short line with spaces, truncate a long one (`read_grid` body). -/
def fit_line (cols : ℕ) (line : List Char) : List Char :=
  if line.length < cols then line ++ List.replicate (cols - line.length) ' '
  else line.take cols

/-- `row.find(ch)` over successive rows: first row holding `ch`, first column. -/
def find_char : List (List Char) → Char → Option Cell
  | [], _ => none
  | row :: rest, ch =>
      match row.findIdx? (fun x => x = ch) with
      | some c => some (0, c)
      | none => (find_char rest ch).map fun p => (p.1 + 1, p.2)

/-- `read_grid` after the header parse: takes the declared `rows`/`cols` and
the remaining file lines, errors when the file is short or a marker is
missing. -/
def read_grid (rows cols : ℕ) (lines : List (List Char)) :
    Except String (List (List Char) × Cell × Cell) :=
  if lines.length < rows then
    Except.error "Arquivo terminou antes de ler todas as linhas do grid."
  else
    let grid := (lines.take rows).map (fit_line cols)
    match find_char grid 'S', find_char grid 'G' with
    | some s, some gl => Except.ok (grid, s, gl)
    | _, _ => Except.error "Grid deve conter 'S' (início) e 'G' (objetivo)."

/-- Lexicographic strict order on heap entries, as `heapq` compares tuples. -/
def tupLt (a b : ℕ × Cell) : Bool :=
  a.1 < b.1 ∨ (a.1 = b.1 ∧ (a.2.1 < b.2.1 ∨ (a.2.1 = b.2.1 ∧ a.2.2 < b.2.2)))

/-- `heapq.heappop`: extract the least entry of the heap (as a multiset). -/
def popMin : List (ℕ × Cell) → Option ((ℕ × Cell) × List (ℕ × Cell))
  | [] => none
  | x :: xs =>
      let m := xs.foldl (fun a b => if tupLt b a then b else a) x
      some (m, (x :: xs).erase m)

def updC {α : Type} (f : Cell → α) (i : Cell) (a : α) : Cell → α :=
  fun x => if x = i then a else f x

/-- `nd < dist.get(v, float('inf'))`. -/
def ltOpt (nd : ℕ) : Option ℕ → Bool
  | none => true
  | some dv => nd < dv

/-- Relax one neighbour `v` of `u` (popped at distance `d`): state is
`(dist, parent, heap)`. -/
def relaxN (g : List (List Char)) (u : Cell) (d : ℕ)
    (s : (Cell → Option ℕ) × (Cell → Option Cell) × List (ℕ × Cell)) (v : Cell) :
    (Cell → Option ℕ) × (Cell → Option Cell) × List (ℕ × Cell) :=
  let nd := d + cell_cost (gAt g v.1 v.2)
  if ltOpt nd (s.1 v) then
    (updC s.1 v (some nd), updC s.2.1 v (some u), s.2.2 ++ [(nd, v)])
  else s

/-- The interpreter state of `dijkstra`. -/
structure DState where
  dist : Cell → Option ℕ
  parent : Cell → Option Cell
  expanded : ℕ
  heap : List (ℕ × Cell)

/-- `reconstruct`: the `while cur != start` pointer walk, fuel-bounded. -/
def rec_go (parent : Cell → Option Cell) (start : Cell) :
    ℕ → Cell → List Cell → List Cell
  | 0, _, path => path.reverse
  | f + 1, cur, path =>
      if cur = start then path.reverse
      else
        match parent cur with
        | none => path.reverse
        | some nxt => rec_go parent start f nxt (path ++ [nxt])

def reconstruct (parent : Cell → Option Cell) (start goal : Cell) (fuel : ℕ) :
    List Cell :=
  if parent goal = none ∧ goal ≠ start then []
  else rec_go parent start fuel goal [goal]

/-- The `while heap:` loop of `dijkstra`, fuel-bounded. -/
def dijkstra_loop (g : List (List Char)) (start goal : Cell) :
    ℕ → DState → List Cell × WithTop ℕ × ℕ
  | 0, st => ([], ⊤, st.expanded)
  | fuel + 1, st =>
      match popMin st.heap with
      | none => ([], ⊤, st.expanded)
      | some (du, rest) =>
          if st.dist du.2 = some du.1 then
            if du.2 = goal then
              (reconstruct st.parent start goal (du.1 + 1),
               ((du.1 : ℕ) : WithTop ℕ), st.expanded + 1)
            else
              let s3 := (neighbors4 g du.2.1 du.2.2).foldl (relaxN g du.2 du.1)
                (st.dist, st.parent, rest)
              dijkstra_loop g start goal fuel ⟨s3.1, s3.2.1, st.expanded + 1, s3.2.2⟩
          else dijkstra_loop g start goal fuel ⟨st.dist, st.parent, st.expanded + 1, rest⟩

/-- The initial state `dist = {start: 0}`, `parent = {}`, `heap = [(0, start)]`. -/
def dInit (start : Cell) : DState :=
  ⟨fun v => if v = start then some 0 else none, fun _ => none, 0, [(0, start)]⟩

/-- `dijkstra(grid, start, goal)`: the fuel `4·rows·cols + 2` dominates the
iteration count of the `while` loop (proved below). -/
def dijkstra (g : List (List Char)) (start goal : Cell) :
    List Cell × WithTop ℕ × ℕ :=
  dijkstra_loop g start goal (4 * g.length * (g.getD 0 []).length + 2) (dInit start)

/-- `overlay_path`: mark path cells with `'*'`, except the `S`/`G` markers. -/
def overlay_path (g : List (List Char)) (path : List Cell) : List (List Char) :=
  let s := find_char g 'S'
  let gl := find_char g 'G'
  g.mapIdx fun r row => row.mapIdx fun c ch =>
    if (r, c) ∈ path ∧ s ≠ some (r, c) ∧ gl ≠ some (r, c) then '*' else ch

def showCost : WithTop ℕ → String
  | ⊤ => "inf"
  | (n : ℕ) => toString n

/-- `solve_file` from the parsed header on: the list of printed lines, or the
`read_grid` error. -/
def solve_file (rows cols : ℕ) (lines : List (List Char)) :
    Except String (List String) :=
  match read_grid rows cols lines with
  | Except.error e => Except.error e
  | Except.ok (g, s, gl) =>
      match dijkstra g s gl with
      | (path, cost, expanded) =>
          if path = [] then Except.ok ["Nenhum caminho encontrado."]
          else Except.ok
            (["Caminho encontrado! [Dijkstra]",
              "Custo total: " ++ showCost cost,
              "Passos (número de movimentos): " ++ toString (max 0 (path.length - 1)),
              "Nós expandidos: " ++ toString expanded,
              "",
              "Grid com caminho " ++ "'*'" ++ ":",
              ""] ++ (overlay_path g path).map (fun row => String.mk row))

end Q3

namespace Q3

/-- C6 counterexample: a grid with two `'S'` markers (`S` appearing twice on
the first row) is accepted by `read_grid` without any error, so the parser
does not require exactly one `'S'`: it only requires at least one `'S'` and
one `'G'`, and `find_char` takes the first occurrence. -/
theorem C6_read_grid_counterexample :
    (['S', 'S', 'G', '.'].count 'S') = 2 ∧
    read_grid 1 4 [['S', 'S', 'G', '.']] =
      Except.ok ([['S', 'S', 'G', '.']], (0, 0), (0, 2)) :=
  ⟨by decide, by rfl⟩

/-- C6 (amended): with enough input lines, `read_grid` succeeds — returning
the first `'S'` and first `'G'` occurrences — precisely when the padded grid
contains at least one `'S'` and at least one `'G'`; when either marker is
missing it fails with the marker error, before any algorithm runs. -/
theorem C6_read_grid_markers (rows cols : ℕ) (lines : List (List Char))
    (hlen : rows ≤ lines.length) :
    (∀ s gl, find_char ((lines.take rows).map (fit_line cols)) 'S' = some s →
      find_char ((lines.take rows).map (fit_line cols)) 'G' = some gl →
      read_grid rows cols lines =
        Except.ok ((lines.take rows).map (fit_line cols), s, gl)) ∧
    ((find_char ((lines.take rows).map (fit_line cols)) 'S' = none ∨
      find_char ((lines.take rows).map (fit_line cols)) 'G' = none) →
      read_grid rows cols lines =
        Except.error "Grid deve conter 'S' (início) e 'G' (objetivo).") := by
  have hnl : ¬ lines.length < rows := by omega
  constructor
  · intro s gl hs hg
    unfold read_grid
    rw [if_neg hnl]
    dsimp only
    rw [hs, hg]
  · intro hor
    unfold read_grid
    rw [if_neg hnl]
    dsimp only
    rcases hor with hs | hg
    · rw [hs]
    · rw [hg]
      cases hS : find_char ((lines.take rows).map (fit_line cols)) 'S' with
      | none => rfl
      | some s => rfl

/-- Witness for C6 (amended) on the one-line grid `SG`. -/
theorem C6_read_grid_markers_witness :
    read_grid 1 2 [['S', 'G']] = Except.ok ([['S', 'G']], (0, 0), (0, 1)) :=
  (C6_read_grid_markers 1 2 [['S', 'G']] (by decide)).1 (0, 0) (0, 1) (by rfl) (by rfl)

/-- C7 counterexample: on the grid `S#G` the goal is unreachable; `dijkstra`
does return infinite cost and the expansion count `1`, but `solve_file`
reports the single line "Nenhum caminho encontrado." — the report includes
neither the infinite cost nor the expansion count. -/
theorem C7_solve_file_no_path_counterexample :
    (dijkstra [['S', '#', 'G']] (0, 0) (0, 2)).2.1 = ⊤ ∧
    (dijkstra [['S', '#', 'G']] (0, 0) (0, 2)).2.2 = 1 ∧
    solve_file 1 3 [['S', '#', 'G']] = Except.ok ["Nenhum caminho encontrado."] :=
  ⟨by decide, by decide, by rfl⟩

/-- C9: a padding space is not an obstacle, is absent from the cost table and
so gets the default cost 1; on a concrete grid whose second row is produced
entirely by padding, Dijkstra routes the optimal path through the padded
cells. -/
theorem C9_padded_cells_passable :
    COST.lookup ' ' = none ∧ is_passable ' ' = true ∧ cell_cost ' ' = 1 ∧
    read_grid 2 3 [['S', '#', 'G'], []] =
      Except.ok ([['S', '#', 'G'], [' ', ' ', ' ']], (0, 0), (0, 2)) ∧
    gAt [['S', '#', 'G'], [' ', ' ', ' ']] 1 1 = ' ' ∧
    (dijkstra [['S', '#', 'G'], [' ', ' ', ' ']] (0, 0) (0, 2)).1 =
      [(0, 0), (1, 0), (1, 1), (1, 2), (0, 2)] ∧
    (dijkstra [['S', '#', 'G'], [' ', ' ', ' ']] (0, 0) (0, 2)).2.1 =
      ((4 : ℕ) : WithTop ℕ) :=
  ⟨by rfl, by rfl, by rfl, by rfl, by rfl, by decide, by decide⟩

end Q3

namespace Q3

theorem one_le_cell_cost (ch : Char) : 1 ≤ cell_cost ch := by
  unfold cell_cost COST
  simp only [List.lookup]
  repeat' split
  all_goals decide

theorem updC_self {α : Type} (f : Cell → α) (i : Cell) (a : α) : updC f i a i = a := by
  simp [updC]

theorem updC_ne {α : Type} (f : Cell → α) (i : Cell) (a : α) (x : Cell) (hx : x ≠ i) :
    updC f i a x = f x := by
  simp [updC, hx]

theorem neighbors4_bounds (g : List (List Char)) (r c : ℕ) (x : Cell)
    (hx : x ∈ neighbors4 g r c) : x.1 < g.length ∧ x.2 < (g.getD 0 []).length := by
  unfold neighbors4 at hx
  rw [List.mem_filterMap] at hx
  obtain ⟨p, hp, hcond⟩ := hx
  split at hcond
  · rename_i hc
    rw [Bool.and_eq_true] at hc
    have hb : (0 ≤ p.1 ∧ p.1 < (g.length : ℤ) ∧ 0 ≤ p.2 ∧
        p.2 < ((g.getD 0 []).length : ℤ)) := by
      have := hc.1
      unfold in_bounds at this
      simpa using this
    obtain ⟨rfl⟩ : (p.1.toNat, p.2.toNat) = x := by
      exact Option.some.inj hcond
    constructor
    · omega
    · omega
  · exact absurd hcond (by simp)

theorem neighbors4_passable (g : List (List Char)) (r c : ℕ) (x : Cell)
    (hx : x ∈ neighbors4 g r c) : is_passable (gAt g x.1 x.2) = true := by
  unfold neighbors4 at hx
  rw [List.mem_filterMap] at hx
  obtain ⟨p, hp, hcond⟩ := hx
  split at hcond
  · rename_i hc
    rw [Bool.and_eq_true] at hc
    obtain ⟨rfl⟩ : (p.1.toNat, p.2.toNat) = x := Option.some.inj hcond
    exact hc.2
  · exact absurd hcond (by simp)

theorem neighbors4_length (g : List (List Char)) (r c : ℕ) :
    (neighbors4 g r c).length ≤ 4 := by
  have h := List.length_filterMap_le (fun p : ℤ × ℤ =>
    if in_bounds g p.1 p.2 && is_passable (gAt g p.1.toNat p.2.toNat) then
      some (p.1.toNat, p.2.toNat) else none)
    [((r : ℤ) - 1, (c : ℤ)), ((r : ℤ) + 1, (c : ℤ)),
     ((r : ℤ), (c : ℤ) - 1), ((r : ℤ), (c : ℤ) + 1)]
  simpa [neighbors4] using h

theorem popMin_nil : popMin [] = none := rfl

theorem tupLt_false_le (y m : ℕ × Cell) (h : ¬ tupLt y m = true) : m.1 ≤ y.1 := by
  unfold tupLt at h
  simp only [decide_eq_true_eq, Bool.decide_or, Bool.decide_and, Bool.or_eq_true,
    decide_eq_true_eq, Bool.and_eq_true] at h
  push_neg at h
  omega

theorem tupLt_le_first (y m : ℕ × Cell) (h : tupLt y m = true) : y.1 ≤ m.1 := by
  unfold tupLt at h
  simp only [Bool.decide_or, Bool.decide_and, Bool.or_eq_true, decide_eq_true_eq,
    Bool.and_eq_true] at h
  omega

theorem foldl_min_spec (xs : List (ℕ × Cell)) : ∀ x : ℕ × Cell,
    (xs.foldl (fun a b => if tupLt b a then b else a) x) ∈ x :: xs ∧
    ∀ y ∈ x :: xs, (xs.foldl (fun a b => if tupLt b a then b else a) x).1 ≤ y.1 := by
  induction xs with
  | nil =>
      intro x
      refine ⟨List.mem_singleton.mpr rfl, ?_⟩
      intro y hy
      rw [List.mem_singleton] at hy
      subst hy
      exact le_refl _
  | cons b xs ih =>
      intro x
      rw [List.foldl_cons]
      obtain ⟨hmem, hkey⟩ := ih (if tupLt b x then b else x)
      have hsplit : (if tupLt b x then b else x) = b ∨ (if tupLt b x then b else x) = x := by
        split
        · left; rfl
        · right; rfl
      have hkx : (if tupLt b x then b else x).1 ≤ x.1 := by
        split
        · rename_i h
          exact tupLt_le_first b x h
        · exact le_refl _
      have hkb : (if tupLt b x then b else x).1 ≤ b.1 := by
        split
        · exact le_refl _
        · rename_i h
          exact tupLt_false_le b x h
      constructor
      · rcases List.mem_cons.mp hmem with heq | hmem2
        · rcases hsplit with hb | hx
          · rw [heq, hb]
            exact List.mem_cons_of_mem _ (List.mem_cons_self _ _)
          · rw [heq, hx]
            exact List.mem_cons_self _ _
        · exact List.mem_cons_of_mem _ (List.mem_cons_of_mem _ hmem2)
      · intro y hy
        have hfold_le : (xs.foldl (fun a c => if tupLt c a then c else a)
            (if tupLt b x then b else x)).1 ≤ (if tupLt b x then b else x).1 :=
          hkey _ (List.mem_cons_self _ _)
        rcases List.mem_cons.mp hy with rfl | hy2
        · exact le_trans hfold_le hkx
        · rcases List.mem_cons.mp hy2 with rfl | hy3
          · exact le_trans hfold_le hkb
          · exact hkey y (List.mem_cons_of_mem _ hy3)

theorem popMin_spec (l : List (ℕ × Cell)) (m : ℕ × Cell) (rest : List (ℕ × Cell))
    (h : popMin l = some (m, rest)) :
    m ∈ l ∧ rest = l.erase m ∧ ∀ y ∈ l, m.1 ≤ y.1 := by
  cases l with
  | nil => exact absurd h (by simp [popMin])
  | cons x xs =>
      unfold popMin at h
      dsimp only at h
      obtain ⟨hm, hrest⟩ : xs.foldl (fun a b => if tupLt b a then b else a) x = m ∧
          (x :: xs).erase (xs.foldl (fun a b => if tupLt b a then b else a) x) = rest := by
        have := Option.some.inj h
        exact ⟨congrArg Prod.fst this, congrArg Prod.snd this⟩
      obtain ⟨hmem, hkey⟩ := foldl_min_spec xs x
      rw [hm] at hmem hkey
      rw [hm] at hrest
      exact ⟨hmem, hrest.symm, hkey⟩

end Q3

namespace Q3

/-- Walks over the 4-neighbour adjacency, accumulating the entry cost of each
visited cell after the first. -/
inductive GWalk (g : List (List Char)) : Cell → Cell → ℕ → Prop
  | nil (u) : GWalk g u u 0
  | snoc (u v x : Cell) (c : ℕ) (prev : GWalk g u v c)
      (hx : x ∈ neighbors4 g v.1 v.2) : GWalk g u x (c + cell_cost (gAt g x.1 x.2))

/-- Total cost of a vertex list: sum of entry costs of the cells after the
head. -/
def pathCost (g : List (List Char)) (l : List Cell) : ℕ :=
  (l.tail.map fun x => cell_cost (gAt g x.1 x.2)).sum

/-- A vertex has been expanded at distance `dv`: each neighbour carries a
distance at most `dv` plus its entry cost. -/
def DoneAt (g : List (List Char)) (D : Cell → Option ℕ) (v : Cell) (dv : ℕ) : Prop :=
  ∀ x ∈ neighbors4 g v.1 v.2, ∃ dx, D x = some dx ∧ dx ≤ dv + cell_cost (gAt g x.1 x.2)

/-- The loop invariant of the Dijkstra interpreter; `P` carves out the set of
vertices the loop may expand (all but the goal for the early-stop loop of the
source, everything for the exhaustive variant). -/
structure DInv (g : List (List Char)) (s : Cell) (P : Cell → Prop) (st : DState) : Prop where
  m1 : st.dist s = some 0
  m2 : ∀ v dv, st.dist v = some dv → GWalk g s v dv
  m3 : ∀ k x, (k, x) ∈ st.heap → ∃ dx, st.dist x = some dx ∧ dx ≤ k
  m4 : ∀ v dv, st.dist v = some dv → (dv, v) ∈ st.heap ∨ (DoneAt g st.dist v dv ∧ P v)
  m7 : ∀ v dv, st.dist v = some dv → (dv, v) ∈ st.heap ∨ ∀ k x, (k, x) ∈ st.heap → dv ≤ k
  m8 : st.heap.Nodup
  m9 : ∀ v dv, st.dist v = some dv → v.1 < g.length ∧ v.2 < (g.getD 0 []).length
  m6 : ∀ v dv, st.dist v = some dv → v ≠ s → ∃ u du, st.parent v = some u ∧
        st.dist u = some du ∧ v ∈ neighbors4 g u.1 u.2 ∧
        du + cell_cost (gAt g v.1 v.2) ≤ dv

/-- spec-modelled: the run-to-exhaustion variant referred to by the spec's
early-termination sentence — the same pop/relax loop without the goal check,
returning the final interpreter state. -/
def dex_loop (g : List (List Char)) : ℕ → DState → DState
  | 0, st => st
  | fuel + 1, st =>
      match popMin st.heap with
      | none => st
      | some (du, rest) =>
          if st.dist du.2 = some du.1 then
            let s3 := (neighbors4 g du.2.1 du.2.2).foldl (relaxN g du.2 du.1)
              (st.dist, st.parent, rest)
            dex_loop g fuel ⟨s3.1, s3.2.1, st.expanded + 1, s3.2.2⟩
          else dex_loop g fuel ⟨st.dist, st.parent, st.expanded + 1, rest⟩

def dex (g : List (List Char)) (start : Cell) : DState :=
  dex_loop g (4 * g.length * (g.getD 0 []).length + 2) (dInit start)

/-- The cut argument: from a vertex whose distance label is below `c1`, every
walk leads to a vertex with a small label or crosses the frontier. -/
theorem cut_prop {g : List (List Char)} {s : Cell} {P : Cell → Prop} {st : DState}
    (inv : DInv g s P st) : ∀ (x v : Cell) (c2 : ℕ), GWalk g x v c2 →
    ∀ (c1 dx : ℕ), st.dist x = some dx → dx ≤ c1 →
    (∃ dv, st.dist v = some dv ∧ dv ≤ c1 + c2) ∨
    (∃ k y, (k, y) ∈ st.heap ∧ k ≤ c1 + c2) := by
  intro x v c2 hw
  induction hw with
  | nil =>
      intro c1 dx hdx hle
      exact Or.inl ⟨dx, hdx, by omega⟩
  | snoc v xx c prev hxx ih =>
      intro c1 dx hdx hle
      rcases ih c1 dx hdx hle with ⟨dv, hdv, hdvle⟩ | ⟨k, y, hk, hkle⟩
      · rcases inv.m4 v dv hdv with hheap | ⟨hdone, hP⟩
        · exact Or.inr ⟨dv, v, hheap, by omega⟩
        · obtain ⟨dxx, hdxx, hdxxle⟩ := hdone xx hxx
          exact Or.inl ⟨dxx, hdxx, by omega⟩
      · exact Or.inr ⟨k, y, hk, by omega⟩

theorem cut_main {g : List (List Char)} {s : Cell} {P : Cell → Prop} {st : DState}
    (inv : DInv g s P st) (v : Cell) (c : ℕ) (hw : GWalk g s v c) :
    (∃ dv, st.dist v = some dv ∧ dv ≤ c) ∨ (∃ k y, (k, y) ∈ st.heap ∧ k ≤ c) := by
  have h := cut_prop inv s v c hw 0 0 inv.m1 (le_refl 0)
  simpa using h

end Q3

namespace Q3

/-- The invariant carried through the relaxation fold over the neighbour list
of the vertex `u` popped at key `d`; the fold state is `(dist, parent, heap)`. -/
structure FInv (g : List (List Char)) (s : Cell) (P : Cell → Prop) (u : Cell) (d : ℕ)
    (t : (Cell → Option ℕ) × (Cell → Option Cell) × List (ℕ × Cell)) : Prop where
  pin : t.1 u = some d
  f1 : t.1 s = some 0
  f2 : ∀ v dv, t.1 v = some dv → GWalk g s v dv
  f3 : ∀ k x, (k, x) ∈ t.2.2 → ∃ dx, t.1 x = some dx ∧ dx ≤ k
  f8 : t.2.2.Nodup
  f9 : ∀ v dv, t.1 v = some dv → v.1 < g.length ∧ v.2 < (g.getD 0 []).length
  fk : ∀ k x, (k, x) ∈ t.2.2 → d ≤ k
  f7 : ∀ v dv, t.1 v = some dv → (dv, v) ∈ t.2.2 ∨ dv ≤ d
  f4 : ∀ v dv, t.1 v = some dv → v ≠ u → (dv, v) ∈ t.2.2 ∨ (DoneAt g t.1 v dv ∧ P v)
  f6 : ∀ v dv, t.1 v = some dv → v ≠ s → ∃ w dw, t.2.1 v = some w ∧ t.1 w = some dw ∧
        v ∈ neighbors4 g w.1 w.2 ∧ dw + cell_cost (gAt g v.1 v.2) ≤ dv

theorem ltOpt_true_cases (nd : ℕ) (o : Option ℕ) (h : ltOpt nd o = true) :
    o = none ∨ ∃ dv, o = some dv ∧ nd < dv := by
  cases o with
  | none => exact Or.inl rfl
  | some dv =>
      right
      refine ⟨dv, rfl, ?_⟩
      simpa [ltOpt] using h

theorem ltOpt_false_cases (nd : ℕ) (o : Option ℕ) (h : ¬ ltOpt nd o = true) :
    ∃ dv, o = some dv ∧ dv ≤ nd := by
  cases o with
  | none => exact absurd (by rfl : ltOpt nd none = true) h
  | some dv =>
      refine ⟨dv, rfl, ?_⟩
      have hnl : ¬ nd < dv := by simpa [ltOpt] using h
      omega

theorem relaxN_eq_pos (g : List (List Char)) (u : Cell) (d : ℕ)
    (t : (Cell → Option ℕ) × (Cell → Option Cell) × List (ℕ × Cell)) (x : Cell)
    (hfire : ltOpt (d + cell_cost (gAt g x.1 x.2)) (t.1 x) = true) :
    relaxN g u d t x = (updC t.1 x (some (d + cell_cost (gAt g x.1 x.2))),
      updC t.2.1 x (some u), t.2.2 ++ [(d + cell_cost (gAt g x.1 x.2), x)]) := by
  unfold relaxN
  rw [if_pos hfire]

theorem relaxN_eq_neg (g : List (List Char)) (u : Cell) (d : ℕ)
    (t : (Cell → Option ℕ) × (Cell → Option Cell) × List (ℕ × Cell)) (x : Cell)
    (hfire : ¬ ltOpt (d + cell_cost (gAt g x.1 x.2)) (t.1 x) = true) :
    relaxN g u d t x = t := by
  unfold relaxN
  rw [if_neg hfire]

theorem relaxN_FInv (g : List (List Char)) (s : Cell) (P : Cell → Prop) (u : Cell)
    (d : ℕ) (t : (Cell → Option ℕ) × (Cell → Option Cell) × List (ℕ × Cell)) (x : Cell)
    (hx : x ∈ neighbors4 g u.1 u.2) (hF : FInv g s P u d t) :
    FInv g s P u d (relaxN g u d t x) := by
  by_cases hfire : ltOpt (d + cell_cost (gAt g x.1 x.2)) (t.1 x) = true
  case neg =>
    rw [relaxN_eq_neg g u d t x hfire]
    exact hF
  case pos =>
  rw [relaxN_eq_pos g u d t x hfire]
  have hxu : x ≠ u := by
    intro h
    subst h
    rw [hF.pin] at hfire
    simp [ltOpt] at hfire
  have hxs : x ≠ s := by
    intro h
    subst h
    rw [hF.f1] at hfire
    simp [ltOpt] at hfire
  have hold : ∀ dxo, t.1 x = some dxo → d + cell_cost (gAt g x.1 x.2) < dxo := by
    intro dxo hdxo
    rcases ltOpt_true_cases _ _ hfire with hn | ⟨dv, hdv, hlt⟩
    · rw [hn] at hdxo
      exact absurd hdxo (by simp)
    · rw [hdv] at hdxo
      rw [Option.some.inj hdxo] at hlt
      exact hlt
  have hnotin : (d + cell_cost (gAt g x.1 x.2), x) ∉ t.2.2 := by
    intro hmem
    obtain ⟨dx0, hdx0, hle0⟩ := hF.f3 _ _ hmem
    have := hold dx0 hdx0
    omega
  refine ⟨?_, ?_, ?_, ?_, ?_, ?_, ?_, ?_, ?_, ?_⟩
  · dsimp only
    rw [updC_ne _ _ _ _ (Ne.symm hxu)]
    exact hF.pin
  · dsimp only
    rw [updC_ne _ _ _ _ (Ne.symm hxs)]
    exact hF.f1
  · intro v dv hv
    dsimp only at hv
    by_cases hvx : v = x
    · subst hvx
      rw [updC_self] at hv
      rw [← Option.some.inj hv]
      exact GWalk.snoc s u v d (hF.f2 u d hF.pin) hx
    · rw [updC_ne _ _ _ _ hvx] at hv
      exact hF.f2 v dv hv
  · intro k y hky
    dsimp only at hky ⊢
    rcases List.mem_append.mp hky with hky | hky
    · obtain ⟨dx0, hdx0, hle0⟩ := hF.f3 k y hky
      by_cases hyx : y = x
      · subst hyx
        refine ⟨d + cell_cost (gAt g y.1 y.2), by rw [updC_self], ?_⟩
        have := hold dx0 hdx0
        omega
      · exact ⟨dx0, by rw [updC_ne _ _ _ _ hyx]; exact hdx0, hle0⟩
    · rw [List.mem_singleton] at hky
      have h1 : k = d + cell_cost (gAt g x.1 x.2) := congrArg Prod.fst hky
      have h2 : y = x := congrArg Prod.snd hky
      refine ⟨d + cell_cost (gAt g x.1 x.2), ?_, by omega⟩
      rw [h2, updC_self]
  · dsimp only
    rw [List.nodup_append]
    exact ⟨hF.f8, List.nodup_singleton _, by
      intro a ha hb
      rw [List.mem_singleton] at hb
      subst hb
      exact hnotin ha⟩
  · intro v dv hv
    dsimp only at hv
    by_cases hvx : v = x
    · subst hvx
      exact neighbors4_bounds g u.1 u.2 v hx
    · rw [updC_ne _ _ _ _ hvx] at hv
      exact hF.f9 v dv hv
  · intro k y hky
    dsimp only at hky
    rcases List.mem_append.mp hky with hky | hky
    · exact hF.fk k y hky
    · rw [List.mem_singleton] at hky
      obtain ⟨h1, h2⟩ := Prod.mk.injEq .. ▸ hky
      omega
  · intro v dv hv
    dsimp only at hv ⊢
    by_cases hvx : v = x
    · subst hvx
      rw [updC_self] at hv
      left
      rw [← Option.some.inj hv]
      exact List.mem_append_right _ (List.mem_singleton.mpr rfl)
    · rw [updC_ne _ _ _ _ hvx] at hv
      rcases hF.f7 v dv hv with hin | hle
      · exact Or.inl (List.mem_append_left _ hin)
      · exact Or.inr hle
  · intro v dv hv hvu
    dsimp only at hv ⊢
    by_cases hvx : v = x
    · subst hvx
      rw [updC_self] at hv
      left
      rw [← Option.some.inj hv]
      exact List.mem_append_right _ (List.mem_singleton.mpr rfl)
    · rw [updC_ne _ _ _ _ hvx] at hv
      rcases hF.f4 v dv hv hvu with hin | ⟨hdone, hP⟩
      · exact Or.inl (List.mem_append_left _ hin)
      · right
        refine ⟨?_, hP⟩
        intro y hy
        obtain ⟨dy, hdy, hdyle⟩ := hdone y hy
        by_cases hyx : y = x
        · subst hyx
          refine ⟨d + cell_cost (gAt g y.1 y.2), by rw [updC_self], ?_⟩
          have := hold dy hdy
          omega
        · exact ⟨dy, by rw [updC_ne _ _ _ _ hyx]; exact hdy, hdyle⟩
  · intro v dv hv hvs
    dsimp only at hv ⊢
    by_cases hvx : v = x
    · subst hvx
      rw [updC_self] at hv
      have hdv : d + cell_cost (gAt g v.1 v.2) = dv := Option.some.inj hv
      refine ⟨u, d, by rw [updC_self], ?_, hx, by omega⟩
      rw [updC_ne _ _ _ _ (Ne.symm hxu)]
      exact hF.pin
    · rw [updC_ne _ _ _ _ hvx] at hv
      obtain ⟨w, dw, hw1, hw2, hw3, hw4⟩ := hF.f6 v dv hv hvs
      by_cases hwx : w = x
      · subst hwx
        refine ⟨w, d + cell_cost (gAt g w.1 w.2), ?_, by rw [updC_self], hw3, ?_⟩
        · rw [updC_ne _ _ _ _ hvx]
          exact hw1
        · have := hold dw hw2
          omega
      · refine ⟨w, dw, ?_, ?_, hw3, hw4⟩
        · rw [updC_ne _ _ _ _ hvx]
          exact hw1
        · rw [updC_ne _ _ _ _ hwx]
          exact hw2

end Q3

namespace Q3

theorem foldl_FInv (g : List (List Char)) (s : Cell) (P : Cell → Prop) (u : Cell)
    (d : ℕ) : ∀ (l : List Cell)
    (t : (Cell → Option ℕ) × (Cell → Option Cell) × List (ℕ × Cell)),
    (∀ x ∈ l, x ∈ neighbors4 g u.1 u.2) → FInv g s P u d t →
    FInv g s P u d (l.foldl (relaxN g u d) t) := by
  intro l
  induction l with
  | nil => intro t _ hF; exact hF
  | cons x l ih =>
      intro t hl hF
      rw [List.foldl_cons]
      exact ih _ (fun y hy => hl y (List.mem_cons_of_mem x hy))
        (relaxN_FInv g s P u d t x (hl x (List.mem_cons_self x l)) hF)

theorem relaxN_mono (g : List (List Char)) (u : Cell) (d : ℕ)
    (t : (Cell → Option ℕ) × (Cell → Option Cell) × List (ℕ × Cell)) (x v : Cell)
    (dv : ℕ) (hv : t.1 v = some dv) :
    ∃ dv2, (relaxN g u d t x).1 v = some dv2 ∧ dv2 ≤ dv := by
  by_cases hfire : ltOpt (d + cell_cost (gAt g x.1 x.2)) (t.1 x) = true
  · rw [relaxN_eq_pos g u d t x hfire]
    by_cases hvx : v = x
    · subst hvx
      dsimp only
      rw [updC_self]
      rcases ltOpt_true_cases _ _ hfire with hn | ⟨dw, hdw, hlt⟩
      · rw [hn] at hv
        exact absurd hv (by simp)
      · rw [hdw] at hv
        have hd : dw = dv := Option.some.inj hv
        exact ⟨_, rfl, by omega⟩
    · dsimp only
      rw [updC_ne _ _ _ _ hvx]
      exact ⟨dv, hv, le_refl dv⟩
  · rw [relaxN_eq_neg g u d t x hfire]
    exact ⟨dv, hv, le_refl dv⟩

theorem relax_mono_fold (g : List (List Char)) (u : Cell) (d : ℕ) : ∀ (l : List Cell)
    (t : (Cell → Option ℕ) × (Cell → Option Cell) × List (ℕ × Cell)) (v : Cell)
    (dv : ℕ), t.1 v = some dv →
    ∃ dv2, (l.foldl (relaxN g u d) t).1 v = some dv2 ∧ dv2 ≤ dv := by
  intro l
  induction l with
  | nil => intro t v dv hv; exact ⟨dv, hv, le_refl dv⟩
  | cons x l ih =>
      intro t v dv hv
      rw [List.foldl_cons]
      obtain ⟨dv1, hdv1, hle1⟩ := relaxN_mono g u d t x v dv hv
      obtain ⟨dv2, hdv2, hle2⟩ := ih _ v dv1 hdv1
      exact ⟨dv2, hdv2, le_trans hle2 hle1⟩

theorem relax_edge_fold (g : List (List Char)) (u : Cell) (d : ℕ) : ∀ (l : List Cell)
    (t : (Cell → Option ℕ) × (Cell → Option Cell) × List (ℕ × Cell)),
    ∀ x ∈ l, ∃ dx, (l.foldl (relaxN g u d) t).1 x = some dx ∧
      dx ≤ d + cell_cost (gAt g x.1 x.2) := by
  intro l
  induction l with
  | nil => intro t x hx; exact absurd hx (List.not_mem_nil x)
  | cons a l ih =>
      intro t x hx
      rw [List.foldl_cons]
      rcases List.mem_cons.mp hx with rfl | hmem
      · have hstep : ∃ dx, (relaxN g u d t x).1 x = some dx ∧
            dx ≤ d + cell_cost (gAt g x.1 x.2) := by
          by_cases hfire : ltOpt (d + cell_cost (gAt g x.1 x.2)) (t.1 x) = true
          · rw [relaxN_eq_pos g u d t x hfire]
            exact ⟨_, by dsimp only; rw [updC_self], le_refl _⟩
          · rw [relaxN_eq_neg g u d t x hfire]
            obtain ⟨dv, hdv, hle⟩ := ltOpt_false_cases _ _ hfire
            exact ⟨dv, hdv, hle⟩
        obtain ⟨dx, hdx, hle⟩ := hstep
        obtain ⟨dx2, hdx2, hle2⟩ := relax_mono_fold g u d l _ x dx hdx
        exact ⟨dx2, hdx2, le_trans hle2 hle⟩
      · exact ih _ x hmem

theorem relaxN_untouched (g : List (List Char)) (u : Cell) (d : ℕ)
    (t : (Cell → Option ℕ) × (Cell → Option Cell) × List (ℕ × Cell)) (x v : Cell)
    (dv : ℕ) (hv : t.1 v = some dv) (hdvd : dv ≤ d) (hc : 1 ≤ cell_cost (gAt g x.1 x.2)) :
    (relaxN g u d t x).1 v = some dv ∧
    (∀ k, (k, v) ∈ (relaxN g u d t x).2.2 ↔ (k, v) ∈ t.2.2) := by
  by_cases hvx : v = x
  · subst hvx
    have hnofire : ¬ ltOpt (d + cell_cost (gAt g v.1 v.2)) (t.1 v) = true := by
      rw [hv]
      simp [ltOpt]
      omega
    rw [relaxN_eq_neg g u d t v hnofire]
    exact ⟨hv, fun k => Iff.rfl⟩
  · by_cases hfire : ltOpt (d + cell_cost (gAt g x.1 x.2)) (t.1 x) = true
    · rw [relaxN_eq_pos g u d t x hfire]
      constructor
      · dsimp only
        rw [updC_ne _ _ _ _ hvx]
        exact hv
      · intro k
        dsimp only
        rw [List.mem_append, List.mem_singleton]
        constructor
        · intro hor
          rcases hor with h | h
          · exact h
          · exact absurd (congrArg Prod.snd h) hvx
        · intro h
          exact Or.inl h
    · rw [relaxN_eq_neg g u d t x hfire]
      exact ⟨hv, fun k => Iff.rfl⟩

theorem relax_untouched_fold (g : List (List Char)) (u : Cell) (d : ℕ) : ∀ (l : List Cell)
    (t : (Cell → Option ℕ) × (Cell → Option Cell) × List (ℕ × Cell)) (v : Cell)
    (dv : ℕ), t.1 v = some dv → dv ≤ d →
    (∀ x ∈ l, 1 ≤ cell_cost (gAt g x.1 x.2)) →
    (l.foldl (relaxN g u d) t).1 v = some dv ∧
    (∀ k, (k, v) ∈ (l.foldl (relaxN g u d) t).2.2 ↔ (k, v) ∈ t.2.2) := by
  intro l
  induction l with
  | nil => intro t v dv hv _ _; exact ⟨hv, fun k => Iff.rfl⟩
  | cons x l ih =>
      intro t v dv hv hdvd hcost
      rw [List.foldl_cons]
      obtain ⟨h1, h2⟩ := relaxN_untouched g u d t x v dv hv hdvd
        (hcost x (List.mem_cons_self x l))
      obtain ⟨h3, h4⟩ := ih _ v dv h1 hdvd
        (fun y hy => hcost y (List.mem_cons_of_mem x hy))
      exact ⟨h3, fun k => (h4 k).trans (h2 k)⟩

theorem relax_heap_len (g : List (List Char)) (u : Cell) (d : ℕ) : ∀ (l : List Cell)
    (t : (Cell → Option ℕ) × (Cell → Option Cell) × List (ℕ × Cell)),
    (l.foldl (relaxN g u d) t).2.2.length ≤ t.2.2.length + l.length := by
  intro l
  induction l with
  | nil => intro t; exact le_refl _
  | cons x l ih =>
      intro t
      rw [List.foldl_cons]
      refine le_trans (ih _) ?_
      have hstep : (relaxN g u d t x).2.2.length ≤ t.2.2.length + 1 := by
        by_cases hfire : ltOpt (d + cell_cost (gAt g x.1 x.2)) (t.1 x) = true
        · rw [relaxN_eq_pos g u d t x hfire]
          simp
        · rw [relaxN_eq_neg g u d t x hfire]
          omega
      rw [List.length_cons]
      omega

theorem relax_heap_sub (g : List (List Char)) (u : Cell) (d : ℕ) : ∀ (l : List Cell)
    (t : (Cell → Option ℕ) × (Cell → Option Cell) × List (ℕ × Cell)) (k : ℕ) (y : Cell),
    (k, y) ∈ (l.foldl (relaxN g u d) t).2.2 → (k, y) ∈ t.2.2 ∨ y ∈ l := by
  intro l
  induction l with
  | nil => intro t k y h; exact Or.inl h
  | cons x l ih =>
      intro t k y h
      rw [List.foldl_cons] at h
      rcases ih _ k y h with hin | hmem
      · by_cases hfire : ltOpt (d + cell_cost (gAt g x.1 x.2)) (t.1 x) = true
        · rw [relaxN_eq_pos g u d t x hfire] at hin
          dsimp only at hin
          rcases List.mem_append.mp hin with h2 | h2
          · exact Or.inl h2
          · rw [List.mem_singleton] at h2
            right
            have hyx : y = x := congrArg Prod.snd h2
            rw [hyx]
            exact List.mem_cons_self x l
        · rw [relaxN_eq_neg g u d t x hfire] at hin
          exact Or.inl hin
      · exact Or.inr (List.mem_cons_of_mem x hmem)

end Q3

namespace Q3

theorem not_self_mem_neighbors4 (g : List (List Char)) (r c : ℕ) :
    (r, c) ∉ neighbors4 g r c := by
  intro h
  unfold neighbors4 at h
  rw [List.mem_filterMap] at h
  obtain ⟨p, hp, hcond⟩ := h
  split at hcond
  · rename_i hc
    rw [Bool.and_eq_true] at hc
    have hb : (0 ≤ p.1 ∧ p.1 < (g.length : ℤ) ∧ 0 ≤ p.2 ∧
        p.2 < ((g.getD 0 []).length : ℤ)) := by
      have h1 := hc.1
      unfold in_bounds at h1
      simpa using h1
    have heq := Option.some.inj hcond
    have h1 : p.1.toNat = r := congrArg Prod.fst heq
    have h2 : p.2.toNat = c := congrArg Prod.snd heq
    fin_cases hp <;> omega
  · exact absurd hcond (by simp)

theorem expand_FInv_init {g : List (List Char)} {s : Cell} {P : Cell → Prop}
    {st : DState} (inv : DInv g s P st) (d : ℕ) (u : Cell)
    (rest : List (ℕ × Cell)) (hpop : popMin st.heap = some ((d, u), rest))
    (hfresh : st.dist u = some d) :
    FInv g s P u d (st.dist, st.parent, rest) := by
  obtain ⟨hmem, hrest, hkey⟩ := popMin_spec st.heap (d, u) rest hpop
  subst hrest
  refine ⟨hfresh, inv.m1, inv.m2, ?_, inv.m8.erase _, inv.m9, ?_, ?_, ?_, inv.m6⟩
  · intro k x hk
    exact inv.m3 k x (List.erase_subset _ _ hk)
  · intro k x hk
    exact hkey (k, x) (List.erase_subset _ _ hk)
  · intro v dv hv
    rcases inv.m7 v dv hv with hin | hall
    · by_cases heq : ((dv, v) : ℕ × Cell) = (d, u)
      · right
        have hd : dv = d := congrArg Prod.fst heq
        omega
      · exact Or.inl ((List.mem_erase_of_ne heq).mpr hin)
    · exact Or.inr (hall d u hmem)
  · intro v dv hv hvu
    rcases inv.m4 v dv hv with hin | hdone
    · left
      have hne : ((dv, v) : ℕ × Cell) ≠ (d, u) := by
        intro hc
        exact hvu (congrArg Prod.snd hc)
      exact (List.mem_erase_of_ne hne).mpr hin
    · exact Or.inr hdone

theorem expand_DInv {g : List (List Char)} {s : Cell} {P : Cell → Prop}
    {st : DState} (inv : DInv g s P st) (d : ℕ) (u : Cell)
    (rest : List (ℕ × Cell)) (hpop : popMin st.heap = some ((d, u), rest))
    (hfresh : st.dist u = some d) (hPu : P u) :
    DInv g s P ⟨((neighbors4 g u.1 u.2).foldl (relaxN g u d)
        (st.dist, st.parent, rest)).1,
      ((neighbors4 g u.1 u.2).foldl (relaxN g u d) (st.dist, st.parent, rest)).2.1,
      st.expanded + 1,
      ((neighbors4 g u.1 u.2).foldl (relaxN g u d) (st.dist, st.parent, rest)).2.2⟩ := by
  have hF := foldl_FInv g s P u d (neighbors4 g u.1 u.2) (st.dist, st.parent, rest)
    (fun x hx => hx) (expand_FInv_init inv d u rest hpop hfresh)
  have hedge := relax_edge_fold g u d (neighbors4 g u.1 u.2) (st.dist, st.parent, rest)
  refine ⟨hF.f1, hF.f2, hF.f3, ?_, ?_, hF.f8, hF.f9, hF.f6⟩
  · intro v dv hv
    dsimp only at hv
    by_cases hvu : v = u
    · subst hvu
      have hd : dv = d := by
        have := hF.pin
        rw [hv] at this
        exact Option.some.inj this
      subst hd
      right
      refine ⟨?_, hPu⟩
      intro y hy
      exact hedge y hy
    · exact hF.f4 v dv hv hvu
  · intro v dv hv
    dsimp only at hv
    rcases hF.f7 v dv hv with hin | hle
    · exact Or.inl hin
    · right
      intro k x hk
      dsimp only at hk
      exact le_trans hle (hF.fk k x hk)

theorem stale_DInv {g : List (List Char)} {s : Cell} {P : Cell → Prop}
    {st : DState} (inv : DInv g s P st) (d : ℕ) (u : Cell)
    (rest : List (ℕ × Cell)) (hpop : popMin st.heap = some ((d, u), rest))
    (hstale : ¬ st.dist u = some d) :
    DInv g s P ⟨st.dist, st.parent, st.expanded + 1, rest⟩ := by
  obtain ⟨hmem, hrest, hkey⟩ := popMin_spec st.heap (d, u) rest hpop
  subst hrest
  have hne : ∀ v dv, st.dist v = some dv → ((dv, v) : ℕ × Cell) ≠ (d, u) := by
    intro v dv hv hc
    have hv2 : v = u := congrArg Prod.snd hc
    have hd2 : dv = d := congrArg Prod.fst hc
    subst hv2
    subst hd2
    exact hstale hv
  refine ⟨inv.m1, inv.m2, ?_, ?_, ?_, inv.m8.erase _, inv.m9, inv.m6⟩
  · intro k x hk
    exact inv.m3 k x (List.erase_subset _ _ hk)
  · intro v dv hv
    rcases inv.m4 v dv hv with hin | hdone
    · exact Or.inl ((List.mem_erase_of_ne (hne v dv hv)).mpr hin)
    · exact Or.inr hdone
  · intro v dv hv
    rcases inv.m7 v dv hv with hin | hall
    · exact Or.inl ((List.mem_erase_of_ne (hne v dv hv)).mpr hin)
    · right
      intro k x hk
      exact hall k x (List.erase_subset _ _ hk)

def cellsF (g : List (List Char)) : Finset Cell :=
  Finset.range g.length ×ˢ Finset.range (g.getD 0 []).length

def unsettledB (st : DState) (v : Cell) : Bool :=
  match st.dist v with
  | none => true
  | some dv => decide ((dv, v) ∈ st.heap)

/-- The termination measure of the `while` loop. -/
def dMeasure (g : List (List Char)) (st : DState) : ℕ :=
  st.heap.length + 4 * ((cellsF g).filter (fun v => unsettledB st v = true)).card

end Q3

namespace Q3

theorem stale_measure {g : List (List Char)} {s : Cell} {P : Cell → Prop}
    {st : DState} (_inv : DInv g s P st) (d : ℕ) (u : Cell)
    (rest : List (ℕ × Cell)) (hpop : popMin st.heap = some ((d, u), rest))
    (hstale : ¬ st.dist u = some d) :
    dMeasure g ⟨st.dist, st.parent, st.expanded + 1, rest⟩ < dMeasure g st := by
  obtain ⟨hmem, hrest, hkey⟩ := popMin_spec st.heap (d, u) rest hpop
  subst hrest
  have hlen : (st.heap.erase (d, u)).length = st.heap.length - 1 :=
    List.length_erase_of_mem hmem
  have hpos : 1 ≤ st.heap.length := List.length_pos.mpr (List.ne_nil_of_mem hmem)
  have hfilt : ((cellsF g).filter
      (fun v => unsettledB ⟨st.dist, st.parent, st.expanded + 1, st.heap.erase (d, u)⟩ v
        = true)).card =
      ((cellsF g).filter (fun v => unsettledB st v = true)).card := by
    congr 1
    apply Finset.filter_congr
    intro v hv
    unfold unsettledB
    dsimp only
    cases hdv : st.dist v with
    | none => rfl
    | some dv =>
        have hne : ((dv, v) : ℕ × Cell) ≠ (d, u) := by
          intro hc
          have hv2 : v = u := congrArg Prod.snd hc
          have hd2 : dv = d := congrArg Prod.fst hc
          subst hv2
          subst hd2
          exact hstale hdv
        simp only [decide_eq_true_eq, eq_iff_iff]
        exact ⟨fun h => List.erase_subset _ _ h, fun h =>
          (List.mem_erase_of_ne hne).mpr h⟩
  unfold dMeasure
  dsimp only
  rw [hfilt, hlen]
  omega

theorem expand_measure {g : List (List Char)} {s : Cell} {P : Cell → Prop}
    {st : DState} (inv : DInv g s P st) (d : ℕ) (u : Cell)
    (rest : List (ℕ × Cell)) (hpop : popMin st.heap = some ((d, u), rest))
    (hfresh : st.dist u = some d) :
    dMeasure g ⟨((neighbors4 g u.1 u.2).foldl (relaxN g u d)
        (st.dist, st.parent, rest)).1,
      ((neighbors4 g u.1 u.2).foldl (relaxN g u d) (st.dist, st.parent, rest)).2.1,
      st.expanded + 1,
      ((neighbors4 g u.1 u.2).foldl (relaxN g u d) (st.dist, st.parent, rest)).2.2⟩ <
      dMeasure g st := by
  obtain ⟨hmem, hrest, hkey⟩ := popMin_spec st.heap (d, u) rest hpop
  have hF := foldl_FInv g s P u d (neighbors4 g u.1 u.2) (st.dist, st.parent, rest)
    (fun x hx => hx) (expand_FInv_init inv d u rest hpop hfresh)
  have hlen1 : ((neighbors4 g u.1 u.2).foldl (relaxN g u d)
      (st.dist, st.parent, rest)).2.2.length ≤ rest.length + 4 := by
    have h1 := relax_heap_len g u d (neighbors4 g u.1 u.2) (st.dist, st.parent, rest)
    have h2 := neighbors4_length g u.1 u.2
    dsimp only at h1
    omega
  have hlen2 : rest.length = st.heap.length - 1 := by
    rw [hrest]
    exact List.length_erase_of_mem hmem
  have hpos : 1 ≤ st.heap.length := List.length_pos.mpr (List.ne_nil_of_mem hmem)
  have hnotin : ((d, u) : ℕ × Cell) ∉ rest := by
    rw [hrest]
    intro hc
    exact absurd ((List.Nodup.mem_erase_iff inv.m8).mp hc).1 (by simp)
  have huin : u ∈ (cellsF g).filter (fun v => unsettledB st v = true) := by
    rw [Finset.mem_filter]
    refine ⟨?_, ?_⟩
    · obtain ⟨h1, h2⟩ := inv.m9 u d hfresh
      unfold cellsF
      rw [Finset.mem_product, Finset.mem_range, Finset.mem_range]
      exact ⟨h1, h2⟩
    · unfold unsettledB
      rw [hfresh]
      simpa using hmem
  have hsub : (cellsF g).filter (fun v => unsettledB
      ⟨((neighbors4 g u.1 u.2).foldl (relaxN g u d) (st.dist, st.parent, rest)).1,
        ((neighbors4 g u.1 u.2).foldl (relaxN g u d) (st.dist, st.parent, rest)).2.1,
        st.expanded + 1,
        ((neighbors4 g u.1 u.2).foldl (relaxN g u d) (st.dist, st.parent, rest)).2.2⟩ v
        = true) ⊆
      ((cellsF g).filter (fun v => unsettledB st v = true)).erase u := by
    intro v hv
    rw [Finset.mem_filter] at hv
    obtain ⟨hcell, huns⟩ := hv
    unfold unsettledB at huns
    dsimp only at huns
    rw [Finset.mem_erase, Finset.mem_filter]
    by_cases hvu : v = u
    · subst hvu
      exfalso
      rw [hF.pin] at huns
      have hdin : ((d, v) : ℕ × Cell) ∈ ((neighbors4 g v.1 v.2).foldl (relaxN g v d)
          (st.dist, st.parent, rest)).2.2 := by
        simpa using huns
      rcases relax_heap_sub g v d (neighbors4 g v.1 v.2) (st.dist, st.parent, rest)
          d v hdin with hin | hnb
      · exact hnotin hin
      · exact not_self_mem_neighbors4 g v.1 v.2 hnb
    · refine ⟨hvu, hcell, ?_⟩
      unfold unsettledB
      cases hdv : st.dist v with
      | none => rfl
      | some dv =>
          simp only [decide_eq_true_eq]
          by_contra hnotheap
          have hle : dv ≤ d := by
            rcases inv.m7 v dv hdv with hin | hall
            · exact absurd hin hnotheap
            · exact hall d u hmem
          obtain ⟨hsame, hiff⟩ := relax_untouched_fold g u d (neighbors4 g u.1 u.2)
            (st.dist, st.parent, rest) v dv hdv hle
            (fun x hx => one_le_cell_cost (gAt g x.1 x.2))
          rw [hsame] at huns
          have hinT : ((dv, v) : ℕ × Cell) ∈ ((neighbors4 g u.1 u.2).foldl (relaxN g u d)
              (st.dist, st.parent, rest)).2.2 := by
            simpa using huns
          have hinrest := (hiff dv).mp hinT
          exact hnotheap (List.erase_subset _ _ (hrest ▸ hinrest))
  have hcard := Finset.card_le_card hsub
  rw [Finset.card_erase_of_mem huin] at hcard
  have hcardpos : 1 ≤ ((cellsF g).filter (fun v => unsettledB st v = true)).card :=
    Finset.card_pos.mpr ⟨u, huin⟩
  unfold dMeasure
  dsimp only
  omega

theorem dInit_DInv (g : List (List Char)) (s : Cell) (P : Cell → Prop)
    (hs : s.1 < g.length ∧ s.2 < (g.getD 0 []).length) : DInv g s P (dInit s) := by
  refine ⟨?_, ?_, ?_, ?_, ?_, ?_, ?_, ?_⟩
  · show (if s = s then some 0 else none) = some 0
    rw [if_pos rfl]
  · intro v dv hv
    show GWalk g s v dv
    by_cases hvs : v = s
    · subst hvs
      have h0 : dv = 0 := by
        have : (if v = v then some 0 else none) = some dv := hv
        rw [if_pos rfl] at this
        exact (Option.some.inj this).symm
      rw [h0]
      exact GWalk.nil v
    · exact absurd hv (by show ¬ (if v = s then _ else _) = _; rw [if_neg hvs]; simp)
  · intro k x hk
    show ∃ dx, (if x = s then some 0 else none) = some dx ∧ dx ≤ k
    have hks : k = 0 ∧ x = s := by
      have : ((k, x) : ℕ × Cell) ∈ [((0 : ℕ), s)] := hk
      rw [List.mem_singleton] at this
      exact ⟨congrArg Prod.fst this, congrArg Prod.snd this⟩
    rw [hks.2, if_pos rfl, hks.1]
    exact ⟨0, rfl, le_refl 0⟩
  · intro v dv hv
    left
    have hvs : v = s := by
      by_contra hne
      have : (if v = s then some 0 else none) = some dv := hv
      rw [if_neg hne] at this
      exact absurd this (by simp)
    have h0 : dv = 0 := by
      have : (if v = s then some 0 else none) = some dv := hv
      rw [hvs, if_pos rfl] at this
      exact (Option.some.inj this).symm
    rw [hvs, h0]
    exact List.mem_singleton.mpr rfl
  · intro v dv hv
    left
    have hvs : v = s := by
      by_contra hne
      have : (if v = s then some 0 else none) = some dv := hv
      rw [if_neg hne] at this
      exact absurd this (by simp)
    have h0 : dv = 0 := by
      have : (if v = s then some 0 else none) = some dv := hv
      rw [hvs, if_pos rfl] at this
      exact (Option.some.inj this).symm
    rw [hvs, h0]
    exact List.mem_singleton.mpr rfl
  · exact List.nodup_singleton _
  · intro v dv hv
    have hvs : v = s := by
      by_contra hne
      have : (if v = s then some 0 else none) = some dv := hv
      rw [if_neg hne] at this
      exact absurd this (by simp)
    rw [hvs]
    exact hs
  · intro v dv hv hvs
    exfalso
    have : (if v = s then some 0 else none) = some dv := hv
    rw [if_neg hvs] at this
    exact absurd this (by simp)

theorem dInit_measure (g : List (List Char)) (s : Cell) :
    dMeasure g (dInit s) < 4 * g.length * (g.getD 0 []).length + 2 := by
  unfold dMeasure dInit
  dsimp only
  have hcard : ((cellsF g).filter (fun v => unsettledB
      ⟨fun v => if v = s then some 0 else none, fun x => none, 0, [(0, s)]⟩ v
        = true)).card ≤ g.length * (g.getD 0 []).length := by
    refine le_trans (Finset.card_le_card (Finset.filter_subset _ _)) ?_
    unfold cellsF
    rw [Finset.card_product, Finset.card_range, Finset.card_range]
  have h4 : 4 * (((cellsF g).filter (fun v => unsettledB
      ⟨fun v => if v = s then some 0 else none, fun x => none, 0, [(0, s)]⟩ v
        = true)).card) ≤ 4 * (g.length * (g.getD 0 []).length) :=
    Nat.mul_le_mul_left 4 hcard
  have hassoc : 4 * g.length * (g.getD 0 []).length =
      4 * (g.length * (g.getD 0 []).length) := by ring
  rw [List.length_singleton, hassoc]
  omega

end Q3

namespace Q3

theorem rec_go_spec (g : List (List Char)) (D : Cell → Option ℕ)
    (Pr : Cell → Option Cell) (s : Cell)
    (hch : ∀ v dv, D v = some dv → v ≠ s → ∃ w dw, Pr v = some w ∧ D w = some dw ∧
      v ∈ neighbors4 g w.1 w.2 ∧ dw + cell_cost (gAt g v.1 v.2) ≤ dv) :
    ∀ (fuel : ℕ) (cur : Cell) (dc : ℕ), D cur = some dc → dc < fuel →
    ∀ acc : List Cell,
    ∃ q : List Cell, rec_go Pr s fuel cur acc = (acc ++ q).reverse ∧
      (cur :: q).getLast? = some s ∧
      List.Chain' (fun a b => a ∈ neighbors4 g b.1 b.2) (cur :: q) ∧
      (((cur :: q).dropLast).map (fun x => cell_cost (gAt g x.1 x.2))).sum ≤ dc := by
  intro fuel
  induction fuel with
  | zero => intro cur dc _ h; omega
  | succ f ih =>
      intro cur dc hD hf acc
      by_cases hcs : cur = s
      · refine ⟨[], ?_, ?_, ?_, ?_⟩
        · show rec_go Pr s (f + 1) cur acc = _
          unfold rec_go
          rw [if_pos hcs, List.append_nil]
        · rw [hcs]
          rfl
        · exact List.chain'_singleton cur
        · simp
      · obtain ⟨w, dw, hw1, hw2, hw3, hw4⟩ := hch cur dc hD hcs
        have hcost := one_le_cell_cost (gAt g cur.1 cur.2)
        have hdwf : dw < f := by omega
        obtain ⟨q2, heq, hlast, hchain, hsum⟩ := ih w dw hw2 hdwf (acc ++ [w])
        refine ⟨w :: q2, ?_, ?_, ?_, ?_⟩
        · show rec_go Pr s (f + 1) cur acc = _
          unfold rec_go
          rw [if_neg hcs, hw1]
          dsimp only
          rw [heq, List.append_assoc, List.singleton_append]
        · rw [List.getLast?_cons_cons]
          exact hlast
        · exact List.chain'_cons.mpr ⟨hw3, hchain⟩
        · have hdl : (cur :: w :: q2).dropLast = cur :: (w :: q2).dropLast := by
            rfl
          rw [hdl, List.map_cons, List.sum_cons]
          omega

theorem chain_walk (g : List (List Char)) : ∀ (l : List Cell) (a : Cell),
    l.head? = some a → List.Chain' (fun x y => y ∈ neighbors4 g x.1 x.2) l →
    ∀ b, l.getLast? = some b → GWalk g a b (pathCost g l) := by
  intro l
  induction l using List.reverseRecOn with
  | nil => intro a ha; exact absurd ha (by simp)
  | append_singleton l x ih =>
      intro a ha hchain b hb
      have hbx : x = b := by
        rw [List.getLast?_append_cons, List.getLast?_singleton] at hb
        exact Option.some.inj hb
      rw [← hbx]
      cases l with
      | nil =>
          have hax : x = a := by
            rw [List.nil_append, List.head?_cons] at ha
            exact Option.some.inj ha
          rw [hax]
          show GWalk g a a (pathCost g [a])
          have h0 : pathCost g [a] = 0 := by
            unfold pathCost
            rfl
          rw [h0]
          exact GWalk.nil a
      | cons c l2 =>
          rw [List.chain'_append] at hchain
          obtain ⟨hch1, hch2, hconn⟩ := hchain
          have hlastc : ∃ lc, (c :: l2).getLast? = some lc := by
            cases hl : (c :: l2).getLast? with
            | none => exact absurd hl (by simp)
            | some lc => exact ⟨lc, rfl⟩
          obtain ⟨lc, hlc⟩ := hlastc
          have hxadj : x ∈ neighbors4 g lc.1 lc.2 :=
            hconn lc hlc x (by simp)
          have ha2 : (c :: l2).head? = some a := by
            rw [List.cons_append, List.head?_cons] at ha
            rw [List.head?_cons]
            exact ha
          have hwalk := ih a ha2 hch1 lc hlc
          have hsnoc := GWalk.snoc a lc x (pathCost g (c :: l2)) hwalk hxadj
          have hc2 : pathCost g ((c :: l2) ++ [x]) =
              pathCost g (c :: l2) + cell_cost (gAt g x.1 x.2) := by
            unfold pathCost
            rw [List.cons_append, List.tail_cons, List.tail_cons, List.map_append,
              List.sum_append]
            simp
          rw [hc2]
          exact hsnoc

end Q3

namespace Q3

theorem reconstruct_spec (g : List (List Char)) (D : Cell → Option ℕ)
    (Pr : Cell → Option Cell) (s go : Cell) (hm1 : D s = some 0)
    (hch : ∀ v dv, D v = some dv → v ≠ s → ∃ w dw, Pr v = some w ∧ D w = some dw ∧
      v ∈ neighbors4 g w.1 w.2 ∧ dw + cell_cost (gAt g v.1 v.2) ≤ dv)
    (dgo : ℕ) (hgo : D go = some dgo) :
    ∃ p : List Cell, reconstruct Pr s go (dgo + 1) = p ∧ p.head? = some s ∧
      p.getLast? = some go ∧
      List.Chain' (fun a b => b ∈ neighbors4 g a.1 a.2) p ∧
      pathCost g p ≤ dgo ∧ p ≠ [] ∧ GWalk g s go (pathCost g p) := by
  by_cases hgs : go = s
  · subst hgs
    have hrec : reconstruct Pr go go (dgo + 1) = [go] := by
      unfold reconstruct
      rw [if_neg (by simp)]
      unfold rec_go
      rw [if_pos rfl]
      rfl
    refine ⟨[go], hrec, rfl, rfl, List.chain'_singleton go, ?_, by simp, ?_⟩
    · show pathCost g [go] ≤ dgo
      unfold pathCost
      simp
    · have h0 : pathCost g [go] = 0 := by
        unfold pathCost
        rfl
      rw [h0]
      exact GWalk.nil go
  · obtain ⟨w, dw, hw1, hw2, hw3, hw4⟩ := hch go dgo hgo hgs
    obtain ⟨q, heq, hlast, hchain, hsum⟩ :=
      rec_go_spec g D Pr s hch (dgo + 1) go dgo hgo (by omega) [go]
    have hrec : reconstruct Pr s go (dgo + 1) = (go :: q).reverse := by
      unfold reconstruct
      rw [if_neg (by rw [hw1]; simp)]
      rw [heq]
      rfl
    refine ⟨(go :: q).reverse, hrec, ?_, ?_, ?_, ?_, ?_, ?_⟩
    · rw [List.head?_reverse]
      exact hlast
    · rw [List.getLast?_reverse]
      rfl
    · rw [List.chain'_reverse]
      exact hchain
    · show pathCost g ((go :: q).reverse) ≤ dgo
      unfold pathCost
      rw [List.tail_reverse_eq_reverse_dropLast, List.map_reverse, List.sum_reverse]
      exact hsum
    · simp
    · have hhead : ((go :: q).reverse).head? = some s := by
        rw [List.head?_reverse]
        exact hlast
      have hlast2 : ((go :: q).reverse).getLast? = some go := by
        rw [List.getLast?_reverse]
        rfl
      exact chain_walk g ((go :: q).reverse) s hhead
        (by rw [List.chain'_reverse]; exact hchain) go hlast2

end Q3

namespace Q3

theorem dloop_master (g : List (List Char)) (s go : Cell) :
    ∀ (fuel : ℕ) (st : DState), DInv g s (fun v => v ≠ go) st →
    dMeasure g st < fuel →
    (∃ p d e, dijkstra_loop g s go fuel st = (p, ((d : ℕ) : WithTop ℕ), e) ∧
      p.head? = some s ∧ p.getLast? = some go ∧
      List.Chain' (fun a b => b ∈ neighbors4 g a.1 a.2) p ∧
      pathCost g p = d ∧ GWalk g s go d ∧ ∀ c, GWalk g s go c → d ≤ c) ∨
    ((∀ c, ¬ GWalk g s go c) ∧ ∃ e, dijkstra_loop g s go fuel st = ([], ⊤, e)) := by
  intro fuel
  induction fuel with
  | zero => intro st _ h; omega
  | succ f ih =>
      intro st inv hm
      cases hpop : popMin st.heap with
      | none =>
          right
          have hheap : st.heap = [] := by
            cases hh : st.heap with
            | nil => rfl
            | cons a l =>
                rw [hh] at hpop
                exact absurd hpop (by simp [popMin])
          constructor
          · intro c hw
            rcases cut_main inv go c hw with ⟨dv, hdv, hle⟩ | ⟨k, y, hky, hle⟩
            · rcases inv.m4 go dv hdv with hin | ⟨hdone, hne⟩
              · rw [hheap] at hin
                exact absurd hin (List.not_mem_nil _)
              · exact hne rfl
            · rw [hheap] at hky
              exact absurd hky (List.not_mem_nil _)
          · refine ⟨st.expanded, ?_⟩
            show dijkstra_loop g s go (f + 1) st = _
            unfold dijkstra_loop
            rw [hpop]
      | some pr =>
          obtain ⟨du, rest⟩ := pr
          obtain ⟨d, u⟩ := du
          obtain ⟨hmem, hrest, hkey⟩ := popMin_spec st.heap (d, u) rest hpop
          by_cases hfresh : st.dist u = some d
          · by_cases hgoal : u = go
            · left
              have hgo2 : st.dist go = some d := by
                rw [← hgoal]
                exact hfresh
              have hopt : ∀ c, GWalk g s go c → d ≤ c := by
                intro c hw
                rcases cut_main inv go c hw with ⟨dv, hdv, hle⟩ | ⟨k, y, hky, hle⟩
                · rw [hgo2] at hdv
                  rw [Option.some.inj hdv]
                  exact hle
                · exact le_trans (hkey (k, y) hky) hle
              obtain ⟨p, hrec, hhead, hlastp, hchain, hcle, hpne, hwalkp⟩ :=
                reconstruct_spec g st.dist st.parent s go inv.m1 inv.m6 d hgo2
              have hceq : pathCost g p = d :=
                le_antisymm hcle (hopt (pathCost g p) hwalkp)
              refine ⟨p, d, st.expanded + 1, ?_, hhead, hlastp, hchain, hceq, ?_, hopt⟩
              · show dijkstra_loop g s go (f + 1) st = _
                unfold dijkstra_loop
                rw [hpop]
                dsimp only
                rw [if_pos hfresh, if_pos hgoal, hrec]
              · rw [← hceq]
                exact hwalkp
            · have hstep : dijkstra_loop g s go (f + 1) st = dijkstra_loop g s go f
                  ⟨((neighbors4 g u.1 u.2).foldl (relaxN g u d)
                      (st.dist, st.parent, rest)).1,
                    ((neighbors4 g u.1 u.2).foldl (relaxN g u d)
                      (st.dist, st.parent, rest)).2.1,
                    st.expanded + 1,
                    ((neighbors4 g u.1 u.2).foldl (relaxN g u d)
                      (st.dist, st.parent, rest)).2.2⟩ := by
                conv_lhs => unfold dijkstra_loop
                rw [hpop]
                dsimp only
                rw [if_pos hfresh, if_neg hgoal]
              rw [hstep]
              exact ih _ (expand_DInv inv d u rest hpop hfresh hgoal)
                (by have := expand_measure (P := fun v => v ≠ go) inv d u rest hpop hfresh
                    omega)
          · have hstep : dijkstra_loop g s go (f + 1) st = dijkstra_loop g s go f
                ⟨st.dist, st.parent, st.expanded + 1, rest⟩ := by
              conv_lhs => unfold dijkstra_loop
              rw [hpop]
              dsimp only
              rw [if_neg hfresh]
            rw [hstep]
            exact ih _ (stale_DInv inv d u rest hpop hfresh)
              (by have := stale_measure (P := fun v => v ≠ go) inv d u rest hpop hfresh
                  omega)

end Q3

namespace Q3

theorem dex_master (g : List (List Char)) (s : Cell) :
    ∀ (fuel : ℕ) (st : DState), DInv g s (fun _ => True) st → dMeasure g st < fuel →
    DInv g s (fun _ => True) (dex_loop g fuel st) ∧ (dex_loop g fuel st).heap = [] := by
  intro fuel
  induction fuel with
  | zero => intro st _ h; omega
  | succ f ih =>
      intro st inv hm
      cases hpop : popMin st.heap with
      | none =>
          have hheap : st.heap = [] := by
            cases hh : st.heap with
            | nil => rfl
            | cons a l =>
                rw [hh] at hpop
                exact absurd hpop (by simp [popMin])
          have hstep : dex_loop g (f + 1) st = st := by
            conv_lhs => unfold dex_loop
            rw [hpop]
          rw [hstep]
          exact ⟨inv, hheap⟩
      | some pr =>
          obtain ⟨du, rest⟩ := pr
          obtain ⟨d, u⟩ := du
          by_cases hfresh : st.dist u = some d
          · have hstep : dex_loop g (f + 1) st = dex_loop g f
                ⟨((neighbors4 g u.1 u.2).foldl (relaxN g u d)
                    (st.dist, st.parent, rest)).1,
                  ((neighbors4 g u.1 u.2).foldl (relaxN g u d)
                    (st.dist, st.parent, rest)).2.1,
                  st.expanded + 1,
                  ((neighbors4 g u.1 u.2).foldl (relaxN g u d)
                    (st.dist, st.parent, rest)).2.2⟩ := by
              conv_lhs => unfold dex_loop
              rw [hpop]
              dsimp only
              rw [if_pos hfresh]
            rw [hstep]
            exact ih _ (expand_DInv inv d u rest hpop hfresh trivial)
              (by have := expand_measure (P := fun v => True) inv d u rest hpop hfresh
                  omega)
          · have hstep : dex_loop g (f + 1) st = dex_loop g f
                ⟨st.dist, st.parent, st.expanded + 1, rest⟩ := by
              conv_lhs => unfold dex_loop
              rw [hpop]
              dsimp only
              rw [if_neg hfresh]
            rw [hstep]
            exact ih _ (stale_DInv inv d u rest hpop hfresh)
              (by have := stale_measure (P := fun v => True) inv d u rest hpop hfresh
                  omega)

theorem fit_line_length (cols : ℕ) (line : List Char) :
    (fit_line cols line).length = cols := by
  unfold fit_line
  split
  · rename_i h
    rw [List.length_append, List.length_replicate]
    omega
  · rename_i h
    rw [List.length_take]
    omega

theorem find_char_spec : ∀ (g : List (List Char)) (ch : Char) (p : Cell),
    find_char g ch = some p → p.1 < g.length ∧ p.2 < (g.getD p.1 []).length := by
  intro g
  induction g with
  | nil => intro ch p h; exact absurd h (by simp [find_char])
  | cons row rest ih =>
      intro ch p h
      unfold find_char at h
      cases hidx : row.findIdx? (fun x => x = ch) with
      | some c =>
          rw [hidx] at h
          have hp : p = (0, c) := (Option.some.inj h).symm
          subst hp
          have hc : c < row.length :=
            (List.findIdx?_eq_some_iff_findIdx_eq.mp hidx).1
          exact ⟨by simp, by simpa using hc⟩
      | none =>
          rw [hidx] at h
          cases hrest : find_char rest ch with
          | none =>
              rw [hrest] at h
              exact absurd h (by simp)
          | some q =>
              rw [hrest] at h
              have hp : p = (q.1 + 1, q.2) := (Option.some.inj h).symm
              subst hp
              obtain ⟨h1, h2⟩ := ih ch q hrest
              constructor
              · rw [List.length_cons]
                omega
              · show q.2 < ((row :: rest).getD (q.1 + 1) []).length
                have hgd : (row :: rest).getD (q.1 + 1) [] = rest.getD q.1 [] := by
                  rfl
                rw [hgd]
                exact h2

theorem read_grid_ok (rows cols : ℕ) (lines : List (List Char))
    (g : List (List Char)) (s gl : Cell)
    (h : read_grid rows cols lines = Except.ok (g, s, gl)) :
    g = (lines.take rows).map (fit_line cols) ∧
    find_char g 'S' = some s ∧ find_char g 'G' = some gl := by
  unfold read_grid at h
  split at h
  · exact absurd h (by simp)
  · dsimp only at h
    cases hS : find_char ((lines.take rows).map (fit_line cols)) 'S' with
    | none =>
        rw [hS] at h
        cases hG : find_char ((lines.take rows).map (fit_line cols)) 'G' with
        | none => rw [hG] at h; exact absurd h (by simp)
        | some q => rw [hG] at h; exact absurd h (by simp)
    | some sp =>
        rw [hS] at h
        cases hG : find_char ((lines.take rows).map (fit_line cols)) 'G' with
        | none => rw [hG] at h; exact absurd h (by simp)
        | some gp =>
            rw [hG] at h
            have h2 : (((lines.take rows).map (fit_line cols), sp, gp) :
                List (List Char) × Cell × Cell) = (g, s, gl) := Except.ok.inj h
            have hg : (lines.take rows).map (fit_line cols) = g := congrArg Prod.fst h2
            have hs : sp = s := congrArg (fun x : List (List Char) × Cell × Cell =>
              x.2.1) h2
            have hgl : gp = gl := congrArg (fun x : List (List Char) × Cell × Cell =>
              x.2.2) h2
            rw [← hg, ← hs, ← hgl]
            exact ⟨rfl, hS, hG⟩

theorem grid_width (rows cols : ℕ) (lines : List (List Char)) (i : ℕ)
    (hi : i < ((lines.take rows).map (fit_line cols)).length) :
    (((lines.take rows).map (fit_line cols)).getD i []).length = cols := by
  rw [List.getD_eq_getElem _ _ hi]
  rw [List.getElem_map]
  exact fit_line_length cols _

end Q3

namespace Q3

theorem s_bounds_of_read (rows cols : ℕ) (lines : List (List Char))
    (g : List (List Char)) (s gl : Cell)
    (hread : read_grid rows cols lines = Except.ok (g, s, gl)) :
    s.1 < g.length ∧ s.2 < (g.getD 0 []).length := by
  obtain ⟨hg, hS, hG⟩ := read_grid_ok rows cols lines g s gl hread
  obtain ⟨h1, h2⟩ := find_char_spec g 'S' s hS
  subst hg
  refine ⟨h1, ?_⟩
  rw [grid_width rows cols lines 0 (by omega)]
  rw [grid_width rows cols lines s.1 h1] at h2
  exact h2

/-- C3: for every grid accepted by `read_grid`, when the goal is 4-connected
to the start through passable cells, `dijkstra` returns a path from `S` to
`G` whose entry-cost sum is minimal over all such walks; when no such walk
exists it returns the empty path with infinite cost; and the early-stop cost
coincides with the distance label obtained by the run-to-exhaustion variant. -/
theorem C3_dijkstra_grid_correct (rows cols : ℕ) (lines : List (List Char))
    (g : List (List Char)) (s gl : Cell)
    (hread : read_grid rows cols lines = Except.ok (g, s, gl)) :
    ((∃ c, GWalk g s gl c) →
      ∃ p d e, dijkstra g s gl = (p, ((d : ℕ) : WithTop ℕ), e) ∧
        p.head? = some s ∧ p.getLast? = some gl ∧
        List.Chain' (fun a b => b ∈ neighbors4 g a.1 a.2) p ∧
        pathCost g p = d ∧ GWalk g s gl d ∧ (∀ c, GWalk g s gl c → d ≤ c)) ∧
    ((∀ c, ¬ GWalk g s gl c) → ∃ e, dijkstra g s gl = ([], ⊤, e)) ∧
    (dijkstra g s gl).2.1 = (match (dex g s).dist gl with
      | some dgo => ((dgo : ℕ) : WithTop ℕ)
      | none => ⊤) := by
  have hsb := s_bounds_of_read rows cols lines g s gl hread
  have hdij : dijkstra g s gl = dijkstra_loop g s gl
      (4 * g.length * (g.getD 0 []).length + 2) (dInit s) := rfl
  have hdex : dex g s = dex_loop g (4 * g.length * (g.getD 0 []).length + 2)
      (dInit s) := rfl
  have hmain := dloop_master g s gl (4 * g.length * (g.getD 0 []).length + 2)
    (dInit s) (dInit_DInv g s (fun v => v ≠ gl) hsb) (dInit_measure g s)
  obtain ⟨invF, hempty⟩ := dex_master g s (4 * g.length * (g.getD 0 []).length + 2)
    (dInit s) (dInit_DInv g s (fun _ => True) hsb) (dInit_measure g s)
  rw [← hdij] at hmain
  rw [← hdex] at invF hempty
  have hdexopt : ∀ c, GWalk g s gl c → ∃ dv, (dex g s).dist gl = some dv ∧ dv ≤ c := by
    intro c hw
    rcases cut_main invF gl c hw with h | ⟨k, y, hky, _⟩
    · exact h
    · rw [hempty] at hky
      exact absurd hky (List.not_mem_nil _)
  refine ⟨?_, ?_, ?_⟩
  · intro hreach
    rcases hmain with hleft | ⟨hnone, _⟩
    · exact hleft
    · obtain ⟨c, hw⟩ := hreach
      exact absurd hw (hnone c)
  · intro hun
    rcases hmain with ⟨p, d, e, _, _, _, _, _, hwd, _⟩ | ⟨_, he⟩
    · exact absurd hwd (hun d)
    · exact he
  · by_cases hreach : ∃ c, GWalk g s gl c
    · rcases hmain with ⟨p, d, e, heq, _, _, _, _, hwd, hopt⟩ | ⟨hnone, _⟩
      · obtain ⟨dv, hdv, hdvle⟩ := hdexopt d hwd
        have hdled : d ≤ dv := hopt dv (invF.m2 gl dv hdv)
        have hdeq : dv = d := by omega
        rw [heq, hdv, hdeq]
      · obtain ⟨c, hw⟩ := hreach
        exact absurd hw (hnone c)
    · rcases hmain with ⟨p, d, e, heq, _, _, _, _, hwd, hopt⟩ | ⟨hnone, e, he⟩
      · exact absurd ⟨d, hwd⟩ hreach
      · have hnodex : (dex g s).dist gl = none := by
          cases hdx : (dex g s).dist gl with
          | none => rfl
          | some dv => exact absurd (invF.m2 gl dv hdx) (hnone dv)
        rw [he, hnodex]

/-- Witness for C3 on the padded 2×3 grid: the start-goal pair is connected
through the padded second row, and the optimal cost is `4`. -/
theorem C3_dijkstra_grid_correct_witness :
    ∃ p d e, dijkstra [['S', '#', 'G'], [' ', ' ', ' ']] (0, 0) (0, 2) =
        (p, ((d : ℕ) : WithTop ℕ), e) ∧
      p.head? = some ((0 : ℕ), (0 : ℕ)) ∧ p.getLast? = some ((0 : ℕ), (2 : ℕ)) ∧
      List.Chain' (fun a b => b ∈ neighbors4 [['S', '#', 'G'], [' ', ' ', ' ']]
        a.1 a.2) p ∧
      pathCost [['S', '#', 'G'], [' ', ' ', ' ']] p = d ∧
      GWalk [['S', '#', 'G'], [' ', ' ', ' ']] (0, 0) (0, 2) d ∧
      (∀ c, GWalk [['S', '#', 'G'], [' ', ' ', ' ']] (0, 0) (0, 2) c → d ≤ c) := by
  have hw : GWalk [['S', '#', 'G'], [' ', ' ', ' ']] (0, 0) (0, 2) 4 := by
    have w0 : GWalk [['S', '#', 'G'], [' ', ' ', ' ']] (0, 0) (0, 0) 0 :=
      GWalk.nil (0, 0)
    have w1 := GWalk.snoc (0, 0) (0, 0) (1, 0) 0 w0 (by decide)
    have w2 := GWalk.snoc (0, 0) (1, 0) (1, 1) _ w1 (by decide)
    have w3 := GWalk.snoc (0, 0) (1, 1) (1, 2) _ w2 (by decide)
    have w4 := GWalk.snoc (0, 0) (1, 2) (0, 2) _ w3 (by decide)
    exact w4
  exact (C3_dijkstra_grid_correct 2 3 [['S', '#', 'G'], []]
    [['S', '#', 'G'], [' ', ' ', ' ']] (0, 0) (0, 2) (by rfl)).1 ⟨4, hw⟩

/-- C7 (amended): when the goal is unreachable, `dijkstra` itself does return
the empty path, infinite cost and its expansion count as a normal value — but
`solve_file` then reports only the single no-path message, without the cost or
the expansion count. -/
theorem C7_solve_file_no_path (rows cols : ℕ) (lines : List (List Char))
    (g : List (List Char)) (s gl : Cell)
    (hread : read_grid rows cols lines = Except.ok (g, s, gl))
    (hunreach : ∀ c, ¬ GWalk g s gl c) :
    (∃ e, dijkstra g s gl = ([], ⊤, e)) ∧
    solve_file rows cols lines = Except.ok ["Nenhum caminho encontrado."] := by
  have hsb := s_bounds_of_read rows cols lines g s gl hread
  have hdij : dijkstra g s gl = dijkstra_loop g s gl
      (4 * g.length * (g.getD 0 []).length + 2) (dInit s) := rfl
  have hmain := dloop_master g s gl (4 * g.length * (g.getD 0 []).length + 2)
    (dInit s) (dInit_DInv g s (fun v => v ≠ gl) hsb) (dInit_measure g s)
  rw [← hdij] at hmain
  obtain ⟨e, he⟩ : ∃ e, dijkstra g s gl = ([], ⊤, e) := by
    rcases hmain with ⟨p, d, e2, _, _, _, _, _, hwd, _⟩ | ⟨_, he⟩
    · exact absurd hwd (hunreach d)
    · exact he
  refine ⟨⟨e, he⟩, ?_⟩
  unfold solve_file
  rw [hread]
  dsimp only
  rw [he]
  dsimp only
  rw [if_pos rfl]

end Q3

namespace Q3

/-- Witness for C7 (amended) on the 1×3 grid `S#G`, whose goal is walled off. -/
theorem C7_solve_file_no_path_witness :
    (∃ e, dijkstra [['S', '#', 'G']] (0, 0) (0, 2) = ([], ⊤, e)) ∧
    solve_file 1 3 [['S', '#', 'G']] = Except.ok ["Nenhum caminho encontrado."] := by
  have hunreach : ∀ c, ¬ GWalk [['S', '#', 'G']] (0, 0) (0, 2) c := by
    have hstay : ∀ (v : Cell) (c : ℕ), GWalk [['S', '#', 'G']] (0, 0) v c →
        v = (0, 0) := by
      intro v c h
      induction h with
      | nil => rfl
      | snoc v2 x c2 prev hx ih =>
          rw [ih] at hx
          have hnil : neighbors4 [['S', '#', 'G']] (((0 : ℕ), (0 : ℕ)) : Cell).1
              (((0 : ℕ), (0 : ℕ)) : Cell).2 = [] := by decide
          rw [hnil] at hx
          exact absurd hx (List.not_mem_nil _)
    intro c hw
    exact absurd (hstay (0, 2) c hw) (by decide)
  exact C7_solve_file_no_path 1 3 [['S', '#', 'G']] [['S', '#', 'G']] (0, 0) (0, 2)
    (by rfl) hunreach

end Q3
